import Mathlib

/-!
Verification of the pywikigraph shortest-paths engine.

The development shallowly embeds `src/pywikigraph/wikigraph.py`:

* `WikiGraph` models a loaded graph: `topics` is the inverse of the
  topic→index dictionary (topic of id `i` is `topics[i]`; ids are assigned
  densely in insertion order, exactly as `set_graph` does), and `edges` is the
  directed edge multiset in id space (the COO data backing the CSR matrix).
* `entry g i j` is the `(i, j)` entry of the adjacency matrix `A` (duplicate
  coordinates are summed, as in `scipy.sparse.csr_matrix`).
* `directedChildren` / `directedAncestors` model the CSR row slice and the
  CSC column slice; `undirectedRow` models the row slice of the materialized
  `A + Aᵀ` matrix; `undirectedNeighbors` models `_get_undirected_neighbors`
  with its `optimize_memory` branch.
* `searchLoop` models the bidirectional BFS of `get_shortest_paths_info`;
  `srcChains` / `tgtChains` / `assemblePaths` model the path reconstruction
  (the work-queue order of the Python `deque` is immaterial: the result is
  counted and sorted, so the embedding enumerates each queue seed separately).
* Python dict/set iteration order never influences the returned triple, so
  sets of ids are modelled as `Finset Nat` and the bookkeeping dictionaries
  as functions out of `Nat`.
-/

namespace Wiki

/-- A loaded wikigraph.  `topics` lists the topic string of each id (so it is
the inverse of the `topic_index_map` dictionary), `edges` is the directed edge
multiset in id space and `optimizeMemory` is the `optimize_memory` flag. -/
structure WikiGraph where
  topics : List String
  edges : List (Nat × Nat)
  optimizeMemory : Bool := true

namespace WikiGraph

/-- Number of topics, i.e. the dimension `N` of the adjacency matrix. -/
def n (g : WikiGraph) : Nat := g.topics.length

/-- The graph `g` with the `optimize_memory` flag replaced by `b`. -/
def withOm (g : WikiGraph) (b : Bool) : WikiGraph := { g with optimizeMemory := b }

/-- Well-formedness of a loaded graph: the topic↔id mapping is bijective
(distinct topics) and every edge endpoint is a valid id.  Both invariants are
guaranteed by the persisted artifact and by `set_graph`. -/
def Wf (g : WikiGraph) : Prop :=
  g.topics.Nodup ∧ ∀ e ∈ g.edges, e.1 < g.n ∧ e.2 < g.n

end WikiGraph

/-- `get_standard`: canonicalization by lowercasing.  This is
`String.toLower` (see `getStandard_eq_toLower`), written directly on the
character list so that it is a structural recursion. -/
def getStandard (t : String) : String := ⟨t.data.map Char.toLower⟩

namespace WikiGraph

/-- `topic_index_map` as a lookup: the id of a (canonical) topic string. -/
def topicIndexMap (g : WikiGraph) (t : String) : Option Nat := g.topics.indexOf? t

/-- `index_topic_map`: the topic string of an id (total on ids `< g.n`). -/
def indexTopicMap (g : WikiGraph) (i : Nat) : String := g.topics.getD i ""

/-- `_exists`: whether a topic (after canonicalization) is in the index. -/
def existsTopic (g : WikiGraph) (t : String) : Bool :=
  (g.topicIndexMap (getStandard t)).isSome

/-- The `(i, j)` entry of the directed adjacency matrix `A` (the number of
occurrences of the edge in the COO list; `csr_matrix` sums duplicates). -/
def entry (g : WikiGraph) (i j : Nat) : Nat := g.edges.count (i, j)

/-- `_get_directed_children`: the set of stored column indices of CSR row `v`,
i.e. the successors of `v`. -/
def directedChildren (g : WikiGraph) (v : Nat) : Finset Nat :=
  (Finset.range g.n).filter fun u => g.entry v u ≠ 0

/-- `_get_directed_ancestors`: the set of stored row indices of CSC column
`v`, i.e. the predecessors of `v`. -/
def directedAncestors (g : WikiGraph) (v : Nat) : Finset Nat :=
  (Finset.range g.n).filter fun u => g.entry u v ≠ 0

/-- Row `v` of the materialized symmetric matrix `A + Aᵀ`
(`adj_matrix_undirected_csr`), used when `optimize_memory` is off. -/
def undirectedRow (g : WikiGraph) (v : Nat) : Finset Nat :=
  (Finset.range g.n).filter fun u => g.entry v u + g.entry u v ≠ 0

/-- `_get_undirected_neighbors`, with its `optimize_memory` branch. -/
def undirectedNeighbors (g : WikiGraph) (v : Nat) : Finset Nat :=
  if g.optimizeMemory then g.directedChildren v ∪ g.directedAncestors v
  else g.undirectedRow v

/-- `_get_children` on ids. -/
def childrenSet (g : WikiGraph) (v : Nat) (directed : Bool) : Finset Nat :=
  if directed then g.directedChildren v else g.undirectedNeighbors v

/-- `_get_ancestors` on ids. -/
def ancestorsSet (g : WikiGraph) (v : Nat) (directed : Bool) : Finset Nat :=
  if directed then g.directedAncestors v else g.undirectedNeighbors v

/-- `get_children`: the child topics of a topic string.  A topic missing from
the index makes the Python code raise `KeyError`; this is modelled by
returning `none`. -/
def getChildren (g : WikiGraph) (topic : String) (directed : Bool := true) :
    Option (Finset String) :=
  let topic := getStandard topic
  match g.topicIndexMap topic with
  | none => none
  | some i => some ((g.childrenSet i directed).image g.indexTopicMap)

/-- `get_ancestors`: the ancestor topics of a topic string (`none` models the
`KeyError` on an unknown topic). -/
def getAncestors (g : WikiGraph) (topic : String) (directed : Bool := true) :
    Option (Finset String) :=
  let topic := getStandard topic
  match g.topicIndexMap topic with
  | none => none
  | some i => some ((g.ancestorsSet i directed).image g.indexTopicMap)

/-- The edge relation of the graph in id space: a directed edge when
`directed`, an edge in either direction otherwise. -/
def hasEdge (g : WikiGraph) (directed : Bool) (i j : Nat) : Bool :=
  if directed then decide ((i, j) ∈ g.edges)
  else decide ((i, j) ∈ g.edges ∨ (j, i) ∈ g.edges)

/-- The edge relation of the graph on (canonical) topic strings. -/
def hasEdgeStr (g : WikiGraph) (directed : Bool) (a b : String) : Bool :=
  match g.topicIndexMap a, g.topicIndexMap b with
  | some i, some j => g.hasEdge directed i j
  | _, _ => false

end WikiGraph

/-! ### The bidirectional search -/

/-- The per-query transient state of `get_shortest_paths_info`.  The
enumerate-mode bookkeeping (`srcAnc`, `tgtChl`) and the count-mode
bookkeeping (`srcCnt`, `tgtCnt`) are both present; each mode only ever
touches and reads its own pair, mirroring the `no_paths` branches. -/
structure SearchState where
  srcFrontier : Finset Nat
  tgtFrontier : Finset Nat
  srcVisited : Finset Nat
  tgtVisited : Finset Nat
  srcAnc : Nat → Finset Nat
  tgtChl : Nat → Finset Nat
  srcCnt : Nat → Nat
  tgtCnt : Nat → Nat
  degSep : Nat
  bridge : Finset Nat

/-- The state just before the main loop. -/
def initState (srcIdx tgtIdx : Nat) : SearchState where
  srcFrontier := {srcIdx}
  tgtFrontier := {tgtIdx}
  srcVisited := {srcIdx}
  tgtVisited := {tgtIdx}
  srcAnc := fun _ => ∅
  tgtChl := fun _ => ∅
  srcCnt := fun v => if v = srcIdx then 1 else 0
  tgtCnt := fun v => if v = tgtIdx then 1 else 0
  degSep := 0
  bridge := ∅

/-- One frontier expansion: all unvisited neighbors of the frontier.
The Python loop subtracts the pre-iteration visited set for every frontier
node, so the union form is exact. -/
def expand (nbr : Nat → Finset Nat) (frontier visited : Finset Nat) : Finset Nat :=
  frontier.biUnion fun v => nbr v \ visited

/-- Enumerate-mode bookkeeping for one expansion: each unvisited neighbor `w`
records every frontier node `v` it was reached from. -/
def addAnc (nbr : Nat → Finset Nat) (frontier visited : Finset Nat)
    (anc : Nat → Finset Nat) : Nat → Finset Nat :=
  fun w => anc w ∪ frontier.filter fun v => w ∈ nbr v \ visited

/-- Count-mode bookkeeping for one expansion: each unvisited neighbor `w`
accumulates the path counts of the frontier nodes it is reached from.
(The counts of frontier nodes are stable during the phase because the
frontier is contained in the visited set.) -/
def addCnt (nbr : Nat → Finset Nat) (frontier visited : Finset Nat)
    (cnt : Nat → Nat) : Nat → Nat :=
  fun w => cnt w + ∑ v ∈ frontier.filter (fun v => w ∈ nbr v \ visited), cnt v

/-- One iteration of the main loop body up to (but not including) the
empty-frontier break and the bridge assignment: increment `deg_sep` and
expand the source side on odd steps, the target side on even steps. -/
def stepState (g : WikiGraph) (directed noPaths : Bool) (st : SearchState) :
    SearchState :=
  let d := st.degSep + 1
  if d % 2 = 1 then
    let nbr := fun v => g.childrenSet v directed
    let newFrontier := expand nbr st.srcFrontier st.srcVisited
    { st with
      degSep := d
      srcFrontier := newFrontier
      srcVisited := st.srcVisited ∪ newFrontier
      srcAnc := if noPaths then st.srcAnc
        else addAnc nbr st.srcFrontier st.srcVisited st.srcAnc
      srcCnt := if noPaths then addCnt nbr st.srcFrontier st.srcVisited st.srcCnt
        else st.srcCnt }
  else
    let nbr := fun v => g.ancestorsSet v directed
    let newFrontier := expand nbr st.tgtFrontier st.tgtVisited
    { st with
      degSep := d
      tgtFrontier := newFrontier
      tgtVisited := st.tgtVisited ∪ newFrontier
      tgtChl := if noPaths then st.tgtChl
        else addAnc nbr st.tgtFrontier st.tgtVisited st.tgtChl
      tgtCnt := if noPaths then addCnt nbr st.tgtFrontier st.tgtVisited st.tgtCnt
        else st.tgtCnt }

/-- The main loop: `while deg_sep < 6 and not bridge_topics`.  After a step,
the loop breaks if either frontier is empty (leaving the bridge empty),
otherwise the bridge becomes the intersection of the frontiers and the
condition is re-checked.  The fuel argument is only a structural-recursion
bound; since every iteration increments `degSep`, fuel `6` from the initial
state is never exhausted before the loop condition fails. -/
def searchLoop (g : WikiGraph) (directed noPaths : Bool) :
    Nat → SearchState → SearchState
  | 0, st => st
  | fuel + 1, st =>
    if st.degSep < 6 ∧ st.bridge = ∅ then
      if (stepState g directed noPaths st).srcFrontier = ∅ ∨
          (stepState g directed noPaths st).tgtFrontier = ∅ then
        stepState g directed noPaths st
      else
        searchLoop g directed noPaths fuel
          { stepState g directed noPaths st with
            bridge := (stepState g directed noPaths st).srcFrontier ∩
              (stepState g directed noPaths st).tgtFrontier }
    else st

/-! ### Path reconstruction -/

/-- A computable enumeration of a finite set of ids as an (ascending) list.
Python iterates sets in an unspecified order and the search only ever counts
or sorts what it builds from such iterations, so any enumeration represents
the code; the ascending one is used because it is order-insensitive and hence
well defined on the multiset quotient by a structural recursion. -/
def sortedList (s : Finset Nat) : List Nat :=
  Quot.liftOn s.val (fun l => l.insertionSort (· ≤ ·)) fun a b hab =>
    List.eq_of_perm_of_sorted
      (((List.perm_insertionSort _ a).trans hab).trans
        (List.perm_insertionSort _ b).symm)
      (List.sorted_insertionSort _ a) (List.sorted_insertionSort _ b)

/-- All completed source-half chains grown backwards from the partial path
`hd :: tl` through the ancestor map: for each recorded ancestor `a` of the
head, either `a` is the source (the path is complete) or the extended path is
explored further.  Mirrors the first work-queue loop of
`get_shortest_paths_info`; the queue always terminates because recorded
ancestors live one BFS layer closer to the source, so the fixed fuel `7`
(passed by `assemblePaths`, one more than the depth cutoff 6) is never
exhausted on a reachable state. -/
def srcChains (anc : Nat → Finset Nat) (srcIdx : Nat) :
    Nat → Nat → List Nat → List (List Nat)
  | 0, _, _ => []
  | fuel + 1, hd, tl =>
    (sortedList (anc hd)).flatMap fun a =>
      if a = srcIdx then [a :: hd :: tl]
      else srcChains anc srcIdx fuel a (hd :: tl)

/-- All completed target-half chains grown forwards from the partial path
`front ++ [lst]` through the successor map; mirrors the second work-queue
loop of `get_shortest_paths_info`. -/
def tgtChains (chl : Nat → Finset Nat) (tgtIdx : Nat) :
    Nat → List Nat → Nat → List (List Nat)
  | 0, _, _ => []
  | fuel + 1, front, lst =>
    (sortedList (chl lst)).flatMap fun c =>
      if c = tgtIdx then [front ++ [lst, c]]
      else tgtChains chl tgtIdx fuel (front ++ [lst]) c

/-- Cross-join of the source-half and target-half chains over the bridge,
dropping the duplicated bridge node and resolving ids to topic names.
(The Python code buckets the two halves by bridge topic before the
cross-product; since ids are in bijection with topics, joining per bridge id
is the same cross-product.) -/
def assemblePaths (g : WikiGraph) (st : SearchState) (srcIdx tgtIdx : Nat) :
    List (List String) :=
  (sortedList st.bridge).flatMap fun b =>
    (srcChains st.srcAnc srcIdx 7 b []).flatMap fun sp =>
      (tgtChains st.tgtChl tgtIdx 7 [] b).map fun tp =>
        sp.map g.indexTopicMap ++ (tp.map g.indexTopicMap).tail

/-- The final `sorted(paths)`: lexicographic sort of the path lists. -/
def sortPaths (ps : List (List String)) : List (List String) :=
  ps.insertionSort (· ≤ ·)

/-- `get_shortest_paths_info`.  The final `match` is where the Python code
reads `topic_index_map[source]` / `[target]`; both lookups provably succeed
because `_exists` was just checked and canonicalization is idempotent, so the
fallback arm is unreachable (it conservatively returns the sentinel). -/
def getShortestPathsInfo (g : WikiGraph) (source target : String)
    (directed : Bool := true) (noPaths : Bool := false) :
    Int × Nat × Option (List (List String)) :=
  let source := getStandard source
  if !g.existsTopic source then (-1, 0, if noPaths then none else some []) else
  let target := getStandard target
  if !g.existsTopic target then (-1, 0, if noPaths then none else some []) else
  if source = target then (0, 1, if noPaths then none else some [[source]]) else
  match g.topicIndexMap source, g.topicIndexMap target with
  | some srcIdx, some tgtIdx =>
    let st := searchLoop g directed noPaths 6 (initState srcIdx tgtIdx)
    if st.bridge = ∅ then (-1, 0, if noPaths then none else some [])
    else if tgtIdx ∈ st.bridge then
      ((st.degSep : Int), 1, if noPaths then none else some [[source, target]])
    else if noPaths then
      ((st.degSep : Int), ∑ b ∈ st.bridge, st.srcCnt b * st.tgtCnt b, none)
    else
      let paths := assemblePaths g st srcIdx tgtIdx
      ((st.degSep : Int), paths.length, some (sortPaths paths))
  | _, _ => (-1, 0, if noPaths then none else some [])

/-! ### Specification-side definitions

Reference notions used to state and prove properties of the search: BFS
reachability layers of a neighbor function, and counts of fixed-length
walks.  These are definitions about graphs, not translations of code. -/

/-- The set of nodes reachable from `s` by a walk of length exactly `k`
steps of the neighbor function `nbr`. -/
def reachSet (nbr : Nat → Finset Nat) (s : Nat) : Nat → Finset Nat
  | 0 => {s}
  | k + 1 => (reachSet nbr s k).biUnion nbr

/-- Ideal single-side BFS state: the frontier and visited set after `k`
expansions from `s`. -/
def bfsIter (nbr : Nat → Finset Nat) (s : Nat) : Nat → Finset Nat × Finset Nat
  | 0 => ({s}, {s})
  | k + 1 =>
    let p := bfsIter nbr s k
    let f := expand nbr p.1 p.2
    (f, p.2 ∪ f)

/-- Ideal single-side predecessor bookkeeping after `k` expansions. -/
def ancIter (nbr : Nat → Finset Nat) (s : Nat) : Nat → Nat → Finset Nat
  | 0 => fun _ => ∅
  | k + 1 => addAnc nbr (bfsIter nbr s k).1 (bfsIter nbr s k).2 (ancIter nbr s k)

/-- Ideal single-side path-count bookkeeping after `k` expansions. -/
def cntIter (nbr : Nat → Finset Nat) (s : Nat) : Nat → Nat → Nat
  | 0 => fun v => if v = s then 1 else 0
  | k + 1 => addCnt nbr (bfsIter nbr s k).1 (bfsIter nbr s k).2 (cntIter nbr s k)

/-- The number of walks of length exactly `k` from `s` to `v`. -/
def walkCount (nbr : Nat → Finset Nat) (s : Nat) : Nat → Nat → Nat
  | 0, v => if v = s then 1 else 0
  | k + 1, v =>
    ∑ u ∈ (reachSet nbr s k).filter (fun u => v ∈ nbr u), walkCount nbr s k u

/-- Nodes reachable from `s` in at most `k` steps. -/
def reachUpTo (nbr : Nat → Finset Nat) (s : Nat) (k : Nat) : Finset Nat :=
  (Finset.range (k + 1)).biUnion (reachSet nbr s)

/-- The `k`-th BFS layer: nodes whose distance from `s` is exactly `k`. -/
def layerSet (nbr : Nat → Finset Nat) (s : Nat) (k : Nat) : Finset Nat :=
  reachSet nbr s k \ (Finset.range k).biUnion (reachSet nbr s)

/-- The neighbor function used for source-side expansions. -/
def srcNbr (g : WikiGraph) (directed : Bool) : Nat → Finset Nat :=
  fun v => g.childrenSet v directed

/-- The neighbor function used for target-side expansions. -/
def tgtNbr (g : WikiGraph) (directed : Bool) : Nat → Finset Nat :=
  fun v => g.ancestorsSet v directed

/-- The invariant maintained by the main loop of `get_shortest_paths_info`:
after `degSep` iterations the source side has performed `⌈degSep/2⌉`
expansions and the target side `⌊degSep/2⌋`, each side is an ideal BFS state,
the bookkeeping maps are the ideal ones for the active mode, and no
source-to-target walk shorter than the current depth exists. -/
structure LoopInv (g : WikiGraph) (directed noPaths : Bool)
    (srcIdx tgtIdx : Nat) (st : SearchState) : Prop where
  degLe : st.degSep ≤ 6
  srcF : st.srcFrontier =
    (bfsIter (srcNbr g directed) srcIdx ((st.degSep + 1) / 2)).1
  srcV : st.srcVisited =
    (bfsIter (srcNbr g directed) srcIdx ((st.degSep + 1) / 2)).2
  tgtF : st.tgtFrontier = (bfsIter (tgtNbr g directed) tgtIdx (st.degSep / 2)).1
  tgtV : st.tgtVisited = (bfsIter (tgtNbr g directed) tgtIdx (st.degSep / 2)).2
  srcA : st.srcAnc = if noPaths then (fun _ => (∅ : Finset Nat))
    else ancIter (srcNbr g directed) srcIdx ((st.degSep + 1) / 2)
  tgtC : st.tgtChl = if noPaths then (fun _ => (∅ : Finset Nat))
    else ancIter (tgtNbr g directed) tgtIdx (st.degSep / 2)
  srcN : st.srcCnt = if noPaths then
      cntIter (srcNbr g directed) srcIdx ((st.degSep + 1) / 2)
    else fun v => if v = srcIdx then 1 else 0
  tgtN : st.tgtCnt = if noPaths then
      cntIter (tgtNbr g directed) tgtIdx (st.degSep / 2)
    else fun v => if v = tgtIdx then 1 else 0
  bridgeEq : st.bridge = ∅ ∨ st.bridge = st.srcFrontier ∩ st.tgtFrontier
  noShort : ∀ L < st.degSep, tgtIdx ∉ reachSet (srcNbr g directed) srcIdx L
  noCur : st.bridge = ∅ → tgtIdx ∉ reachSet (srcNbr g directed) srcIdx st.degSep

/-- Decidability of graph well-formedness. -/
instance (g : WikiGraph) : Decidable g.Wf := by
  unfold WikiGraph.Wf; infer_instance

/-! ### Canonicalization lemmas -/

theorem charOfNat_toNat {m : Nat} (h1 : 97 ≤ m) (h2 : m ≤ 122) :
    (Char.ofNat m).toNat = m := by
  interval_cases m <;> decide

theorem charToLower_idem (c : Char) : c.toLower.toLower = c.toLower := by
  unfold Char.toLower
  by_cases h : c.toNat ≥ 65 ∧ c.toNat ≤ 90
  · rw [if_pos h, if_neg]
    rw [charOfNat_toNat (by omega) (by omega)]
    omega
  · rw [if_neg h, if_neg h]

/-- Fidelity of `getStandard`: it is exactly `String.toLower`. -/
theorem getStandard_eq_toLower (t : String) : getStandard t = t.toLower :=
  (String.map_eq Char.toLower t).symm

/-- Canonicalization is idempotent. -/
theorem getStandard_idem (t : String) : getStandard (getStandard t) = getStandard t := by
  unfold getStandard
  congr 1
  show List.map Char.toLower (List.map Char.toLower t.data) = _
  rw [List.map_map]
  exact List.map_congr_left fun c _ => charToLower_idem c

/-! ### Index lemmas -/

namespace WikiGraph

theorem topicIndexMap_eq_some {g : WikiGraph} {t : String} {i : Nat}
    (h : g.topicIndexMap t = some i) : i < g.n ∧ g.indexTopicMap i = t := by
  unfold topicIndexMap List.indexOf? at h
  rw [List.findIdx?_eq_some_iff_getElem] at h
  obtain ⟨hlt, hp, -⟩ := h
  refine ⟨hlt, ?_⟩
  unfold indexTopicMap
  rw [List.getD_eq_getElem?_getD, List.getElem?_eq_getElem hlt]
  simpa using hp

theorem topicIndexMap_indexTopicMap {g : WikiGraph} (hn : g.topics.Nodup)
    {i : Nat} (hi : i < g.n) : g.topicIndexMap (g.indexTopicMap i) = some i := by
  unfold topicIndexMap List.indexOf?
  rw [List.findIdx?_eq_some_iff_getElem]
  have hval : g.indexTopicMap i = g.topics.get ⟨i, hi⟩ := by
    unfold indexTopicMap
    rw [List.getD_eq_getElem?_getD, List.getElem?_eq_getElem hi]
    rfl
  refine ⟨hi, ?_, ?_⟩
  · simp [hval]
  · intro j hji
    have hj : j < g.n := Nat.lt_trans hji hi
    simp only [beq_iff_eq, Bool.not_eq_true, decide_eq_false_iff_not]
    intro hEq
    have : g.topics.get ⟨j, hj⟩ = g.topics.get ⟨i, hi⟩ := by
      rw [hval] at hEq; exact hEq
    rw [List.Nodup.get_inj_iff hn] at this
    exact absurd (Fin.val_eq_of_eq this) (Nat.ne_of_lt hji)

theorem indexTopicMap_injOn {g : WikiGraph} (hn : g.topics.Nodup)
    {i j : Nat} (hi : i < g.n) (hj : j < g.n)
    (h : g.indexTopicMap i = g.indexTopicMap j) : i = j := by
  have h1 := g.topicIndexMap_indexTopicMap hn hi
  have h2 := g.topicIndexMap_indexTopicMap hn hj
  rw [h] at h1
  rw [h1] at h2
  exact Option.some_injective _ h2

end WikiGraph

/-! ### optimize_memory equivalence -/

namespace WikiGraph

theorem undirectedRow_eq_union (g : WikiGraph) (v : Nat) :
    g.undirectedRow v = g.directedChildren v ∪ g.directedAncestors v := by
  ext u
  simp only [undirectedRow, directedChildren, directedAncestors, Finset.mem_filter,
    Finset.mem_union, Finset.mem_range]
  constructor
  · rintro ⟨hu, hne⟩
    rcases Nat.eq_zero_or_pos (g.entry v u) with h0 | hp
    · exact Or.inr ⟨hu, by omega⟩
    · exact Or.inl ⟨hu, by omega⟩
  · rintro (⟨hu, hne⟩ | ⟨hu, hne⟩) <;> exact ⟨hu, by omega⟩

theorem undirectedNeighbors_eq_union (g : WikiGraph) (v : Nat) :
    g.undirectedNeighbors v = g.directedChildren v ∪ g.directedAncestors v := by
  unfold undirectedNeighbors
  split
  · rfl
  · exact undirectedRow_eq_union g v

theorem undirectedNeighbors_withOm (g : WikiGraph) (b : Bool) (v : Nat) :
    (g.withOm b).undirectedNeighbors v =
      g.directedChildren v ∪ g.directedAncestors v :=
  undirectedNeighbors_eq_union (g.withOm b) v

theorem childrenSet_withOm (g : WikiGraph) (b : Bool) (v : Nat) (directed : Bool) :
    (g.withOm b).childrenSet v directed = g.childrenSet v directed := by
  unfold childrenSet
  cases directed
  · show (g.withOm b).undirectedNeighbors v = g.undirectedNeighbors v
    rw [undirectedNeighbors_withOm, undirectedNeighbors_eq_union]
  · rfl

theorem ancestorsSet_withOm (g : WikiGraph) (b : Bool) (v : Nat) (directed : Bool) :
    (g.withOm b).ancestorsSet v directed = g.ancestorsSet v directed := by
  unfold ancestorsSet
  cases directed
  · show (g.withOm b).undirectedNeighbors v = g.undirectedNeighbors v
    rw [undirectedNeighbors_withOm, undirectedNeighbors_eq_union]
  · rfl

theorem existsTopic_withOm (g : WikiGraph) (b : Bool) (t : String) :
    (g.withOm b).existsTopic t = g.existsTopic t := rfl

theorem topicIndexMap_withOm (g : WikiGraph) (b : Bool) (t : String) :
    (g.withOm b).topicIndexMap t = g.topicIndexMap t := rfl

theorem indexTopicMap_withOm (g : WikiGraph) (b : Bool) (i : Nat) :
    (g.withOm b).indexTopicMap i = g.indexTopicMap i := rfl

end WikiGraph

theorem stepState_withOm (g : Wiki.WikiGraph) (b directed noPaths : Bool)
    (st : SearchState) :
    stepState (g.withOm b) directed noPaths st = stepState g directed noPaths st := by
  unfold stepState
  have hc : (fun v => (g.withOm b).childrenSet v directed) =
      fun v => g.childrenSet v directed :=
    funext fun v => g.childrenSet_withOm b v directed
  have ha : (fun v => (g.withOm b).ancestorsSet v directed) =
      fun v => g.ancestorsSet v directed :=
    funext fun v => g.ancestorsSet_withOm b v directed
  rw [hc, ha]

theorem searchLoop_withOm (g : Wiki.WikiGraph) (b directed noPaths : Bool) :
    ∀ fuel st, searchLoop (g.withOm b) directed noPaths fuel st =
      searchLoop g directed noPaths fuel st := by
  intro fuel
  induction fuel with
  | zero => intro st; rfl
  | succ m ih =>
    intro st
    simp only [searchLoop, stepState_withOm, ih]

theorem assemblePaths_withOm (g : Wiki.WikiGraph) (b : Bool) (st : SearchState)
    (srcIdx tgtIdx : Nat) :
    assemblePaths (g.withOm b) st srcIdx tgtIdx = assemblePaths g st srcIdx tgtIdx := rfl

theorem getShortestPathsInfo_withOm (g : Wiki.WikiGraph) (b : Bool)
    (source target : String) (directed noPaths : Bool) :
    getShortestPathsInfo (g.withOm b) source target directed noPaths =
      getShortestPathsInfo g source target directed noPaths := by
  unfold getShortestPathsInfo
  simp only [WikiGraph.existsTopic_withOm, WikiGraph.topicIndexMap_withOm,
    searchLoop_withOm, assemblePaths_withOm]

theorem getChildren_withOm (g : Wiki.WikiGraph) (b : Bool) (topic : String)
    (directed : Bool) :
    (g.withOm b).getChildren topic directed = g.getChildren topic directed := by
  unfold WikiGraph.getChildren
  simp only [WikiGraph.topicIndexMap_withOm]
  cases g.topicIndexMap (getStandard topic) with
  | none => rfl
  | some i =>
    simp only
    rw [g.childrenSet_withOm b i directed]
    rfl

theorem getAncestors_withOm (g : Wiki.WikiGraph) (b : Bool) (topic : String)
    (directed : Bool) :
    (g.withOm b).getAncestors topic directed = g.getAncestors topic directed := by
  unfold WikiGraph.getAncestors
  simp only [WikiGraph.topicIndexMap_withOm]
  cases g.topicIndexMap (getStandard topic) with
  | none => rfl
  | some i =>
    simp only
    rw [g.ancestorsSet_withOm b i directed]
    rfl

/-! ### Unknown-topic behavior -/

theorem sentinel_of_unknown (g : Wiki.WikiGraph) (source target : String)
    (directed noPaths : Bool)
    (h : g.topicIndexMap (getStandard source) = none ∨
      g.topicIndexMap (getStandard target) = none) :
    getShortestPathsInfo g source target directed noPaths =
      (-1, 0, if noPaths then none else some []) := by
  unfold getShortestPathsInfo
  by_cases hs : g.existsTopic (getStandard source) = true
  · rcases h with h | h
    · exfalso
      unfold WikiGraph.existsTopic at hs
      rw [getStandard_idem, h] at hs
      simp at hs
    · have ht : g.existsTopic (getStandard target) = false := by
        unfold WikiGraph.existsTopic
        rw [getStandard_idem, h]
        rfl
      simp [hs, ht]
  · have hs2 : g.existsTopic (getStandard source) = false := by
      simpa using hs
    simp [hs2]

theorem getChildren_none {g : Wiki.WikiGraph} {topic : String} {directed : Bool}
    (h : g.topicIndexMap (getStandard topic) = none) :
    g.getChildren topic directed = none := by
  unfold WikiGraph.getChildren
  simp only [h]

theorem getAncestors_none {g : Wiki.WikiGraph} {topic : String} {directed : Bool}
    (h : g.topicIndexMap (getStandard topic) = none) :
    g.getAncestors topic directed = none := by
  unfold WikiGraph.getAncestors
  simp only [h]

/-! ### Single-side BFS theory

The frontier and visited set of the search are exactly the BFS layer and the
ball of reached nodes. -/

theorem mem_reachSet_succ {nbr : Nat → Finset Nat} {s w : Nat} {k : Nat} :
    w ∈ reachSet nbr s (k + 1) ↔ ∃ v ∈ reachSet nbr s k, w ∈ nbr v := by
  have h : reachSet nbr s (k + 1) = (reachSet nbr s k).biUnion nbr := rfl
  rw [h]
  simp [Finset.mem_biUnion]

theorem mem_reachUpTo {nbr : Nat → Finset Nat} {s v : Nat} {k : Nat} :
    v ∈ reachUpTo nbr s k ↔ ∃ j ≤ k, v ∈ reachSet nbr s j := by
  unfold reachUpTo
  simp [Finset.mem_biUnion, Finset.mem_range, Nat.lt_succ_iff]

theorem mem_layerSet {nbr : Nat → Finset Nat} {s v : Nat} {k : Nat} :
    v ∈ layerSet nbr s k ↔ v ∈ reachSet nbr s k ∧ ∀ j < k, v ∉ reachSet nbr s j := by
  unfold layerSet
  simp [Finset.mem_sdiff, Finset.mem_biUnion, Finset.mem_range]

theorem layerSet_subset_reachUpTo {nbr : Nat → Finset Nat} {s : Nat} {k j : Nat}
    (hjk : k ≤ j) : layerSet nbr s k ⊆ reachUpTo nbr s j := by
  intro v hv
  rw [mem_layerSet] at hv
  exact mem_reachUpTo.mpr ⟨k, hjk, hv.1⟩

theorem layerSet_disjoint_reachUpTo {nbr : Nat → Finset Nat} {s v : Nat} {k j : Nat}
    (hjk : j < k) (hv : v ∈ layerSet nbr s k) : v ∉ reachUpTo nbr s j := by
  rw [mem_layerSet] at hv
  intro hmem
  obtain ⟨i, hij, hvi⟩ := mem_reachUpTo.mp hmem
  exact hv.2 i (by omega) hvi

theorem expand_layer (nbr : Nat → Finset Nat) (s k : Nat) :
    expand nbr (layerSet nbr s k) (reachUpTo nbr s k) = layerSet nbr s (k + 1) := by
  ext w
  simp only [expand, Finset.mem_biUnion, Finset.mem_sdiff]
  constructor
  · rintro ⟨v, hv, hw, hnw⟩
    have hvr : v ∈ reachSet nbr s k := (mem_layerSet.mp hv).1
    rw [mem_layerSet]
    refine ⟨mem_reachSet_succ.mpr ⟨v, hvr, hw⟩, ?_⟩
    intro j hj hwj
    exact hnw (mem_reachUpTo.mpr ⟨j, by omega, hwj⟩)
  · intro hw
    obtain ⟨hw1, hw2⟩ := mem_layerSet.mp hw
    obtain ⟨v, hv, hwv⟩ := mem_reachSet_succ.mp hw1
    refine ⟨v, ?_, hwv, ?_⟩
    · rw [mem_layerSet]
      refine ⟨hv, ?_⟩
      intro j hj hvj
      exact hw2 (j + 1) (by omega) (mem_reachSet_succ.mpr ⟨v, hvj, hwv⟩)
    · intro hmem
      obtain ⟨j, hj, hwj⟩ := mem_reachUpTo.mp hmem
      exact hw2 j (by omega) hwj

theorem reachUpTo_union_layer (nbr : Nat → Finset Nat) (s k : Nat) :
    reachUpTo nbr s k ∪ layerSet nbr s (k + 1) = reachUpTo nbr s (k + 1) := by
  ext v
  simp only [Finset.mem_union, mem_layerSet, mem_reachUpTo]
  constructor
  · rintro (⟨j, hj, hv⟩ | ⟨hv, -⟩)
    · exact ⟨j, by omega, hv⟩
    · exact ⟨k + 1, le_refl _, hv⟩
  · rintro ⟨j, hj, hv⟩
    by_cases hjle : j ≤ k
    · exact Or.inl ⟨j, hjle, hv⟩
    · have hje : j = k + 1 := by omega
      subst hje
      by_cases hup : ∃ i ≤ k, v ∈ reachSet nbr s i
      · obtain ⟨i, hik, hvi⟩ := hup
        exact Or.inl ⟨i, hik, hvi⟩
      · push_neg at hup
        exact Or.inr ⟨hv, fun i hik => hup i (by omega)⟩

theorem bfsIter_spec (nbr : Nat → Finset Nat) (s : Nat) :
    ∀ k, (bfsIter nbr s k).1 = layerSet nbr s k ∧
      (bfsIter nbr s k).2 = reachUpTo nbr s k := by
  intro k
  induction k with
  | zero =>
    constructor
    · show ({s} : Finset Nat) = layerSet nbr s 0
      ext v
      simp [mem_layerSet, reachSet]
    · show ({s} : Finset Nat) = reachUpTo nbr s 0
      ext v
      simp [mem_reachUpTo, reachSet]
  | succ k ih =>
    obtain ⟨hf, hv⟩ := ih
    simp only [bfsIter]
    rw [hf, hv]
    rw [expand_layer, reachUpTo_union_layer]
    exact ⟨rfl, rfl⟩

theorem bfsIter_fst (nbr : Nat → Finset Nat) (s k : Nat) :
    (bfsIter nbr s k).1 = layerSet nbr s k := (bfsIter_spec nbr s k).1

theorem bfsIter_snd (nbr : Nat → Finset Nat) (s k : Nat) :
    (bfsIter nbr s k).2 = reachUpTo nbr s k := (bfsIter_spec nbr s k).2

theorem reachUpTo_mono {nbr : Nat → Finset Nat} {s : Nat} {j k : Nat} (h : j ≤ k) :
    reachUpTo nbr s j ⊆ reachUpTo nbr s k := by
  intro v hv
  obtain ⟨i, hij, hvi⟩ := mem_reachUpTo.mp hv
  exact mem_reachUpTo.mpr ⟨i, by omega, hvi⟩

theorem self_mem_reachUpTo (nbr : Nat → Finset Nat) (s k : Nat) :
    s ∈ reachUpTo nbr s k := by
  refine mem_reachUpTo.mpr ⟨0, Nat.zero_le _, ?_⟩
  show s ∈ ({s} : Finset Nat)
  simp

theorem layerSet_zero (nbr : Nat → Finset Nat) (s : Nat) :
    layerSet nbr s 0 = {s} := by
  ext v
  rw [mem_layerSet]
  show v ∈ ({s} : Finset Nat) ∧ _ ↔ _
  simp

/-! ### Bookkeeping characterization -/

theorem ancIter_eq_empty_of_notMem {nbr : Nat → Finset Nat} {s : Nat} :
    ∀ {K w}, w ∉ reachUpTo nbr s K → ancIter nbr s K w = ∅ := by
  intro K
  induction K with
  | zero => intro w _; rfl
  | succ K ih =>
    intro w hw
    have hwK : w ∉ reachUpTo nbr s K := fun hmem => hw (reachUpTo_mono (by omega) hmem)
    show ancIter nbr s K w ∪ _ = ∅
    rw [ih hwK, bfsIter_fst, bfsIter_snd]
    rw [Finset.empty_union, Finset.filter_eq_empty_iff]
    intro v hv
    rw [Finset.mem_sdiff]
    rintro ⟨hnbr, -⟩
    have hvr : v ∈ reachSet nbr s K := (mem_layerSet.mp hv).1
    exact hw (mem_reachUpTo.mpr ⟨K + 1, le_refl _, mem_reachSet_succ.mpr ⟨v, hvr, hnbr⟩⟩)

theorem ancIter_source {nbr : Nat → Finset Nat} {s : Nat} :
    ∀ K, ancIter nbr s K s = ∅ := by
  intro K
  induction K with
  | zero => rfl
  | succ K ih =>
    show ancIter nbr s K s ∪ _ = ∅
    rw [ih, bfsIter_fst, bfsIter_snd]
    rw [Finset.empty_union, Finset.filter_eq_empty_iff]
    intro v hv
    rw [Finset.mem_sdiff]
    rintro ⟨-, habs⟩
    exact habs (self_mem_reachUpTo nbr s K)

theorem ancIter_layer {nbr : Nat → Finset Nat} {s : Nat} {k : Nat} {w : Nat}
    (hw : w ∈ layerSet nbr s (k + 1)) :
    ∀ {K}, k + 1 ≤ K →
      ancIter nbr s K w = (layerSet nbr s k).filter fun v => w ∈ nbr v := by
  intro K
  induction K with
  | zero => intro h; omega
  | succ K ih =>
    intro hK
    show ancIter nbr s K w ∪ _ = _
    rw [bfsIter_fst, bfsIter_snd]
    by_cases hcase : k + 1 ≤ K
    · rw [ih hcase]
      have hwup : w ∈ reachUpTo nbr s K := layerSet_subset_reachUpTo hcase hw
      have hfe : ((layerSet nbr s K).filter fun v => w ∈ nbr v \ reachUpTo nbr s K) = ∅ := by
        rw [Finset.filter_eq_empty_iff]
        intro v _
        rw [Finset.mem_sdiff]
        rintro ⟨-, habs⟩
        exact habs hwup
      rw [hfe, Finset.union_empty]
    · have hkK : k = K := by omega
      subst hkK
      have hwup : w ∉ reachUpTo nbr s k := layerSet_disjoint_reachUpTo (by omega) hw
      rw [ancIter_eq_empty_of_notMem hwup, Finset.empty_union]
      apply Finset.filter_congr
      intro v _
      rw [Finset.mem_sdiff]
      simp [hwup]

theorem cntIter_eq_zero_of_notMem {nbr : Nat → Finset Nat} {s : Nat} :
    ∀ {K w}, w ∉ reachUpTo nbr s K → cntIter nbr s K w = 0 := by
  intro K
  induction K with
  | zero =>
    intro w hw
    have : w ≠ s := by
      rintro rfl
      exact hw (self_mem_reachUpTo nbr _ 0)
    simpa [cntIter] using this
  | succ K ih =>
    intro w hw
    have hwK : w ∉ reachUpTo nbr s K := fun hmem => hw (reachUpTo_mono (by omega) hmem)
    show cntIter nbr s K w + _ = 0
    rw [ih hwK, bfsIter_fst, bfsIter_snd]
    have hfe : ((layerSet nbr s K).filter fun v => w ∈ nbr v \ reachUpTo nbr s K) = ∅ := by
      rw [Finset.filter_eq_empty_iff]
      intro v hv
      rw [Finset.mem_sdiff]
      rintro ⟨hnbr, -⟩
      have hvr : v ∈ reachSet nbr s K := (mem_layerSet.mp hv).1
      exact hw (mem_reachUpTo.mpr ⟨K + 1, le_refl _, mem_reachSet_succ.mpr ⟨v, hvr, hnbr⟩⟩)
    rw [hfe]
    simp

theorem cntIter_source {nbr : Nat → Finset Nat} {s : Nat} :
    ∀ K, cntIter nbr s K s = 1 := by
  intro K
  induction K with
  | zero => simp [cntIter]
  | succ K ih =>
    show cntIter nbr s K s + _ = 1
    rw [ih, bfsIter_fst, bfsIter_snd]
    have hfe : ((layerSet nbr s K).filter fun v => s ∈ nbr v \ reachUpTo nbr s K) = ∅ := by
      rw [Finset.filter_eq_empty_iff]
      intro v _
      rw [Finset.mem_sdiff]
      rintro ⟨-, habs⟩
      exact habs (self_mem_reachUpTo nbr s K)
    rw [hfe]
    simp

theorem cntIter_layer {nbr : Nat → Finset Nat} {s : Nat} :
    ∀ {K k w}, w ∈ layerSet nbr s k → k ≤ K →
      cntIter nbr s K w = walkCount nbr s k w := by
  intro K
  induction K with
  | zero =>
    intro k w hw hk
    have hk0 : k = 0 := by omega
    subst hk0
    rw [layerSet_zero] at hw
    have hws : w = s := by simpa using hw
    subst hws
    simp [cntIter, walkCount]
  | succ K ih =>
    intro k w hw hk
    show cntIter nbr s K w + _ = _
    rw [bfsIter_fst, bfsIter_snd]
    by_cases hcase : k ≤ K
    · rw [ih hw hcase]
      have hwup : w ∈ reachUpTo nbr s K := layerSet_subset_reachUpTo hcase hw
      have hfe : ((layerSet nbr s K).filter fun v => w ∈ nbr v \ reachUpTo nbr s K) = ∅ := by
        rw [Finset.filter_eq_empty_iff]
        intro v _
        rw [Finset.mem_sdiff]
        rintro ⟨-, habs⟩
        exact habs hwup
      rw [hfe]
      simp
    · have hkK : k = K + 1 := by omega
      subst hkK
      have hwup : w ∉ reachUpTo nbr s K := layerSet_disjoint_reachUpTo (by omega) hw
      rw [cntIter_eq_zero_of_notMem hwup, Nat.zero_add]
      have hflt : ((layerSet nbr s K).filter fun v => w ∈ nbr v \ reachUpTo nbr s K) =
          (reachSet nbr s K).filter fun v => w ∈ nbr v := by
        ext v
        simp only [Finset.mem_filter, Finset.mem_sdiff]
        constructor
        · rintro ⟨hv, hnbr, -⟩
          exact ⟨(mem_layerSet.mp hv).1, hnbr⟩
        · rintro ⟨hv, hnbr⟩
          refine ⟨mem_layerSet.mpr ⟨hv, ?_⟩, hnbr, hwup⟩
          intro j hj hvj
          have hwj : w ∈ reachSet nbr s (j + 1) := mem_reachSet_succ.mpr ⟨v, hvj, hnbr⟩
          exact (mem_layerSet.mp hw).2 (j + 1) (by omega) hwj
      rw [hflt]
      show _ = walkCount nbr s (K + 1) w
      rw [walkCount]
      apply Finset.sum_congr rfl
      intro v hv
      rw [Finset.mem_filter] at hv
      by_cases hvl : v ∈ layerSet nbr s K
      · exact ih hvl (le_refl _)
      · exfalso
        have : ∃ j < K, v ∈ reachSet nbr s j := by
          by_contra habs
          push_neg at habs
          exact hvl (mem_layerSet.mpr ⟨hv.1, habs⟩)
        obtain ⟨j, hj, hvj⟩ := this
        have hwj : w ∈ reachSet nbr s (j + 1) := mem_reachSet_succ.mpr ⟨v, hvj, hv.2⟩
        exact (mem_layerSet.mp hw).2 (j + 1) (by omega) hwj

theorem walkCount_pos {nbr : Nat → Finset Nat} {s : Nat} :
    ∀ {k w}, w ∈ reachSet nbr s k → 0 < walkCount nbr s k w := by
  intro k
  induction k with
  | zero =>
    intro w hw
    have hw2 : w ∈ ({s} : Finset Nat) := hw
    have hws : w = s := by simpa using hw2
    subst hws
    simp [walkCount]
  | succ k ih =>
    intro w hw
    obtain ⟨v, hv, hnbr⟩ := mem_reachSet_succ.mp hw
    rw [walkCount]
    have hvmem : v ∈ (reachSet nbr s k).filter fun u => w ∈ nbr u :=
      Finset.mem_filter.mpr ⟨hv, hnbr⟩
    calc 0 < walkCount nbr s k v := ih hv
    _ ≤ _ := Finset.single_le_sum (fun i _ => Nat.zero_le _) hvmem

/-! ### Walks as lists -/

theorem mem_reachSet_iff_chain {nbr : Nat → Finset Nat} {s : Nat} :
    ∀ {k v : Nat}, v ∈ reachSet nbr s k ↔
      ∃ p : List Nat, List.Chain' (fun a b => b ∈ nbr a) p ∧
        p.head? = some s ∧ p.getLast? = some v ∧ p.length = k + 1 := by
  intro k
  induction k with
  | zero =>
    intro v
    constructor
    · intro hv
      have hv2 : v ∈ ({s} : Finset Nat) := hv
      have hvs : v = s := by simpa using hv2
      subst hvs
      exact ⟨[v], List.chain'_singleton v, rfl, rfl, rfl⟩
    · rintro ⟨p, -, hh, hl, hlen⟩
      obtain ⟨a, rfl⟩ := List.length_eq_one.mp hlen
      have has : a = s := by simpa using hh
      have hav : a = v := by simpa using hl
      show v ∈ ({s} : Finset Nat)
      simp [← has, ← hav]
  | succ k ih =>
    intro v
    constructor
    · intro hv
      obtain ⟨u, hu, hnbr⟩ := mem_reachSet_succ.mp hv
      obtain ⟨p, hc, hh, hl, hlen⟩ := ih.mp hu
      refine ⟨p ++ [v], ?_, ?_, List.getLast?_concat p, by simp [hlen]⟩
      · rw [List.chain'_append]
        refine ⟨hc, List.chain'_singleton v, ?_⟩
        intro x hx y hy
        rw [hl] at hx
        have hxu : u = x := by simpa using hx
        have hyv : v = y := by simpa using hy
        rw [← hxu, ← hyv]
        exact hnbr
      · rw [List.head?_append, hh]
        rfl
    · rintro ⟨p, hc, hh, hl, hlen⟩
      obtain ⟨q, rfl⟩ := List.getLast?_eq_some_iff.mp hl
      have hqlen : q.length = k + 1 := by
        simp only [List.length_append, List.length_cons, List.length_nil] at hlen
        omega
      have hqne : q ≠ [] := by
        intro h
        rw [h] at hqlen
        simp at hqlen
      obtain ⟨u, hu⟩ : ∃ u, q.getLast? = some u := by
        cases hq : q.getLast? with
        | none => exact absurd (List.getLast?_eq_none_iff.mp hq) hqne
        | some u => exact ⟨u, rfl⟩
      rw [List.chain'_append] at hc
      obtain ⟨hcq, -, hrel⟩ := hc
      have hh2 : q.head? = some s := by
        rw [List.head?_append] at hh
        cases hq : q.head? with
        | none => exact absurd (List.head?_eq_none_iff.mp hq) hqne
        | some b => rw [hq] at hh; simpa using hh
      have hu_reach : u ∈ reachSet nbr s k := ih.mpr ⟨q, hcq, hh2, hu, hqlen⟩
      exact mem_reachSet_succ.mpr ⟨u, hu_reach, hrel u hu v rfl⟩

theorem mem_reachSet_iff_chain_rev {cn an : Nat → Finset Nat} {t : Nat}
    (hflip : ∀ u v, u ∈ an v ↔ v ∈ cn u) {j v : Nat} :
    v ∈ reachSet an t j ↔
      ∃ p : List Nat, List.Chain' (fun a b => b ∈ cn a) p ∧
        p.head? = some v ∧ p.getLast? = some t ∧ p.length = j + 1 := by
  rw [mem_reachSet_iff_chain]
  constructor
  · rintro ⟨p, hc, hh, hl, hlen⟩
    refine ⟨p.reverse, ?_, by simpa using hl, by simpa using hh, by simpa using hlen⟩
    rw [List.chain'_reverse]
    apply List.Chain'.imp ?_ hc
    intro a b hab
    exact (hflip b a).mp hab
  · rintro ⟨p, hc, hh, hl, hlen⟩
    refine ⟨p.reverse, ?_, by simpa using hl, by simpa using hh, by simpa using hlen⟩
    rw [List.chain'_reverse]
    apply List.Chain'.imp ?_ hc
    intro a b hab
    exact (hflip a b).mpr hab

/-! ### Edge relation under well-formedness -/

namespace WikiGraph

theorem entry_ne_zero_iff {g : WikiGraph} {i j : Nat} :
    g.entry i j ≠ 0 ↔ (i, j) ∈ g.edges := by
  unfold entry
  rw [← List.count_pos_iff]
  omega

theorem entry_lt {g : WikiGraph} (hg : g.Wf) {i j : Nat} (h : g.entry i j ≠ 0) :
    i < g.n ∧ j < g.n :=
  hg.2 _ (entry_ne_zero_iff.mp h)

theorem mem_directedChildren_iff {g : WikiGraph} (hg : g.Wf) {u v : Nat} :
    v ∈ g.directedChildren u ↔ g.entry u v ≠ 0 := by
  unfold directedChildren
  rw [Finset.mem_filter, Finset.mem_range]
  exact ⟨fun h => h.2, fun h => ⟨(entry_lt hg h).2, h⟩⟩

theorem mem_directedAncestors_iff {g : WikiGraph} (hg : g.Wf) {u v : Nat} :
    u ∈ g.directedAncestors v ↔ g.entry u v ≠ 0 := by
  unfold directedAncestors
  rw [Finset.mem_filter, Finset.mem_range]
  exact ⟨fun h => h.2, fun h => ⟨(entry_lt hg h).1, h⟩⟩

theorem mem_undirectedNeighbors_iff {g : WikiGraph} (hg : g.Wf) {u v : Nat} :
    v ∈ g.undirectedNeighbors u ↔ (g.entry u v ≠ 0 ∨ g.entry v u ≠ 0) := by
  rw [undirectedNeighbors_eq_union, Finset.mem_union,
    mem_directedChildren_iff hg, mem_directedAncestors_iff hg]

theorem mem_ancestorsSet_iff {g : WikiGraph} (hg : g.Wf) {directed : Bool} {u v : Nat} :
    u ∈ g.ancestorsSet v directed ↔ v ∈ g.childrenSet u directed := by
  cases directed
  · show u ∈ g.undirectedNeighbors v ↔ v ∈ g.undirectedNeighbors u
    rw [mem_undirectedNeighbors_iff hg, mem_undirectedNeighbors_iff hg]
    exact Or.comm
  · show u ∈ g.directedAncestors v ↔ v ∈ g.directedChildren u
    rw [mem_directedAncestors_iff hg, mem_directedChildren_iff hg]

theorem childrenSet_subset_range (g : WikiGraph) (u : Nat) (directed : Bool) :
    g.childrenSet u directed ⊆ Finset.range g.n := by
  unfold childrenSet undirectedNeighbors directedChildren directedAncestors undirectedRow
  intro v hv
  split at hv
  · exact Finset.mem_of_mem_filter v hv
  · split at hv
    · rcases Finset.mem_union.mp hv with h | h
      · exact Finset.mem_of_mem_filter v h
      · exact Finset.mem_of_mem_filter v h
    · exact Finset.mem_of_mem_filter v hv

theorem ancestorsSet_subset_range (g : WikiGraph) (u : Nat) (directed : Bool) :
    g.ancestorsSet u directed ⊆ Finset.range g.n := by
  unfold ancestorsSet undirectedNeighbors directedChildren directedAncestors undirectedRow
  intro v hv
  split at hv
  · exact Finset.mem_of_mem_filter v hv
  · split at hv
    · rcases Finset.mem_union.mp hv with h | h
      · exact Finset.mem_of_mem_filter v h
      · exact Finset.mem_of_mem_filter v h
    · exact Finset.mem_of_mem_filter v hv


theorem hasEdge_of_mem_childrenSet {g : WikiGraph} {directed : Bool} {u v : Nat}
    (h : v ∈ g.childrenSet u directed) : g.hasEdge directed u v = true := by
  unfold hasEdge
  cases directed
  · show decide ((u, v) ∈ g.edges ∨ (v, u) ∈ g.edges) = true
    rw [decide_eq_true_iff]
    have h3 : v ∈ g.undirectedNeighbors u := h
    rw [undirectedNeighbors_eq_union, Finset.mem_union] at h3
    rcases h3 with hm | hm
    · exact Or.inl (entry_ne_zero_iff.mp (Finset.mem_filter.mp hm).2)
    · exact Or.inr (entry_ne_zero_iff.mp (Finset.mem_filter.mp hm).2)
  · show decide ((u, v) ∈ g.edges) = true
    rw [decide_eq_true_iff]
    exact entry_ne_zero_iff.mp (Finset.mem_filter.mp h).2

end WikiGraph

theorem reachSet_comp {nbr : Nat → Finset Nat} {a : Nat} {i : Nat} :
    ∀ {j x y : Nat}, x ∈ reachSet nbr a i → y ∈ reachSet nbr x j →
      y ∈ reachSet nbr a (i + j) := by
  intro j
  induction j with
  | zero =>
    intro x y hx hy
    have hy2 : y ∈ ({x} : Finset Nat) := hy
    have : y = x := by simpa using hy2
    subst this
    exact hx
  | succ j ih =>
    intro x y hx hy
    obtain ⟨z, hz, hyz⟩ := mem_reachSet_succ.mp hy
    exact mem_reachSet_succ.mpr ⟨z, ih hx hz, hyz⟩

theorem reachSet_one {nbr : Nat → Finset Nat} {a w : Nat} :
    w ∈ reachSet nbr a 1 ↔ w ∈ nbr a := by
  rw [mem_reachSet_succ]
  constructor
  · rintro ⟨v, hv, hw⟩
    have hv2 : v ∈ ({a} : Finset Nat) := hv
    have : v = a := by simpa using hv2
    subst this
    exact hw
  · intro hw
    refine ⟨a, ?_, hw⟩
    show a ∈ ({a} : Finset Nat)
    simp

theorem reachSet_trans {cn an : Nat → Finset Nat}
    (hflip : ∀ u v, u ∈ an v ↔ v ∈ cn u) {s t : Nat} :
    ∀ {j i u : Nat}, u ∈ reachSet cn s i → u ∈ reachSet an t j →
      t ∈ reachSet cn s (i + j) := by
  intro j
  induction j with
  | zero =>
    intro i u hu hu2
    have hu3 : u ∈ ({t} : Finset Nat) := hu2
    have : u = t := by simpa using hu3
    subst this
    exact hu
  | succ j ih =>
    intro i u hu hu2
    obtain ⟨w, hw, huw⟩ := mem_reachSet_succ.mp hu2
    have hwcn : w ∈ cn u := (hflip u w).mp huw
    have hw1 : w ∈ reachSet cn s (i + 1) := mem_reachSet_succ.mpr ⟨u, hu, hwcn⟩
    have := ih hw1 hw
    have harith : i + 1 + j = i + (j + 1) := by omega
    rw [harith] at this
    exact this

theorem reachSet_split {cn an : Nat → Finset Nat}
    (hflip : ∀ u v, u ∈ an v ↔ v ∈ cn u) {s : Nat} :
    ∀ {j i t : Nat}, t ∈ reachSet cn s (i + j) →
      ∃ u, u ∈ reachSet cn s i ∧ u ∈ reachSet an t j := by
  intro j
  induction j with
  | zero =>
    intro i t ht
    refine ⟨t, ht, ?_⟩
    show t ∈ ({t} : Finset Nat)
    simp
  | succ j ih =>
    intro i t ht
    have harith : i + (j + 1) = (i + j) + 1 := by omega
    rw [harith] at ht
    obtain ⟨w, hw, hcn⟩ := mem_reachSet_succ.mp ht
    obtain ⟨u, hu, huw⟩ := ih hw
    have hw1 : w ∈ reachSet an t 1 := reachSet_one.mpr ((hflip w t).mpr hcn)
    have := reachSet_comp hw1 huw
    have harith2 : 1 + j = j + 1 := by omega
    rw [harith2] at this
    exact ⟨u, hu, this⟩

theorem reachSet_subset_of_layer_empty {nbr : Nat → Finset Nat} {s k : Nat}
    (hk : 1 ≤ k) (h : layerSet nbr s k = ∅) :
    ∀ m, reachSet nbr s m ⊆ reachUpTo nbr s (k - 1) := by
  have base : reachSet nbr s k ⊆ reachUpTo nbr s (k - 1) := by
    intro v hv
    by_contra habs
    have hvl : v ∈ layerSet nbr s k := by
      refine mem_layerSet.mpr ⟨hv, fun j hj hvj => ?_⟩
      exact habs (mem_reachUpTo.mpr ⟨j, by omega, hvj⟩)
    rw [h] at hvl
    exact absurd hvl (Finset.not_mem_empty v)
  intro m
  induction m with
  | zero =>
    intro v hv
    exact mem_reachUpTo.mpr ⟨0, by omega, hv⟩
  | succ m ih =>
    intro v hv
    obtain ⟨u, hu, hnbr⟩ := mem_reachSet_succ.mp hv
    obtain ⟨j, hj, huj⟩ := mem_reachUpTo.mp (ih hu)
    have hv2 : v ∈ reachSet nbr s (j + 1) := mem_reachSet_succ.mpr ⟨u, huj, hnbr⟩
    by_cases hc : j + 1 ≤ k - 1
    · exact mem_reachUpTo.mpr ⟨j + 1, hc, hv2⟩
    · have hjk : j + 1 = k := by omega
      rw [hjk] at hv2
      exact base hv2


/-! ### The loop invariant -/

theorem searchStateEtaBridge (st : SearchState) {b : Finset Nat}
    (h : st.bridge = b) : { st with bridge := b } = st := by
  cases st
  simp only at h
  rw [← h]

theorem stepState_proj_odd (g : WikiGraph) (directed noPaths : Bool)
    (st : SearchState) (hpar : (st.degSep + 1) % 2 = 1) :
    stepState g directed noPaths st = { st with
      degSep := st.degSep + 1
      srcFrontier := expand (srcNbr g directed) st.srcFrontier st.srcVisited
      srcVisited := st.srcVisited ∪
        expand (srcNbr g directed) st.srcFrontier st.srcVisited
      srcAnc := if noPaths then st.srcAnc
        else addAnc (srcNbr g directed) st.srcFrontier st.srcVisited st.srcAnc
      srcCnt := if noPaths then
          addCnt (srcNbr g directed) st.srcFrontier st.srcVisited st.srcCnt
        else st.srcCnt } := by
  simp only [stepState]
  rw [if_pos hpar]
  rfl

theorem stepState_proj_even (g : WikiGraph) (directed noPaths : Bool)
    (st : SearchState) (hpar : ¬ (st.degSep + 1) % 2 = 1) :
    stepState g directed noPaths st = { st with
      degSep := st.degSep + 1
      tgtFrontier := expand (tgtNbr g directed) st.tgtFrontier st.tgtVisited
      tgtVisited := st.tgtVisited ∪
        expand (tgtNbr g directed) st.tgtFrontier st.tgtVisited
      tgtChl := if noPaths then st.tgtChl
        else addAnc (tgtNbr g directed) st.tgtFrontier st.tgtVisited st.tgtChl
      tgtCnt := if noPaths then
          addCnt (tgtNbr g directed) st.tgtFrontier st.tgtVisited st.tgtCnt
        else st.tgtCnt } := by
  simp only [stepState]
  rw [if_neg hpar]
  rfl

theorem stepState_degSep (g : WikiGraph) (directed noPaths : Bool)
    (st : SearchState) :
    (stepState g directed noPaths st).degSep = st.degSep + 1 := by
  by_cases hpar : (st.degSep + 1) % 2 = 1
  · rw [stepState_proj_odd g directed noPaths st hpar]
  · rw [stepState_proj_even g directed noPaths st hpar]

theorem stepState_bridge (g : WikiGraph) (directed noPaths : Bool)
    (st : SearchState) :
    (stepState g directed noPaths st).bridge = st.bridge := by
  by_cases hpar : (st.degSep + 1) % 2 = 1
  · rw [stepState_proj_odd g directed noPaths st hpar]
  · rw [stepState_proj_even g directed noPaths st hpar]

theorem bfsIter_succ_fst (nbr : Nat → Finset Nat) (s k : Nat) :
    (bfsIter nbr s (k + 1)).1 =
      expand nbr (bfsIter nbr s k).1 (bfsIter nbr s k).2 := rfl

theorem bfsIter_succ_snd (nbr : Nat → Finset Nat) (s k : Nat) :
    (bfsIter nbr s (k + 1)).2 =
      (bfsIter nbr s k).2 ∪ expand nbr (bfsIter nbr s k).1 (bfsIter nbr s k).2 := rfl

theorem ancIter_succ (nbr : Nat → Finset Nat) (s k : Nat) :
    ancIter nbr s (k + 1) =
      addAnc nbr (bfsIter nbr s k).1 (bfsIter nbr s k).2 (ancIter nbr s k) := rfl

theorem cntIter_succ (nbr : Nat → Finset Nat) (s k : Nat) :
    cntIter nbr s (k + 1) =
      addCnt nbr (bfsIter nbr s k).1 (bfsIter nbr s k).2 (cntIter nbr s k) := rfl

theorem loopInv_init {g : WikiGraph} {directed noPaths : Bool}
    {srcIdx tgtIdx : Nat} (hne : srcIdx ≠ tgtIdx) :
    LoopInv g directed noPaths srcIdx tgtIdx (initState srcIdx tgtIdx) := by
  have hd : (initState srcIdx tgtIdx).degSep = 0 := rfl
  have h1 : (0 + 1) / 2 = 0 := rfl
  have h0 : 0 / 2 = 0 := rfl
  constructor
  · rw [hd]
    omega
  · rw [hd, h1]
    rfl
  · rw [hd, h1]
    rfl
  · rw [hd, h0]
    rfl
  · rw [hd, h0]
    rfl
  · rw [hd, h1]
    cases noPaths <;> rfl
  · rw [hd, h0]
    cases noPaths <;> rfl
  · rw [hd, h1]
    cases noPaths <;> rfl
  · rw [hd, h0]
    cases noPaths <;> rfl
  · exact Or.inl rfl
  · intro L hL
    rw [hd] at hL
    exact absurd hL (Nat.not_lt_zero L)
  · intro _
    show tgtIdx ∉ ({srcIdx} : Finset Nat)
    simp only [Finset.mem_singleton]
    exact fun h => hne h.symm

theorem loopInv_stepped {g : WikiGraph} {directed noPaths : Bool}
    {srcIdx tgtIdx : Nat} {st : SearchState}
    (hst : LoopInv g directed noPaths srcIdx tgtIdx st)
    (hdeg : st.degSep < 6) (hbr : st.bridge = ∅)
    (br : Finset Nat)
    (hbrEq : br = ∅ ∨ br = (stepState g directed noPaths st).srcFrontier ∩
      (stepState g directed noPaths st).tgtFrontier)
    (hbrCur : br = ∅ →
      tgtIdx ∉ reachSet (srcNbr g directed) srcIdx (st.degSep + 1)) :
    LoopInv g directed noPaths srcIdx tgtIdx
      { stepState g directed noPaths st with bridge := br } := by
  by_cases hpar : (st.degSep + 1) % 2 = 1
  · rw [stepState_proj_odd g directed noPaths st hpar] at hbrEq ⊢
    have hepar : st.degSep % 2 = 0 := by omega
    have hidx : (st.degSep + 1 + 1) / 2 = (st.degSep + 1) / 2 + 1 := by omega
    have hidx2 : (st.degSep + 1) / 2 = st.degSep / 2 := by omega
    constructor
    · show st.degSep + 1 ≤ 6
      omega
    · show expand (srcNbr g directed) st.srcFrontier st.srcVisited =
        (bfsIter (srcNbr g directed) srcIdx ((st.degSep + 1 + 1) / 2)).1
      rw [hidx, bfsIter_succ_fst, ← hst.srcF, ← hst.srcV]
    · show st.srcVisited ∪ expand (srcNbr g directed) st.srcFrontier st.srcVisited =
        (bfsIter (srcNbr g directed) srcIdx ((st.degSep + 1 + 1) / 2)).2
      rw [hidx, bfsIter_succ_snd, ← hst.srcF, ← hst.srcV]
    · show st.tgtFrontier = (bfsIter (tgtNbr g directed) tgtIdx ((st.degSep + 1) / 2)).1
      rw [hidx2]
      exact hst.tgtF
    · show st.tgtVisited = (bfsIter (tgtNbr g directed) tgtIdx ((st.degSep + 1) / 2)).2
      rw [hidx2]
      exact hst.tgtV
    · show (if noPaths then st.srcAnc
          else addAnc (srcNbr g directed) st.srcFrontier st.srcVisited st.srcAnc) =
        if noPaths then (fun _ => (∅ : Finset Nat))
          else ancIter (srcNbr g directed) srcIdx ((st.degSep + 1 + 1) / 2)
      have hA := hst.srcA
      cases noPaths
      · simp only [Bool.false_eq_true, if_false] at hA ⊢
        rw [hidx, ancIter_succ, ← hst.srcF, ← hst.srcV, ← hA]
      · simpa using hA
    · show st.tgtChl = if noPaths then (fun _ => (∅ : Finset Nat))
          else ancIter (tgtNbr g directed) tgtIdx ((st.degSep + 1) / 2)
      rw [hidx2]
      exact hst.tgtC
    · show (if noPaths then
            addCnt (srcNbr g directed) st.srcFrontier st.srcVisited st.srcCnt
          else st.srcCnt) =
        if noPaths then cntIter (srcNbr g directed) srcIdx ((st.degSep + 1 + 1) / 2)
          else fun v => if v = srcIdx then 1 else 0
      have hN := hst.srcN
      cases noPaths
      · simpa using hN
      · simp only [if_true] at hN ⊢
        rw [hidx, cntIter_succ, ← hst.srcF, ← hst.srcV, ← hN]
    · show st.tgtCnt = if noPaths then
          cntIter (tgtNbr g directed) tgtIdx ((st.degSep + 1) / 2)
        else fun v => if v = tgtIdx then 1 else 0
      rw [hidx2]
      exact hst.tgtN
    · exact hbrEq
    · show ∀ L < st.degSep + 1, tgtIdx ∉ reachSet (srcNbr g directed) srcIdx L
      intro L hL
      by_cases hLe : L < st.degSep
      · exact hst.noShort L hLe
      · have hLeq : L = st.degSep := by omega
        subst hLeq
        exact hst.noCur hbr
    · exact hbrCur
  · rw [stepState_proj_even g directed noPaths st hpar] at hbrEq ⊢
    have hepar : st.degSep % 2 = 1 := by omega
    have hidx : (st.degSep + 1 + 1) / 2 = (st.degSep + 1) / 2 := by omega
    have hidx2 : (st.degSep + 1) / 2 = st.degSep / 2 + 1 := by omega
    constructor
    · show st.degSep + 1 ≤ 6
      omega
    · show st.srcFrontier =
        (bfsIter (srcNbr g directed) srcIdx ((st.degSep + 1 + 1) / 2)).1
      rw [hidx]
      exact hst.srcF
    · show st.srcVisited =
        (bfsIter (srcNbr g directed) srcIdx ((st.degSep + 1 + 1) / 2)).2
      rw [hidx]
      exact hst.srcV
    · show expand (tgtNbr g directed) st.tgtFrontier st.tgtVisited =
        (bfsIter (tgtNbr g directed) tgtIdx ((st.degSep + 1) / 2)).1
      rw [hidx2, bfsIter_succ_fst, ← hst.tgtF, ← hst.tgtV]
    · show st.tgtVisited ∪ expand (tgtNbr g directed) st.tgtFrontier st.tgtVisited =
        (bfsIter (tgtNbr g directed) tgtIdx ((st.degSep + 1) / 2)).2
      rw [hidx2, bfsIter_succ_snd, ← hst.tgtF, ← hst.tgtV]
    · show st.srcAnc = if noPaths then (fun _ => (∅ : Finset Nat))
          else ancIter (srcNbr g directed) srcIdx ((st.degSep + 1 + 1) / 2)
      rw [hidx]
      exact hst.srcA
    · show (if noPaths then st.tgtChl
          else addAnc (tgtNbr g directed) st.tgtFrontier st.tgtVisited st.tgtChl) =
        if noPaths then (fun _ => (∅ : Finset Nat))
          else ancIter (tgtNbr g directed) tgtIdx ((st.degSep + 1) / 2)
      have hA := hst.tgtC
      cases noPaths
      · simp only [Bool.false_eq_true, if_false] at hA ⊢
        rw [hidx2, ancIter_succ, ← hst.tgtF, ← hst.tgtV, ← hA]
      · simpa using hA
    · show st.srcCnt = if noPaths then
          cntIter (srcNbr g directed) srcIdx ((st.degSep + 1 + 1) / 2)
        else fun v => if v = srcIdx then 1 else 0
      rw [hidx]
      exact hst.srcN
    · show (if noPaths then
            addCnt (tgtNbr g directed) st.tgtFrontier st.tgtVisited st.tgtCnt
          else st.tgtCnt) =
        if noPaths then cntIter (tgtNbr g directed) tgtIdx ((st.degSep + 1) / 2)
          else fun v => if v = tgtIdx then 1 else 0
      have hN := hst.tgtN
      cases noPaths
      · simpa using hN
      · simp only [if_true] at hN ⊢
        rw [hidx2, cntIter_succ, ← hst.tgtF, ← hst.tgtV, ← hN]
    · exact hbrEq
    · show ∀ L < st.degSep + 1, tgtIdx ∉ reachSet (srcNbr g directed) srcIdx L
      intro L hL
      by_cases hLe : L < st.degSep
      · exact hst.noShort L hLe
      · have hLeq : L = st.degSep := by omega
        subst hLeq
        exact hst.noCur hbr
    · exact hbrCur

theorem walk_absurd_layer_src {cn : Nat → Finset Nat} {s t k m : Nat}
    (hk : layerSet cn s k = ∅) (hkm : k ≤ m)
    (hall : ∀ L < k, t ∉ reachSet cn s L)
    (hwalk : t ∈ reachSet cn s m) : False := by
  rcases Nat.eq_zero_or_pos k with rfl | hk1
  · rw [layerSet_zero] at hk
    exact absurd hk (Finset.singleton_ne_empty s)
  · have hsub := reachSet_subset_of_layer_empty hk1 hk m hwalk
    obtain ⟨j, hj, hwj⟩ := mem_reachUpTo.mp hsub
    exact hall j (by omega) hwj

theorem walk_absurd_layer_tgt {cn an : Nat → Finset Nat}
    (hflip : ∀ u v, u ∈ an v ↔ v ∈ cn u) {s t k m : Nat}
    (hk : layerSet an t k = ∅) (hkm : k ≤ m)
    (hall : ∀ L < k, t ∉ reachSet cn s L)
    (hwalk : t ∈ reachSet cn s m) : False := by
  have hm : t ∈ reachSet cn s (0 + m) := by
    rw [Nat.zero_add]
    exact hwalk
  obtain ⟨u, hu0, hum⟩ := reachSet_split hflip hm
  have hu2 : u ∈ ({s} : Finset Nat) := hu0
  have hus : u = s := by simpa using hu2
  subst hus
  rcases Nat.eq_zero_or_pos k with rfl | hk1
  · rw [layerSet_zero] at hk
    exact absurd hk (Finset.singleton_ne_empty t)
  · have hsub := reachSet_subset_of_layer_empty hk1 hk m hum
    obtain ⟨j, hj, hwj⟩ := mem_reachUpTo.mp hsub
    have hs0 : u ∈ reachSet cn u 0 := by
      show u ∈ ({u} : Finset Nat)
      simp
    have hwj2 := reachSet_trans hflip hs0 hwj
    rw [Nat.zero_add] at hwj2
    exact hall j (by omega) hwj2

theorem walk_absurd_bridge_empty {cn an : Nat → Finset Nat}
    (hflip : ∀ u v, u ∈ an v ↔ v ∈ cn u) {s t i j m : Nat}
    (him : i + j = m)
    (hint : layerSet cn s i ∩ layerSet an t j = ∅)
    (hall : ∀ L < m, t ∉ reachSet cn s L)
    (hwalk : t ∈ reachSet cn s m) : False := by
  rw [← him] at hwalk
  obtain ⟨u, hui, huj⟩ := reachSet_split hflip hwalk
  have hul : u ∈ layerSet cn s i := by
    refine mem_layerSet.mpr ⟨hui, ?_⟩
    intro j2 hj2 hu2
    have ht2 := reachSet_trans hflip hu2 huj
    exact hall (j2 + j) (by omega) ht2
  have hur : u ∈ layerSet an t j := by
    refine mem_layerSet.mpr ⟨huj, ?_⟩
    intro j2 hj2 hu2
    have ht2 := reachSet_trans hflip hui hu2
    exact hall (i + j2) (by omega) ht2
  have hmem : u ∈ layerSet cn s i ∩ layerSet an t j :=
    Finset.mem_inter.mpr ⟨hul, hur⟩
  rw [hint] at hmem
  exact absurd hmem (Finset.not_mem_empty u)

theorem stepState_frontiers {g : WikiGraph} {directed noPaths : Bool}
    {srcIdx tgtIdx : Nat} {st : SearchState}
    (hst : LoopInv g directed noPaths srcIdx tgtIdx st) :
    (stepState g directed noPaths st).srcFrontier =
      (bfsIter (srcNbr g directed) srcIdx ((st.degSep + 2) / 2)).1 ∧
    (stepState g directed noPaths st).tgtFrontier =
      (bfsIter (tgtNbr g directed) tgtIdx ((st.degSep + 1) / 2)).1 := by
  by_cases hpar : (st.degSep + 1) % 2 = 1
  · rw [stepState_proj_odd g directed noPaths st hpar]
    have hidx : (st.degSep + 2) / 2 = (st.degSep + 1) / 2 + 1 := by omega
    have hidx2 : (st.degSep + 1) / 2 = st.degSep / 2 := by omega
    constructor
    · show expand (srcNbr g directed) st.srcFrontier st.srcVisited = _
      rw [hidx, bfsIter_succ_fst, ← hst.srcF, ← hst.srcV]
    · show st.tgtFrontier = _
      rw [hidx2]
      exact hst.tgtF
  · rw [stepState_proj_even g directed noPaths st hpar]
    have hidx : (st.degSep + 2) / 2 = (st.degSep + 1) / 2 := by omega
    have hidx2 : (st.degSep + 1) / 2 = st.degSep / 2 + 1 := by omega
    constructor
    · show st.srcFrontier = _
      rw [hidx]
      exact hst.srcF
    · show expand (tgtNbr g directed) st.tgtFrontier st.tgtVisited = _
      rw [hidx2, bfsIter_succ_fst, ← hst.tgtF, ← hst.tgtV]

theorem loopInv_noShort_succ {g : WikiGraph} {directed noPaths : Bool}
    {srcIdx tgtIdx : Nat} {st : SearchState}
    (hst : LoopInv g directed noPaths srcIdx tgtIdx st) (hbr : st.bridge = ∅) :
    ∀ L < st.degSep + 1, tgtIdx ∉ reachSet (srcNbr g directed) srcIdx L := by
  intro L hL
  by_cases hLe : L < st.degSep
  · exact hst.noShort L hLe
  · have hLeq : L = st.degSep := by omega
    subst hLeq
    exact hst.noCur hbr

theorem loopInv_break {g : WikiGraph} (hg : g.Wf) {directed noPaths : Bool}
    {srcIdx tgtIdx : Nat} {st : SearchState}
    (hst : LoopInv g directed noPaths srcIdx tgtIdx st)
    (hdeg : st.degSep < 6) (hbr : st.bridge = ∅)
    (hbreak : (stepState g directed noPaths st).srcFrontier = ∅ ∨
      (stepState g directed noPaths st).tgtFrontier = ∅) :
    LoopInv g directed noPaths srcIdx tgtIdx (stepState g directed noPaths st) := by
  have hb : (stepState g directed noPaths st).bridge = ∅ := by
    rw [stepState_bridge]
    exact hbr
  rw [← searchStateEtaBridge (stepState g directed noPaths st) hb]
  apply loopInv_stepped hst hdeg hbr ∅ (Or.inl rfl)
  intro _ hwalk
  have hfr := stepState_frontiers hst
  have hflip : ∀ u v, u ∈ tgtNbr g directed v ↔ v ∈ srcNbr g directed u :=
    fun u v => WikiGraph.mem_ancestorsSet_iff hg
  have hall := loopInv_noShort_succ hst hbr
  rcases hbreak with hbk | hbk
  · rw [hfr.1, bfsIter_fst] at hbk
    exact walk_absurd_layer_src hbk (by omega)
      (fun L hL => hall L (by omega)) hwalk
  · rw [hfr.2, bfsIter_fst] at hbk
    exact walk_absurd_layer_tgt hflip hbk (by omega)
      (fun L hL => hall L (by omega)) hwalk

theorem loopInv_cont {g : WikiGraph} (hg : g.Wf) {directed noPaths : Bool}
    {srcIdx tgtIdx : Nat} {st : SearchState}
    (hst : LoopInv g directed noPaths srcIdx tgtIdx st)
    (hdeg : st.degSep < 6) (hbr : st.bridge = ∅) :
    LoopInv g directed noPaths srcIdx tgtIdx
      { stepState g directed noPaths st with
        bridge := (stepState g directed noPaths st).srcFrontier ∩
          (stepState g directed noPaths st).tgtFrontier } := by
  apply loopInv_stepped hst hdeg hbr _ (Or.inr rfl)
  intro hbEmpty hwalk
  have hfr := stepState_frontiers hst
  have hflip : ∀ u v, u ∈ tgtNbr g directed v ↔ v ∈ srcNbr g directed u :=
    fun u v => WikiGraph.mem_ancestorsSet_iff hg
  have hall := loopInv_noShort_succ hst hbr
  rw [hfr.1, hfr.2, bfsIter_fst, bfsIter_fst] at hbEmpty
  exact walk_absurd_bridge_empty hflip
    (show (st.degSep + 2) / 2 + (st.degSep + 1) / 2 = st.degSep + 1 by omega)
    hbEmpty hall hwalk

theorem loopInv_searchLoop {g : WikiGraph} (hg : g.Wf) {directed noPaths : Bool}
    {srcIdx tgtIdx : Nat} :
    ∀ fuel st, LoopInv g directed noPaths srcIdx tgtIdx st →
      LoopInv g directed noPaths srcIdx tgtIdx
        (searchLoop g directed noPaths fuel st) := by
  intro fuel
  induction fuel with
  | zero =>
    intro st h
    exact h
  | succ m ih =>
    intro st h
    simp only [searchLoop]
    split
    · next hcond =>
      split
      · next hbk => exact loopInv_break hg h hcond.1 hcond.2 hbk
      · next hbk => exact ih _ (loopInv_cont hg h hcond.1 hcond.2)
    · exact h

theorem searchLoop_exit (g : WikiGraph) (directed noPaths : Bool) :
    ∀ fuel st, 6 ≤ fuel + st.degSep →
      ¬((searchLoop g directed noPaths fuel st).degSep < 6 ∧
          (searchLoop g directed noPaths fuel st).bridge = ∅) ∨
        (searchLoop g directed noPaths fuel st).srcFrontier = ∅ ∨
        (searchLoop g directed noPaths fuel st).tgtFrontier = ∅ := by
  intro fuel
  induction fuel with
  | zero =>
    intro st hf
    simp only [searchLoop]
    left
    rintro ⟨hlt, -⟩
    omega
  | succ m ih =>
    intro st hf
    simp only [searchLoop]
    split
    · next hcond =>
      split
      · next hbk =>
        rcases hbk with h | h
        · exact Or.inr (Or.inl h)
        · exact Or.inr (Or.inr h)
      · next hbk =>
        refine ih _ ?_
        have hds : ({ stepState g directed noPaths st with
            bridge := (stepState g directed noPaths st).srcFrontier ∩
              (stepState g directed noPaths st).tgtFrontier } :
            SearchState).degSep = st.degSep + 1 :=
          stepState_degSep g directed noPaths st
        rw [hds]
        omega
    · next hcond =>
      left
      exact hcond

/-! ### Enumeration of finite sets as lists -/

theorem sortedList_coe (s : Finset Nat) : (↑(sortedList s) : Multiset Nat) = s.val := by
  rcases s with ⟨m, hm⟩
  induction m using Quotient.inductionOn
  exact Quot.sound (List.perm_insertionSort _ _)

theorem mem_sortedList {s : Finset Nat} {x : Nat} : x ∈ sortedList s ↔ x ∈ s := by
  rw [← Multiset.mem_coe, sortedList_coe]
  rfl

theorem nodup_sortedList (s : Finset Nat) : (sortedList s).Nodup := by
  rw [← Multiset.coe_nodup, sortedList_coe]
  exact s.nodup

theorem sum_map_sortedList (t : Finset Nat) (f : Nat → Nat) :
    ((sortedList t).map f).sum = ∑ x ∈ t, f x := by
  rw [Finset.sum]
  rw [← sortedList_coe]
  rfl

theorem length_flatMap_eq {α β : Type} (l : List α) (f : α → List β) :
    (l.flatMap f).length = (l.map fun a => (f a).length).sum := by
  rw [List.flatMap_def, List.length_flatten, List.map_map]
  rfl

/-! ### Layer helpers -/

theorem source_not_mem_layer {nbr : Nat → Finset Nat} {s k : Nat} (hk : 1 ≤ k) :
    s ∉ layerSet nbr s k := by
  intro h
  apply (mem_layerSet.mp h).2 0 (by omega)
  show s ∈ ({s} : Finset Nat)
  simp

theorem layer_ne_of_ne {nbr : Nat → Finset Nat} {s i j x y : Nat}
    (hx : x ∈ layerSet nbr s i) (hy : y ∈ layerSet nbr s j) (hij : i ≠ j) :
    x ≠ y := by
  rintro rfl
  rcases Nat.lt_or_ge i j with h | h
  · exact (mem_layerSet.mp hy).2 i h (mem_layerSet.mp hx).1
  · have hji : j < i := by omega
    exact (mem_layerSet.mp hx).2 j hji (mem_layerSet.mp hy).1

theorem layer_filter_eq {nbr : Nat → Finset Nat} {s k w : Nat}
    (hw : w ∈ layerSet nbr s (k + 1)) :
    (layerSet nbr s k).filter (fun v => w ∈ nbr v) =
      (reachSet nbr s k).filter (fun v => w ∈ nbr v) := by
  ext v
  simp only [Finset.mem_filter]
  constructor
  · rintro ⟨hv, hnbr⟩
    exact ⟨(mem_layerSet.mp hv).1, hnbr⟩
  · rintro ⟨hv, hnbr⟩
    refine ⟨mem_layerSet.mpr ⟨hv, ?_⟩, hnbr⟩
    intro j hj hvj
    exact (mem_layerSet.mp hw).2 (j + 1) (by omega)
      (mem_reachSet_succ.mpr ⟨v, hvj, hnbr⟩)

/-! ### Soundness and cardinality of the source-half reconstruction -/

theorem srcChains_sound {cn : Nat → Finset Nat} {s : Nat} {K : Nat} :
    ∀ {k : Nat}, k + 1 ≤ K → ∀ {hd : Nat}, hd ∈ layerSet cn s (k + 1) →
      ∀ {fuel : Nat}, k + 1 ≤ fuel → ∀ {tl p : List Nat},
        p ∈ srcChains (ancIter cn s K) s fuel hd tl →
        ∃ c : List Nat, p = c ++ hd :: tl ∧ c.length = k + 1 ∧ c.head? = some s ∧
          List.Chain' (fun a b => b ∈ cn a) (c ++ [hd]) ∧ (c ++ [hd]).Nodup ∧
          ∀ x ∈ c, ∃ i, i ≤ k ∧ x ∈ layerSet cn s i := by
  intro k
  induction k with
  | zero =>
    intro hK hd hhd fuel hfuel tl p hp
    obtain ⟨f, rfl⟩ : ∃ f, fuel = f + 1 := ⟨fuel - 1, by omega⟩
    simp only [srcChains, List.mem_flatMap] at hp
    obtain ⟨a, ha, hpa⟩ := hp
    rw [mem_sortedList, ancIter_layer hhd hK, Finset.mem_filter] at ha
    obtain ⟨ha0, hedge⟩ := ha
    rw [layerSet_zero] at ha0
    have has : a = s := by simpa using ha0
    subst has
    rw [if_pos rfl] at hpa
    have hps : p = a :: hd :: tl := by simpa using hpa
    have hane : a ≠ hd :=
      layer_ne_of_ne (by rw [layerSet_zero]; simp) hhd (by omega)
    refine ⟨[a], by simpa using hps, rfl, rfl, ?_, ?_, ?_⟩
    · exact List.chain'_cons.mpr ⟨hedge, List.chain'_singleton hd⟩
    · simp [hane]
    · intro x hx
      have hxa : x = a := by simpa using hx
      subst hxa
      exact ⟨0, le_refl _, by rw [layerSet_zero]; simp⟩
  | succ k ih =>
    intro hK hd hhd fuel hfuel tl p hp
    obtain ⟨f, rfl⟩ : ∃ f, fuel = f + 1 := ⟨fuel - 1, by omega⟩
    simp only [srcChains, List.mem_flatMap] at hp
    obtain ⟨a, ha, hpa⟩ := hp
    rw [mem_sortedList, ancIter_layer hhd hK, Finset.mem_filter] at ha
    obtain ⟨haL, hedge⟩ := ha
    have hane : a ≠ s := by
      intro h
      rw [h] at haL
      exact source_not_mem_layer (by omega) haL
    rw [if_neg hane] at hpa
    obtain ⟨c2, hp2, hlen2, hhead2, hchain2, hnodup2, hmem2⟩ :=
      ih (by omega) haL (by omega) hpa
    refine ⟨c2 ++ [a], ?_, ?_, ?_, ?_, ?_, ?_⟩
    · rw [hp2]
      simp
    · simp [hlen2]
    · rw [List.head?_append, hhead2]
      rfl
    · rw [List.chain'_append]
      refine ⟨hchain2, List.chain'_singleton hd, ?_⟩
      intro x hx y hy
      rw [List.getLast?_concat] at hx
      have hxa : a = x := by simpa using hx
      have hyhd : hd = y := by simpa using hy
      rw [← hxa, ← hyhd]
      exact hedge
    · apply List.Nodup.append hnodup2 (List.nodup_singleton hd)
      intro x hx hx2
      have hxhd : x = hd := by simpa using hx2
      subst hxhd
      rcases List.mem_append.mp hx with hx | hx
      · obtain ⟨i, hi, hxi⟩ := hmem2 _ hx
        exact layer_ne_of_ne hxi hhd (by omega) rfl
      · have hxa2 : x = a := by simpa using hx
        rw [hxa2] at hhd
        exact layer_ne_of_ne haL hhd (by omega) rfl
    · intro x hx
      rcases List.mem_append.mp hx with hx | hx
      · obtain ⟨i, hi, hxi⟩ := hmem2 x hx
        exact ⟨i, by omega, hxi⟩
      · have hxa3 : x = a := by simpa using hx
        subst hxa3
        exact ⟨k + 1, le_refl _, haL⟩

theorem srcChains_length {cn : Nat → Finset Nat} {s : Nat} {K : Nat} :
    ∀ {k : Nat}, k + 1 ≤ K → ∀ {hd : Nat}, hd ∈ layerSet cn s (k + 1) →
      ∀ {fuel : Nat}, k + 1 ≤ fuel → ∀ (tl : List Nat),
        (srcChains (ancIter cn s K) s fuel hd tl).length =
          walkCount cn s (k + 1) hd := by
  intro k
  induction k with
  | zero =>
    intro hK hd hhd fuel hfuel tl
    obtain ⟨f, rfl⟩ : ∃ f, fuel = f + 1 := ⟨fuel - 1, by omega⟩
    show (List.flatMap _ _).length = _
    rw [length_flatMap_eq, sum_map_sortedList, ancIter_layer hhd hK]
    simp only [walkCount]
    rw [layer_filter_eq hhd]
    apply Finset.sum_congr rfl
    intro a ha
    rw [Finset.mem_filter] at ha
    have ha2 : a ∈ ({s} : Finset Nat) := ha.1
    have has : a = s := by simpa using ha2
    subst has
    rw [if_pos rfl]
    simp
  | succ k ih =>
    intro hK hd hhd fuel hfuel tl
    obtain ⟨f, rfl⟩ : ∃ f, fuel = f + 1 := ⟨fuel - 1, by omega⟩
    show (List.flatMap _ _).length = _
    rw [length_flatMap_eq, sum_map_sortedList, ancIter_layer hhd hK]
    conv_rhs => rw [walkCount]
    rw [← layer_filter_eq hhd]
    apply Finset.sum_congr rfl
    intro a ha
    rw [Finset.mem_filter] at ha
    have hane : a ≠ s := by
      intro h
      rw [h] at ha
      exact source_not_mem_layer (by omega) ha.1
    rw [if_neg hane]
    exact ih (by omega) ha.1 (by omega) _

/-! ### The target-half reconstruction mirrors the source-half one -/

theorem flatMap_perm_of_perm {α β : Type} (l : List α) {f g : α → List β}
    (h : ∀ a ∈ l, List.Perm (f a) (g a)) :
    List.Perm (l.flatMap f) (l.flatMap g) := by
  induction l with
  | nil => exact List.Perm.refl _
  | cons a l ih =>
    simp only [List.flatMap_cons]
    exact (h a (by simp)).append (ih fun x hx => h x (by simp [hx]))

theorem tgtChains_perm (chl : Nat → Finset Nat) (t : Nat) :
    ∀ (fuel : Nat) (front : List Nat) (lst : Nat),
      List.Perm (tgtChains chl t fuel front lst)
        ((srcChains chl t fuel lst front.reverse).map List.reverse) := by
  intro fuel
  induction fuel with
  | zero =>
    intro front lst
    show List.Perm ([] : List (List Nat)) _
    simp [srcChains]
  | succ f ih =>
    intro front lst
    show List.Perm ((sortedList (chl lst)).flatMap _) _
    have hrw : (srcChains chl t (f + 1) lst front.reverse).map List.reverse =
        (sortedList (chl lst)).flatMap fun c =>
          (if c = t then [c :: lst :: front.reverse]
           else srcChains chl t f c (lst :: front.reverse)).map List.reverse := by
      show (List.flatMap _ _).map _ = _
      rw [List.map_flatMap]
    rw [hrw]
    apply flatMap_perm_of_perm
    intro a ha
    by_cases hat : a = t
    · subst hat
      rw [if_pos rfl, if_pos rfl]
      have heq : (a :: lst :: front.reverse).reverse = front ++ [lst, a] := by
        simp
      rw [List.map_singleton, heq]
    · rw [if_neg hat, if_neg hat]
      have hih := ih (front ++ [lst]) a
      have heq : (front ++ [lst]).reverse = lst :: front.reverse := by
        simp
      rw [heq] at hih
      exact hih

theorem mem_tgtChains_iff {chl : Nat → Finset Nat} {t : Nat} {fuel : Nat}
    {front : List Nat} {lst : Nat} {p : List Nat} :
    p ∈ tgtChains chl t fuel front lst ↔
      p.reverse ∈ srcChains chl t fuel lst front.reverse := by
  rw [(tgtChains_perm chl t fuel front lst).mem_iff, List.mem_map]
  constructor
  · rintro ⟨q, hq, rfl⟩
    simpa using hq
  · intro h
    exact ⟨p.reverse, h, by simp⟩

theorem tgtChains_length_eq {chl : Nat → Finset Nat} {t : Nat} {fuel : Nat}
    {front : List Nat} {lst : Nat} :
    (tgtChains chl t fuel front lst).length =
      (srcChains chl t fuel lst front.reverse).length := by
  rw [(tgtChains_perm chl t fuel front lst).length_eq, List.length_map]

/-! ### Completeness of the source-half reconstruction -/

theorem srcChains_complete {cn : Nat → Finset Nat} {s : Nat} {K : Nat} :
    ∀ {k : Nat}, k + 1 ≤ K → ∀ {hd : Nat}, hd ∈ layerSet cn s (k + 1) →
      ∀ {fuel : Nat}, k + 1 ≤ fuel → ∀ {tl c : List Nat},
        c.head? = some s → c.length = k + 1 →
        List.Chain' (fun a b => b ∈ cn a) (c ++ [hd]) →
        (c ++ hd :: tl) ∈ srcChains (ancIter cn s K) s fuel hd tl := by
  intro k
  induction k with
  | zero =>
    intro hK hd hhd fuel hfuel tl c hhead hlen hchain
    obtain ⟨f, rfl⟩ : ∃ f, fuel = f + 1 := ⟨fuel - 1, by omega⟩
    obtain ⟨x, rfl⟩ := List.length_eq_one.mp hlen
    have hxs : x = s := by simpa using hhead
    subst hxs
    have hedge : hd ∈ cn x := (List.chain'_cons.mp hchain).1
    simp only [srcChains, List.mem_flatMap]
    refine ⟨x, ?_, ?_⟩
    · rw [mem_sortedList, ancIter_layer hhd hK, Finset.mem_filter]
      exact ⟨by rw [layerSet_zero]; simp, hedge⟩
    · rw [if_pos rfl]
      simp
  | succ k ih =>
    intro hK hd hhd fuel hfuel tl c hhead hlen hchain
    obtain ⟨f, rfl⟩ : ∃ f, fuel = f + 1 := ⟨fuel - 1, by omega⟩
    rcases List.eq_nil_or_concat c with rfl | ⟨c2, a, rfl⟩
    · simp at hlen
    rw [List.concat_eq_append] at hchain hhead hlen ⊢
    have hc2len : c2.length = k + 1 := by
      simp only [List.length_append, List.length_cons, List.length_nil] at hlen
      omega
    have hc2ne : c2 ≠ [] := by
      intro h
      rw [h] at hc2len
      simp at hc2len
    have hc2head : c2.head? = some s := by
      rw [List.head?_append] at hhead
      cases hq : c2.head? with
      | none => exact absurd (List.head?_eq_none_iff.mp hq) hc2ne
      | some b => rw [hq] at hhead; simpa using hhead
    have hchain2 : List.Chain' (fun a b => b ∈ cn a) (c2 ++ [a]) :=
      (List.chain'_append.mp hchain).1
    have hlink : hd ∈ cn a := by
      have hrel := (List.chain'_append.mp hchain).2.2
      exact hrel a (List.getLast?_concat c2) hd rfl
    have haR : a ∈ reachSet cn s (k + 1) := by
      rw [mem_reachSet_iff_chain]
      refine ⟨c2 ++ [a], hchain2, ?_, List.getLast?_concat c2, by
        simp only [List.length_append, List.length_cons, List.length_nil]
        omega⟩
      rw [List.head?_append, hc2head]
      rfl
    have haL : a ∈ layerSet cn s (k + 1) := by
      refine mem_layerSet.mpr ⟨haR, ?_⟩
      intro j hj haj
      have hhdj : hd ∈ reachSet cn s (j + 1) := mem_reachSet_succ.mpr ⟨a, haj, hlink⟩
      exact (mem_layerSet.mp hhd).2 (j + 1) (by omega) hhdj
    have hane : a ≠ s := by
      intro h
      rw [h] at haL
      exact source_not_mem_layer (by omega) haL
    simp only [srcChains, List.mem_flatMap]
    refine ⟨a, ?_, ?_⟩
    · rw [mem_sortedList, ancIter_layer hhd hK, Finset.mem_filter]
      exact ⟨haL, hlink⟩
    · rw [if_neg hane]
      have heq : (c2 ++ [a]) ++ hd :: tl = c2 ++ a :: hd :: tl := by
        simp
      rw [heq]
      exact ih (by omega) haL (by omega) hc2head hc2len hchain2

/-! ### Final-state facts and the core unfolding of the search -/

theorem existsTopic_eq_true {g : WikiGraph} {t : String} {i : Nat}
    (h : g.topicIndexMap (getStandard t) = some i) :
    g.existsTopic (getStandard t) = true := by
  unfold WikiGraph.existsTopic
  rw [getStandard_idem, h]
  rfl

theorem topicIndexMap_ne {g : WikiGraph} {a b : String} {i j : Nat}
    (ha : g.topicIndexMap a = some i) (hb : g.topicIndexMap b = some j)
    (hab : a ≠ b) : i ≠ j := by
  rintro rfl
  have h1 := (WikiGraph.topicIndexMap_eq_some ha).2
  have h2 := (WikiGraph.topicIndexMap_eq_some hb).2
  exact hab (h1.symm.trans h2)

theorem gspi_core (g : WikiGraph) {source target : String} {srcIdx tgtIdx : Nat}
    (hs : g.topicIndexMap (getStandard source) = some srcIdx)
    (ht : g.topicIndexMap (getStandard target) = some tgtIdx)
    (hne : getStandard source ≠ getStandard target) (directed noPaths : Bool) :
    getShortestPathsInfo g source target directed noPaths =
      (if (searchLoop g directed noPaths 6 (initState srcIdx tgtIdx)).bridge = ∅ then
        ((-1 : Int), 0, if noPaths then none else some [])
      else if tgtIdx ∈ (searchLoop g directed noPaths 6 (initState srcIdx tgtIdx)).bridge then
        (((searchLoop g directed noPaths 6 (initState srcIdx tgtIdx)).degSep : Int), 1,
          if noPaths then none else some [[getStandard source, getStandard target]])
      else if noPaths then
        (((searchLoop g directed noPaths 6 (initState srcIdx tgtIdx)).degSep : Int),
          ∑ b ∈ (searchLoop g directed noPaths 6 (initState srcIdx tgtIdx)).bridge,
            (searchLoop g directed noPaths 6 (initState srcIdx tgtIdx)).srcCnt b *
            (searchLoop g directed noPaths 6 (initState srcIdx tgtIdx)).tgtCnt b, none)
      else
        (((searchLoop g directed noPaths 6 (initState srcIdx tgtIdx)).degSep : Int),
          (assemblePaths g (searchLoop g directed noPaths 6 (initState srcIdx tgtIdx))
            srcIdx tgtIdx).length,
          some (sortPaths (assemblePaths g
            (searchLoop g directed noPaths 6 (initState srcIdx tgtIdx)) srcIdx tgtIdx)))) := by
  unfold getShortestPathsInfo
  have hex1 : g.existsTopic (getStandard source) = true := existsTopic_eq_true hs
  have hex2 : g.existsTopic (getStandard target) = true := existsTopic_eq_true ht
  simp only [hex1, hex2, Bool.not_true, Bool.false_eq_true, if_false, if_neg hne, hs, ht]

theorem final_loopInv {g : WikiGraph} (hg : g.Wf) {directed noPaths : Bool}
    {srcIdx tgtIdx : Nat} (hne : srcIdx ≠ tgtIdx) :
    LoopInv g directed noPaths srcIdx tgtIdx
      (searchLoop g directed noPaths 6 (initState srcIdx tgtIdx)) :=
  loopInv_searchLoop hg 6 _ (loopInv_init hne)

theorem final_no_bridge {g : WikiGraph} (hg : g.Wf) {directed noPaths : Bool}
    {srcIdx tgtIdx : Nat} (hne : srcIdx ≠ tgtIdx)
    (hbr : (searchLoop g directed noPaths 6 (initState srcIdx tgtIdx)).bridge = ∅) :
    ∀ L ≤ 6, tgtIdx ∉ reachSet (srcNbr g directed) srcIdx L := by
  have hInv : LoopInv g directed noPaths srcIdx tgtIdx
      (searchLoop g directed noPaths 6 (initState srcIdx tgtIdx)) :=
    final_loopInv hg hne
  have hd0 : (initState srcIdx tgtIdx).degSep = 0 := rfl
  have hfuel : 6 ≤ 6 + (initState srcIdx tgtIdx).degSep := by
    rw [hd0]
  have hexit := searchLoop_exit g directed noPaths 6 (initState srcIdx tgtIdx) hfuel
  have hflip : ∀ u v, u ∈ tgtNbr g directed v ↔ v ∈ srcNbr g directed u :=
    fun u v => WikiGraph.mem_ancestorsSet_iff hg
  intro L hL hwalk
  rcases hexit with hc | hfe | hfe
  · have hdeg : (searchLoop g directed noPaths 6 (initState srcIdx tgtIdx)).degSep = 6 := by
      rcases Nat.lt_or_ge (searchLoop g directed noPaths 6 (initState srcIdx tgtIdx)).degSep 6
        with h | h
      · exact absurd ⟨h, hbr⟩ hc
      · have h2 := hInv.degLe
        omega
    by_cases hL6 : L < 6
    · exact hInv.noShort L (by omega) hwalk
    · have hL7 : L = 6 := by omega
      subst hL7
      have := hInv.noCur hbr
      rw [hdeg] at this
      exact this hwalk
  · rw [hInv.srcF, bfsIter_fst] at hfe
    by_cases hLk : L <
        ((searchLoop g directed noPaths 6 (initState srcIdx tgtIdx)).degSep + 1) / 2
    · exact hInv.noShort L (by omega) hwalk
    · exact walk_absurd_layer_src hfe (by omega)
        (fun L2 hL2 => hInv.noShort L2 (by omega)) hwalk
  · rw [hInv.tgtF, bfsIter_fst] at hfe
    by_cases hLk : L <
        (searchLoop g directed noPaths 6 (initState srcIdx tgtIdx)).degSep / 2
    · exact hInv.noShort L (by omega) hwalk
    · exact walk_absurd_layer_tgt hflip hfe (by omega)
        (fun L2 hL2 => hInv.noShort L2 (by omega)) hwalk

theorem final_bridge_facts {g : WikiGraph} (hg : g.Wf) {directed noPaths : Bool}
    {srcIdx tgtIdx : Nat} (hne : srcIdx ≠ tgtIdx)
    (hbr : (searchLoop g directed noPaths 6 (initState srcIdx tgtIdx)).bridge ≠ ∅) :
    (searchLoop g directed noPaths 6 (initState srcIdx tgtIdx)).bridge =
      layerSet (srcNbr g directed) srcIdx
        (((searchLoop g directed noPaths 6 (initState srcIdx tgtIdx)).degSep + 1) / 2) ∩
      layerSet (tgtNbr g directed) tgtIdx
        ((searchLoop g directed noPaths 6 (initState srcIdx tgtIdx)).degSep / 2) ∧
    1 ≤ (searchLoop g directed noPaths 6 (initState srcIdx tgtIdx)).degSep ∧
    tgtIdx ∈ reachSet (srcNbr g directed) srcIdx
      (searchLoop g directed noPaths 6 (initState srcIdx tgtIdx)).degSep := by
  have hInv : LoopInv g directed noPaths srcIdx tgtIdx
      (searchLoop g directed noPaths 6 (initState srcIdx tgtIdx)) :=
    final_loopInv hg hne
  have hflip : ∀ u v, u ∈ tgtNbr g directed v ↔ v ∈ srcNbr g directed u :=
    fun u v => WikiGraph.mem_ancestorsSet_iff hg
  have hbrEq : (searchLoop g directed noPaths 6 (initState srcIdx tgtIdx)).bridge =
      layerSet (srcNbr g directed) srcIdx
        (((searchLoop g directed noPaths 6 (initState srcIdx tgtIdx)).degSep + 1) / 2) ∩
      layerSet (tgtNbr g directed) tgtIdx
        ((searchLoop g directed noPaths 6 (initState srcIdx tgtIdx)).degSep / 2) := by
    rcases hInv.bridgeEq with h | h
    · exact absurd h hbr
    · rw [h, hInv.srcF, hInv.tgtF, bfsIter_fst, bfsIter_fst]
  refine ⟨hbrEq, ?_⟩
  obtain ⟨b, hb⟩ := Finset.nonempty_iff_ne_empty.mpr hbr
  rw [hbrEq, Finset.mem_inter] at hb
  have hwalk : tgtIdx ∈ reachSet (srcNbr g directed) srcIdx
      ((((searchLoop g directed noPaths 6 (initState srcIdx tgtIdx)).degSep + 1) / 2) +
        ((searchLoop g directed noPaths 6 (initState srcIdx tgtIdx)).degSep / 2)) :=
    reachSet_trans hflip (mem_layerSet.mp hb.1).1 (mem_layerSet.mp hb.2).1
  have hsum : (((searchLoop g directed noPaths 6 (initState srcIdx tgtIdx)).degSep + 1) / 2) +
      ((searchLoop g directed noPaths 6 (initState srcIdx tgtIdx)).degSep / 2) =
      (searchLoop g directed noPaths 6 (initState srcIdx tgtIdx)).degSep := by
    omega
  rw [hsum] at hwalk
  refine ⟨?_, hwalk⟩
  by_contra hd
  have hd0 : (searchLoop g directed noPaths 6 (initState srcIdx tgtIdx)).degSep = 0 := by
    omega
  rw [hd0] at hwalk
  have hmem : tgtIdx ∈ ({srcIdx} : Finset Nat) := hwalk
  have heq : tgtIdx = srcIdx := by simpa using hmem
  exact hne heq.symm

theorem final_tgt_mem_bridge {g : WikiGraph} (hg : g.Wf) {directed noPaths : Bool}
    {srcIdx tgtIdx : Nat} (hne : srcIdx ≠ tgtIdx)
    (htb : tgtIdx ∈ (searchLoop g directed noPaths 6 (initState srcIdx tgtIdx)).bridge) :
    (searchLoop g directed noPaths 6 (initState srcIdx tgtIdx)).degSep = 1 ∧
    (searchLoop g directed noPaths 6 (initState srcIdx tgtIdx)).bridge = {tgtIdx} ∧
    tgtIdx ∈ g.childrenSet srcIdx directed := by
  have hbr : (searchLoop g directed noPaths 6 (initState srcIdx tgtIdx)).bridge ≠ ∅ :=
    fun h => by rw [h] at htb; exact absurd htb (Finset.not_mem_empty tgtIdx)
  obtain ⟨hbrEq, hdeg1, hwalk⟩ := final_bridge_facts hg hne hbr
  have htb2 := htb
  rw [hbrEq, Finset.mem_inter] at htb2
  have hdt0 : (searchLoop g directed noPaths 6 (initState srcIdx tgtIdx)).degSep / 2 = 0 := by
    by_contra hdt
    have ht0 : tgtIdx ∈ layerSet (tgtNbr g directed) tgtIdx 0 := by
      rw [layerSet_zero]
      simp
    exact layer_ne_of_ne htb2.2 ht0 hdt rfl
  have hdeg : (searchLoop g directed noPaths 6 (initState srcIdx tgtIdx)).degSep = 1 := by
    have hInv2 : LoopInv g directed noPaths srcIdx tgtIdx
        (searchLoop g directed noPaths 6 (initState srcIdx tgtIdx)) :=
      final_loopInv hg hne
    have := hInv2.degLe
    omega
  refine ⟨hdeg, ?_, ?_⟩
  · apply Finset.Subset.antisymm
    · rw [hbrEq, hdt0, layerSet_zero]
      exact Finset.inter_subset_right
    · simpa using htb
  · have hds : tgtIdx ∈ layerSet (srcNbr g directed) srcIdx 1 := by
      have := htb2.1
      rw [hdeg] at this
      exact this
    exact reachSet_one.mp (mem_layerSet.mp hds).1

/-! ### Further final-state facts: degree bounds, the same-topic branch,
count values, mode agreement, and the length of the assembled path list -/

theorem searchLoop_degSep_le (g : WikiGraph) (directed noPaths : Bool) :
    ∀ (fuel : Nat) (st : SearchState), st.degSep ≤ 6 →
      (searchLoop g directed noPaths fuel st).degSep ≤ 6 := by
  intro fuel
  induction fuel with
  | zero =>
    intro st h
    exact h
  | succ f ih =>
    intro st h
    simp only [searchLoop]
    split
    · next hcond =>
      split
      · next =>
        rw [stepState_degSep]
        omega
      · next =>
        apply ih
        have hds : ({ stepState g directed noPaths st with
            bridge := (stepState g directed noPaths st).srcFrontier ∩
              (stepState g directed noPaths st).tgtFrontier } :
            SearchState).degSep = st.degSep + 1 :=
          stepState_degSep g directed noPaths st
        rw [hds]
        omega
    · exact h

theorem gspi_same (g : WikiGraph) {source target : String} {srcIdx : Nat}
    (hs : g.topicIndexMap (getStandard source) = some srcIdx)
    (heq : getStandard source = getStandard target) (directed noPaths : Bool) :
    getShortestPathsInfo g source target directed noPaths =
      (0, 1, if noPaths then none else some [[getStandard source]]) := by
  unfold getShortestPathsInfo
  have hex1 : g.existsTopic (getStandard source) = true := existsTopic_eq_true hs
  have hex2 : g.existsTopic (getStandard target) = true := by
    rw [← heq]
    exact hex1
  simp only [hex1, hex2, Bool.not_true, Bool.false_eq_true, if_false, if_pos heq]

theorem gspi_degrees_le (g : WikiGraph) (source target : String)
    (directed noPaths : Bool) :
    (getShortestPathsInfo g source target directed noPaths).1 ≤ 6 := by
  rcases hs : g.topicIndexMap (getStandard source) with _ | srcIdx
  · rw [sentinel_of_unknown g source target directed noPaths (Or.inl hs)]
    show (-1 : Int) ≤ 6
    decide
  rcases ht : g.topicIndexMap (getStandard target) with _ | tgtIdx
  · rw [sentinel_of_unknown g source target directed noPaths (Or.inr ht)]
    show (-1 : Int) ≤ 6
    decide
  by_cases heq : getStandard source = getStandard target
  · rw [gspi_same g hs heq directed noPaths]
    show (0 : Int) ≤ 6
    decide
  · rw [gspi_core g hs ht heq directed noPaths]
    have hd0 : (initState srcIdx tgtIdx).degSep ≤ 6 := Nat.zero_le 6
    have hdeg : (searchLoop g directed noPaths 6 (initState srcIdx tgtIdx)).degSep ≤ 6 :=
      searchLoop_degSep_le g directed noPaths 6 (initState srcIdx tgtIdx) hd0
    split
    · show (-1 : Int) ≤ 6
      decide
    · split
      · show ((searchLoop g directed noPaths 6 (initState srcIdx tgtIdx)).degSep : Int) ≤ 6
        exact_mod_cast hdeg
      · split
        · show ((searchLoop g directed noPaths 6 (initState srcIdx tgtIdx)).degSep : Int) ≤ 6
          exact_mod_cast hdeg
        · show ((searchLoop g directed noPaths 6 (initState srcIdx tgtIdx)).degSep : Int) ≤ 6
          exact_mod_cast hdeg

theorem final_deg_ge_two {g : WikiGraph} (hg : g.Wf) {directed noPaths : Bool}
    {srcIdx tgtIdx : Nat} (hne : srcIdx ≠ tgtIdx)
    (hbr : (searchLoop g directed noPaths 6 (initState srcIdx tgtIdx)).bridge ≠ ∅)
    (htb : tgtIdx ∉ (searchLoop g directed noPaths 6 (initState srcIdx tgtIdx)).bridge) :
    2 ≤ (searchLoop g directed noPaths 6 (initState srcIdx tgtIdx)).degSep := by
  obtain ⟨hbrEq, hdeg1, -⟩ := final_bridge_facts hg hne hbr
  by_contra hlt
  have hd1 : (searchLoop g directed noPaths 6 (initState srcIdx tgtIdx)).degSep = 1 := by
    omega
  obtain ⟨b, hb⟩ := Finset.nonempty_iff_ne_empty.mpr hbr
  have hb2 := hb
  rw [hbrEq, hd1, Finset.mem_inter] at hb2
  have e2 : (1 : Nat) / 2 = 0 := rfl
  rw [e2, layerSet_zero] at hb2
  have hbt : b = tgtIdx := by simpa using hb2.2
  subst hbt
  exact htb hb

theorem listSumMapConst {α : Type} (l : List α) (c : Nat) :
    (l.map fun _ => c).sum = l.length * c := by
  induction l with
  | nil => simp
  | cons a l ih => simp [ih, Nat.succ_mul, Nat.add_comm]

theorem chains_cross_length {cn an : Nat → Finset Nat} {s t b : Nat} {ds dt : Nat}
    (hds : 1 ≤ ds) (hdt : 1 ≤ dt) (hds7 : ds ≤ 7) (hdt7 : dt ≤ 7)
    (hbF : b ∈ layerSet cn s ds) (hbB : b ∈ layerSet an t dt)
    (f : List Nat → List Nat → List String) :
    ((srcChains (ancIter cn s ds) s 7 b []).flatMap fun sp =>
        (tgtChains (ancIter an t dt) t 7 [] b).map fun tp => f sp tp).length =
      walkCount cn s ds b * walkCount an t dt b := by
  rw [length_flatMap_eq]
  have hmap : ((srcChains (ancIter cn s ds) s 7 b []).map fun sp =>
      ((tgtChains (ancIter an t dt) t 7 [] b).map fun tp => f sp tp).length) =
      (srcChains (ancIter cn s ds) s 7 b []).map fun _ =>
        (tgtChains (ancIter an t dt) t 7 [] b).length := by
    apply List.map_congr_left
    intro sp _
    rw [List.length_map]
  rw [hmap, listSumMapConst]
  obtain ⟨k, rfl⟩ : ∃ k, ds = k + 1 := ⟨ds - 1, by omega⟩
  obtain ⟨k2, rfl⟩ : ∃ k2, dt = k2 + 1 := ⟨dt - 1, by omega⟩
  have hf1 : k + 1 ≤ 7 := by omega
  have hf2 : k2 + 1 ≤ 7 := by omega
  rw [srcChains_length (le_refl _) hbF hf1 []]
  rw [tgtChains_length_eq]
  rw [srcChains_length (le_refl _) hbB hf2 _]

theorem final_count_value {g : WikiGraph} (hg : g.Wf) {directed : Bool}
    {srcIdx tgtIdx : Nat} (hne : srcIdx ≠ tgtIdx)
    (hbr : (searchLoop g directed true 6 (initState srcIdx tgtIdx)).bridge ≠ ∅) :
    ∑ b ∈ (searchLoop g directed true 6 (initState srcIdx tgtIdx)).bridge,
        (searchLoop g directed true 6 (initState srcIdx tgtIdx)).srcCnt b *
        (searchLoop g directed true 6 (initState srcIdx tgtIdx)).tgtCnt b =
      ∑ b ∈ (searchLoop g directed true 6 (initState srcIdx tgtIdx)).bridge,
        walkCount (srcNbr g directed) srcIdx
            (((searchLoop g directed true 6 (initState srcIdx tgtIdx)).degSep + 1) / 2) b *
          walkCount (tgtNbr g directed) tgtIdx
            ((searchLoop g directed true 6 (initState srcIdx tgtIdx)).degSep / 2) b := by
  obtain ⟨hbrEq, hdeg1, -⟩ := final_bridge_facts hg hne hbr
  have hInv : LoopInv g directed true srcIdx tgtIdx
      (searchLoop g directed true 6 (initState srcIdx tgtIdx)) :=
    final_loopInv hg hne
  have hsrcN : (searchLoop g directed true 6 (initState srcIdx tgtIdx)).srcCnt =
      cntIter (srcNbr g directed) srcIdx
        (((searchLoop g directed true 6 (initState srcIdx tgtIdx)).degSep + 1) / 2) := by
    simpa using hInv.srcN
  have htgtN : (searchLoop g directed true 6 (initState srcIdx tgtIdx)).tgtCnt =
      cntIter (tgtNbr g directed) tgtIdx
        ((searchLoop g directed true 6 (initState srcIdx tgtIdx)).degSep / 2) := by
    simpa using hInv.tgtN
  apply Finset.sum_congr rfl
  intro b hb
  have hbL := hb
  rw [hbrEq, Finset.mem_inter] at hbL
  rw [hsrcN, htgtN, cntIter_layer hbL.1 (le_refl _), cntIter_layer hbL.2 (le_refl _)]

theorem bridge_walk_sum_pos {cn an : Nat → Finset Nat} {s t : Nat} {B : Finset Nat}
    {ds dt : Nat} (hB : B ≠ ∅)
    (hsub : ∀ b ∈ B, b ∈ layerSet cn s ds ∧ b ∈ layerSet an t dt) :
    1 ≤ ∑ b ∈ B, walkCount cn s ds b * walkCount an t dt b := by
  obtain ⟨b, hb⟩ := Finset.nonempty_iff_ne_empty.mpr hB
  obtain ⟨h1, h2⟩ := hsub b hb
  have p1 := walkCount_pos (mem_layerSet.mp h1).1
  have p2 := walkCount_pos (mem_layerSet.mp h2).1
  have hle : ∀ x ∈ B, (0 : Nat) ≤ walkCount cn s ds x * walkCount an t dt x :=
    fun x _ => Nat.zero_le _
  exact le_trans (Nat.mul_pos p1 p2) (Finset.single_le_sum hle hb)

theorem final_modes_agree {g : WikiGraph} (hg : g.Wf) {directed : Bool}
    {srcIdx tgtIdx : Nat} (hne : srcIdx ≠ tgtIdx) :
    ((searchLoop g directed true 6 (initState srcIdx tgtIdx)).bridge = ∅ ↔
      (searchLoop g directed false 6 (initState srcIdx tgtIdx)).bridge = ∅) ∧
    ((searchLoop g directed true 6 (initState srcIdx tgtIdx)).bridge ≠ ∅ →
      (searchLoop g directed true 6 (initState srcIdx tgtIdx)).degSep =
        (searchLoop g directed false 6 (initState srcIdx tgtIdx)).degSep ∧
      (searchLoop g directed true 6 (initState srcIdx tgtIdx)).bridge =
        (searchLoop g directed false 6 (initState srcIdx tgtIdx)).bridge) := by
  have hInvT : LoopInv g directed true srcIdx tgtIdx
      (searchLoop g directed true 6 (initState srcIdx tgtIdx)) :=
    final_loopInv hg hne
  have hInvF : LoopInv g directed false srcIdx tgtIdx
      (searchLoop g directed false 6 (initState srcIdx tgtIdx)) :=
    final_loopInv hg hne
  have hiff : (searchLoop g directed true 6 (initState srcIdx tgtIdx)).bridge = ∅ ↔
      (searchLoop g directed false 6 (initState srcIdx tgtIdx)).bridge = ∅ := by
    constructor
    · intro hT
      by_contra hF
      obtain ⟨-, -, hwalk⟩ := final_bridge_facts hg hne hF
      exact final_no_bridge hg hne hT _ hInvF.degLe hwalk
    · intro hF
      by_contra hT
      obtain ⟨-, -, hwalk⟩ := final_bridge_facts hg hne hT
      exact final_no_bridge hg hne hF _ hInvT.degLe hwalk
  refine ⟨hiff, fun hT => ?_⟩
  have hF : (searchLoop g directed false 6 (initState srcIdx tgtIdx)).bridge ≠ ∅ := by
    intro h
    exact hT (hiff.mpr h)
  obtain ⟨hbrEqT, -, hwalkT⟩ := final_bridge_facts hg hne hT
  obtain ⟨hbrEqF, -, hwalkF⟩ := final_bridge_facts hg hne hF
  have hdeq : (searchLoop g directed true 6 (initState srcIdx tgtIdx)).degSep =
      (searchLoop g directed false 6 (initState srcIdx tgtIdx)).degSep := by
    rcases Nat.lt_trichotomy
        (searchLoop g directed true 6 (initState srcIdx tgtIdx)).degSep
        (searchLoop g directed false 6 (initState srcIdx tgtIdx)).degSep with h | h | h
    · exact absurd hwalkT (hInvF.noShort _ h)
    · exact h
    · exact absurd hwalkF (hInvT.noShort _ h)
  refine ⟨hdeq, ?_⟩
  rw [hbrEqT, hbrEqF, hdeq]

theorem assemblePaths_length {g : WikiGraph} (hg : g.Wf) {directed : Bool}
    {srcIdx tgtIdx : Nat} (hne : srcIdx ≠ tgtIdx)
    (hbr : (searchLoop g directed false 6 (initState srcIdx tgtIdx)).bridge ≠ ∅)
    (htb : tgtIdx ∉ (searchLoop g directed false 6 (initState srcIdx tgtIdx)).bridge) :
    (assemblePaths g (searchLoop g directed false 6 (initState srcIdx tgtIdx))
        srcIdx tgtIdx).length =
      ∑ b ∈ (searchLoop g directed false 6 (initState srcIdx tgtIdx)).bridge,
        walkCount (srcNbr g directed) srcIdx
            (((searchLoop g directed false 6 (initState srcIdx tgtIdx)).degSep + 1) / 2) b *
          walkCount (tgtNbr g directed) tgtIdx
            ((searchLoop g directed false 6 (initState srcIdx tgtIdx)).degSep / 2) b := by
  obtain ⟨hbrEq, hdeg1, -⟩ := final_bridge_facts hg hne hbr
  have hdeg2 := final_deg_ge_two hg hne hbr htb
  have hInv : LoopInv g directed false srcIdx tgtIdx
      (searchLoop g directed false 6 (initState srcIdx tgtIdx)) :=
    final_loopInv hg hne
  have hdegLe := hInv.degLe
  have hsrcA : (searchLoop g directed false 6 (initState srcIdx tgtIdx)).srcAnc =
      ancIter (srcNbr g directed) srcIdx
        (((searchLoop g directed false 6 (initState srcIdx tgtIdx)).degSep + 1) / 2) := by
    simpa using hInv.srcA
  have htgtC : (searchLoop g directed false 6 (initState srcIdx tgtIdx)).tgtChl =
      ancIter (tgtNbr g directed) tgtIdx
        ((searchLoop g directed false 6 (initState srcIdx tgtIdx)).degSep / 2) := by
    simpa using hInv.tgtC
  unfold assemblePaths
  rw [hsrcA, htgtC, length_flatMap_eq, sum_map_sortedList]
  apply Finset.sum_congr rfl
  intro b hb
  have hbL := hb
  rw [hbrEq, Finset.mem_inter] at hbL
  exact chains_cross_length (by omega) (by omega) (by omega) (by omega) hbL.1 hbL.2 _

theorem sortPaths_length (ps : List (List String)) :
    (sortPaths ps).length = ps.length :=
  (List.perm_insertionSort _ ps).length_eq

theorem mem_sortPaths {ps : List (List String)} {p : List String} :
    p ∈ sortPaths ps ↔ p ∈ ps :=
  (List.perm_insertionSort _ ps).mem_iff

/-! ### Claim theorems -/

/-- Claim C3: for distinct known topics, whenever the bidirectional search ends
with the target id contained in the bridge set, `get_shortest_paths_info`
returns exactly degrees `deg_sep`, count `1`, and (in enumerate mode) the single
two-node path `[[source, target]]`, regardless of any other equally short paths
through different bridge nodes. -/
theorem claim_C3 (g : WikiGraph) (source target : String) (directed noPaths : Bool)
    (srcIdx tgtIdx : Nat)
    (hs : g.topicIndexMap (getStandard source) = some srcIdx)
    (ht : g.topicIndexMap (getStandard target) = some tgtIdx)
    (hne : getStandard source ≠ getStandard target)
    (htb : tgtIdx ∈ (searchLoop g directed noPaths 6 (initState srcIdx tgtIdx)).bridge) :
    getShortestPathsInfo g source target directed noPaths =
      (((searchLoop g directed noPaths 6 (initState srcIdx tgtIdx)).degSep : Int), 1,
        if noPaths then none else some [[getStandard source, getStandard target]]) := by
  rw [gspi_core g hs ht hne directed noPaths]
  have hbr : (searchLoop g directed noPaths 6 (initState srcIdx tgtIdx)).bridge ≠ ∅ :=
    fun h => by rw [h] at htb; exact absurd htb (Finset.not_mem_empty tgtIdx)
  rw [if_neg hbr, if_pos htb]

theorem claim_C3_witness :
    getShortestPathsInfo (WikiGraph.mk ["a", "b"] [(0, 1)] true) "a" "b" true false =
      (1, 1, some [["a", "b"]]) := by
  have h := claim_C3 (WikiGraph.mk ["a", "b"] [(0, 1)] true) "a" "b" true false 0 1
    (by decide) (by decide) (by decide) (by decide)
  rw [h]
  decide

/-- Claim C4: for every in-range node id the on-the-fly union of the directed
successor and predecessor sets equals the corresponding row of the materialized
`A + Aᵀ` matrix, so the undirected neighborhood — and consequently every public
operation — returns the same results under both `optimize_memory`
configurations. -/
theorem claim_C4 (g : WikiGraph) (v : Nat) (hv : v < g.n) (b1 b2 : Bool)
    (source target topic : String) (directed noPaths : Bool) :
    g.directedChildren v ∪ g.directedAncestors v = g.undirectedRow v ∧
    (g.withOm b1).undirectedNeighbors v = (g.withOm b2).undirectedNeighbors v ∧
    getShortestPathsInfo (g.withOm b1) source target directed noPaths =
      getShortestPathsInfo (g.withOm b2) source target directed noPaths ∧
    (g.withOm b1).getChildren topic directed = (g.withOm b2).getChildren topic directed ∧
    (g.withOm b1).getAncestors topic directed =
      (g.withOm b2).getAncestors topic directed := by
  refine ⟨(WikiGraph.undirectedRow_eq_union g v).symm, ?_, ?_, ?_, ?_⟩
  · rw [WikiGraph.undirectedNeighbors_withOm, WikiGraph.undirectedNeighbors_withOm]
  · rw [getShortestPathsInfo_withOm, getShortestPathsInfo_withOm]
  · rw [getChildren_withOm, getChildren_withOm]
  · rw [getAncestors_withOm, getAncestors_withOm]

theorem claim_C4_witness :
    (WikiGraph.mk ["a", "b"] [(0, 1)] true).directedChildren 0 ∪
        (WikiGraph.mk ["a", "b"] [(0, 1)] true).directedAncestors 0 =
      (WikiGraph.mk ["a", "b"] [(0, 1)] true).undirectedRow 0 ∧
    ((WikiGraph.mk ["a", "b"] [(0, 1)] true).withOm true).undirectedNeighbors 0 =
      ((WikiGraph.mk ["a", "b"] [(0, 1)] true).withOm false).undirectedNeighbors 0 ∧
    getShortestPathsInfo ((WikiGraph.mk ["a", "b"] [(0, 1)] true).withOm true)
        "a" "b" false false =
      getShortestPathsInfo ((WikiGraph.mk ["a", "b"] [(0, 1)] true).withOm false)
        "a" "b" false false ∧
    ((WikiGraph.mk ["a", "b"] [(0, 1)] true).withOm true).getChildren "a" false =
      ((WikiGraph.mk ["a", "b"] [(0, 1)] true).withOm false).getChildren "a" false ∧
    ((WikiGraph.mk ["a", "b"] [(0, 1)] true).withOm true).getAncestors "a" false =
      ((WikiGraph.mk ["a", "b"] [(0, 1)] true).withOm false).getAncestors "a" false :=
  claim_C4 (WikiGraph.mk ["a", "b"] [(0, 1)] true) 0 (by decide) true false
    "a" "b" "a" false false

/-- Claim C5: the search loop never pushes `deg_sep` beyond 6 layer expansions,
the degrees component of any returned triple is at most 6, and for a pair of
known topics admitting no source-to-target chain of at most 7 nodes (i.e. whose
shortest path is longer than 6 edges) the result is the sentinel; the embedding
is a total function, so every query terminates. -/
theorem claim_C5 (g : WikiGraph) (hg : g.Wf) (source target : String)
    (directed noPaths : Bool) (srcIdx tgtIdx : Nat)
    (hs : g.topicIndexMap (getStandard source) = some srcIdx)
    (ht : g.topicIndexMap (getStandard target) = some tgtIdx) :
    (searchLoop g directed noPaths 6 (initState srcIdx tgtIdx)).degSep ≤ 6 ∧
    (getShortestPathsInfo g source target directed noPaths).1 ≤ 6 ∧
    ((∀ p : List Nat, List.Chain' (fun a b => b ∈ g.childrenSet a directed) p →
        p.head? = some srcIdx → p.getLast? = some tgtIdx → 7 < p.length) →
      getShortestPathsInfo g source target directed noPaths =
        (-1, 0, if noPaths then none else some [])) := by
  refine ⟨searchLoop_degSep_le g directed noPaths 6 (initState srcIdx tgtIdx)
    (Nat.zero_le 6), gspi_degrees_le g source target directed noPaths, ?_⟩
  intro hlong
  have hne : getStandard source ≠ getStandard target := by
    intro hst
    have hidx : srcIdx = tgtIdx := by
      rw [hst] at hs
      rw [hs] at ht
      exact Option.some.inj ht
    have h7 := hlong [srcIdx] (List.chain'_singleton srcIdx) rfl (by rw [← hidx]; rfl)
    have h1 : (7 : Nat) < 1 := h7
    omega
  have hidne : srcIdx ≠ tgtIdx := topicIndexMap_ne hs ht hne
  have hbr : (searchLoop g directed noPaths 6 (initState srcIdx tgtIdx)).bridge = ∅ := by
    by_contra hbr
    obtain ⟨-, -, hwalk⟩ := final_bridge_facts hg hidne hbr
    obtain ⟨p, hchain, hhead, hlast, hlen⟩ := mem_reachSet_iff_chain.mp hwalk
    have h7 := hlong p hchain hhead hlast
    have hInv : LoopInv g directed noPaths srcIdx tgtIdx
        (searchLoop g directed noPaths 6 (initState srcIdx tgtIdx)) :=
      final_loopInv hg hidne
    have hle := hInv.degLe
    omega
  rw [gspi_core g hs ht hne directed noPaths, if_pos hbr]

theorem claim_C5_witness :
    (searchLoop (WikiGraph.mk ["a", "b"] [] true) true false 6
        (initState 0 1)).degSep ≤ 6 ∧
    (getShortestPathsInfo (WikiGraph.mk ["a", "b"] [] true) "a" "b" true false).1 ≤ 6 ∧
    getShortestPathsInfo (WikiGraph.mk ["a", "b"] [] true) "a" "b" true false =
      (-1, 0, some []) := by
  have h := claim_C5 (WikiGraph.mk ["a", "b"] [] true) (by decide) "a" "b" true false 0 1
    (by decide) (by decide)
  refine ⟨h.1, h.2.1, h.2.2 ?_⟩
  intro p hc hh hl
  cases p with
  | nil => simp at hh
  | cons a q =>
    cases q with
    | nil =>
      have ha : a = 0 := by simpa using hh
      have hb : a = 1 := by simpa using hl
      omega
    | cons b r =>
      exfalso
      have hb := (List.chain'_cons.mp hc).1
      have hb2 : b ∈ (Finset.range 2).filter
          (fun u => (WikiGraph.mk ["a", "b"] [] true).entry a u ≠ 0) := hb
      have hc0 : (WikiGraph.mk ["a", "b"] [] true).entry a b = 0 := rfl
      exact absurd hc0 (Finset.mem_filter.mp hb2).2

/-- Claim C7: if the canonicalized source or the canonicalized target is not a
key of the topic index, `get_shortest_paths_info` returns the sentinel
`(-1, 0, None if no_paths else [])`; the embedding is a total function, so no
exception is raised. -/
theorem claim_C7 (g : WikiGraph) (source target : String) (directed noPaths : Bool)
    (h : g.topicIndexMap (getStandard source) = none ∨
      g.topicIndexMap (getStandard target) = none) :
    getShortestPathsInfo g source target directed noPaths =
      (-1, 0, if noPaths then none else some []) :=
  sentinel_of_unknown g source target directed noPaths h

theorem claim_C7_witness :
    getShortestPathsInfo (WikiGraph.mk ["a"] [] true) "zz" "a" true true =
      (-1, 0, none) := by
  have h := claim_C7 (WikiGraph.mk ["a"] [] true) "zz" "a" true true (Or.inl (by decide))
  rw [h]
  rfl

/-- Claim C9: a topic whose canonicalized form is not a key of the topic index
makes `get_children` and `get_ancestors` fail with the index lookup error
(modelled by `none`) for both values of `directed`, whereas
`get_shortest_paths_info` returns the sentinel triple for unknown topics. -/
theorem claim_C9 (g : WikiGraph) (topic : String)
    (h : g.topicIndexMap (getStandard topic) = none) :
    (∀ directed : Bool, g.getChildren topic directed = none ∧
      g.getAncestors topic directed = none) ∧
    (∀ (other : String) (directed noPaths : Bool),
      getShortestPathsInfo g topic other directed noPaths =
        (-1, 0, if noPaths then none else some [])) := by
  refine ⟨fun directed => ⟨getChildren_none h, getAncestors_none h⟩, ?_⟩
  intro other directed noPaths
  exact sentinel_of_unknown g topic other directed noPaths (Or.inl h)

theorem claim_C9_witness :
    ((WikiGraph.mk ["a"] [] true).getChildren "zz" true = none ∧
      (WikiGraph.mk ["a"] [] true).getAncestors "zz" true = none) ∧
    getShortestPathsInfo (WikiGraph.mk ["a"] [] true) "zz" "a" false false =
      (-1, 0, some []) := by
  have h := claim_C9 (WikiGraph.mk ["a"] [] true) "zz" (by decide)
  exact ⟨h.1 true, h.2 "a" false false⟩

/-- Claim C10: whenever the target id lies in the final bridge set, `deg_sep`
equals 1, the bridge is exactly the singleton of the target id, and the direct
edge from source to target exists; moreover every source-to-target chain has at
least two nodes and the only possible two-node chain is `[srcIdx, tgtIdx]`, so
the early-exit answer of count 1 with the single direct-edge path is the
complete set of shortest paths in that case. -/
theorem claim_C10 (g : WikiGraph) (hg : g.Wf) (directed noPaths : Bool)
    (srcIdx tgtIdx : Nat) (hne : srcIdx ≠ tgtIdx)
    (htb : tgtIdx ∈ (searchLoop g directed noPaths 6 (initState srcIdx tgtIdx)).bridge) :
    (searchLoop g directed noPaths 6 (initState srcIdx tgtIdx)).degSep = 1 ∧
    (searchLoop g directed noPaths 6 (initState srcIdx tgtIdx)).bridge = {tgtIdx} ∧
    tgtIdx ∈ g.childrenSet srcIdx directed ∧
    (∀ p : List Nat, List.Chain' (fun a b => b ∈ g.childrenSet a directed) p →
      p.head? = some srcIdx → p.getLast? = some tgtIdx →
      2 ≤ p.length ∧ (p.length = 2 → p = [srcIdx, tgtIdx])) := by
  obtain ⟨h1, h2, h3⟩ := final_tgt_mem_bridge hg hne htb
  refine ⟨h1, h2, h3, ?_⟩
  intro p hchain hhead hlast
  cases p with
  | nil => simp at hhead
  | cons a q =>
    have ha : a = srcIdx := by simpa using hhead
    cases q with
    | nil =>
      exfalso
      have hb : a = tgtIdx := by simpa using hlast
      exact hne (by rw [← ha]; exact hb)
    | cons b r =>
      constructor
      · show 2 ≤ r.length + 1 + 1
        omega
      · intro hlen
        have hr : r = [] := by
          have h2l : r.length + 1 + 1 = 2 := hlen
          exact List.eq_nil_of_length_eq_zero (by omega)
        subst hr
        have hb : b = tgtIdx := by simpa using hlast
        rw [ha, hb]

theorem claim_C10_witness :
    (searchLoop (WikiGraph.mk ["a", "b"] [(0, 1)] true) true false 6
        (initState 0 1)).degSep = 1 ∧
    (searchLoop (WikiGraph.mk ["a", "b"] [(0, 1)] true) true false 6
        (initState 0 1)).bridge = {1} ∧
    1 ∈ (WikiGraph.mk ["a", "b"] [(0, 1)] true).childrenSet 0 true ∧
    (2 ≤ ([0, 1] : List Nat).length ∧
      (([0, 1] : List Nat).length = 2 → ([0, 1] : List Nat) = [0, 1])) := by
  have h := claim_C10 (WikiGraph.mk ["a", "b"] [(0, 1)] true) (by decide) true false 0 1
    (by decide) (by decide)
  exact ⟨h.1, h.2.1, h.2.2.1,
    h.2.2.2 [0, 1] (List.chain'_pair.mpr (by decide)) (by decide) (by decide)⟩

/-- The four possible result shapes of `get_shortest_paths_info`, with the
count-mode and enumerate-mode calls paired up: both sentinel, both the trivial
same-topic answer, both the early-exit direct-edge answer, or both the
assembled answer whose count equals the number of assembled paths. -/
theorem gspi_pair_spec (g : WikiGraph) (hg : g.Wf) (source target : String)
    (directed : Bool) :
    (getShortestPathsInfo g source target directed true = (-1, 0, none) ∧
      getShortestPathsInfo g source target directed false = (-1, 0, some [])) ∨
    (getShortestPathsInfo g source target directed true = (0, 1, none) ∧
      getShortestPathsInfo g source target directed false =
        (0, 1, some [[getStandard source]])) ∨
    (∃ m : Nat, 1 ≤ m ∧
      getShortestPathsInfo g source target directed true = ((m : Int), 1, none) ∧
      getShortestPathsInfo g source target directed false =
        ((m : Int), 1, some [[getStandard source, getStandard target]])) ∨
    (∃ (m : Nat) (ps : List (List String)), 1 ≤ m ∧ 1 ≤ ps.length ∧
      getShortestPathsInfo g source target directed true = ((m : Int), ps.length, none) ∧
      getShortestPathsInfo g source target directed false =
        ((m : Int), ps.length, some (sortPaths ps))) := by
  rcases hs : g.topicIndexMap (getStandard source) with _ | srcIdx
  · left
    exact ⟨sentinel_of_unknown g source target directed true (Or.inl hs),
      sentinel_of_unknown g source target directed false (Or.inl hs)⟩
  rcases ht : g.topicIndexMap (getStandard target) with _ | tgtIdx
  · left
    exact ⟨sentinel_of_unknown g source target directed true (Or.inr ht),
      sentinel_of_unknown g source target directed false (Or.inr ht)⟩
  by_cases heq : getStandard source = getStandard target
  · right; left
    exact ⟨gspi_same g hs heq directed true, gspi_same g hs heq directed false⟩
  have hidne : srcIdx ≠ tgtIdx := topicIndexMap_ne hs ht heq
  have hiff : (searchLoop g directed true 6 (initState srcIdx tgtIdx)).bridge = ∅ ↔
      (searchLoop g directed false 6 (initState srcIdx tgtIdx)).bridge = ∅ :=
    (final_modes_agree hg hidne).1
  by_cases hbrF : (searchLoop g directed false 6 (initState srcIdx tgtIdx)).bridge = ∅
  · left
    have hbrT : (searchLoop g directed true 6 (initState srcIdx tgtIdx)).bridge = ∅ :=
      hiff.mpr hbrF
    constructor
    · rw [gspi_core g hs ht heq directed true, if_pos hbrT]
      rfl
    · rw [gspi_core g hs ht heq directed false, if_pos hbrF]
      rfl
  · have hbrT : (searchLoop g directed true 6 (initState srcIdx tgtIdx)).bridge ≠ ∅ :=
      fun h => hbrF (hiff.mp h)
    obtain ⟨hdeq, hbeq⟩ := (final_modes_agree hg hidne).2 hbrT
    obtain ⟨hbrEqF, hdeg1, -⟩ := final_bridge_facts hg hidne hbrF
    by_cases htbF : tgtIdx ∈ (searchLoop g directed false 6 (initState srcIdx tgtIdx)).bridge
    · right; right; left
      refine ⟨(searchLoop g directed false 6 (initState srcIdx tgtIdx)).degSep, hdeg1,
        ?_, ?_⟩
      · have htbT : tgtIdx ∈
            (searchLoop g directed true 6 (initState srcIdx tgtIdx)).bridge := by
          rw [hbeq]
          exact htbF
        rw [gspi_core g hs ht heq directed true, if_neg hbrT, if_pos htbT, hdeq]
        rfl
      · rw [gspi_core g hs ht heq directed false, if_neg hbrF, if_pos htbF]
        rfl
    · right; right; right
      have htbT : tgtIdx ∉
          (searchLoop g directed true 6 (initState srcIdx tgtIdx)).bridge := by
        rw [hbeq]
        exact htbF
      refine ⟨(searchLoop g directed false 6 (initState srcIdx tgtIdx)).degSep,
        assemblePaths g (searchLoop g directed false 6 (initState srcIdx tgtIdx))
          srcIdx tgtIdx, hdeg1, ?_, ?_, ?_⟩
      · rw [assemblePaths_length hg hidne hbrF htbF]
        apply bridge_walk_sum_pos hbrF
        intro b hb
        have hb2 := hb
        rw [hbrEqF, Finset.mem_inter] at hb2
        exact hb2
      · rw [gspi_core g hs ht heq directed true, if_neg hbrT, if_neg htbT, if_pos rfl]
        rw [final_count_value hg hidne hbrT, hdeq, hbeq,
          ← assemblePaths_length hg hidne hbrF htbF]
      · rw [gspi_core g hs ht heq directed false, if_neg hbrF, if_neg htbF,
          if_neg Bool.false_ne_true]

/-- Claim C2: for every pair of topic strings and both values of `directed`,
the count-mode call returns the same degrees as the enumerate-mode call, its
count equals both the enumerate-mode count and the length of the enumerate-mode
paths list, and its third component is `None` where the enumerate-mode call
returns the list. -/
theorem claim_C2 (g : WikiGraph) (hg : g.Wf) (source target : String)
    (directed : Bool) :
    (getShortestPathsInfo g source target directed true).1 =
      (getShortestPathsInfo g source target directed false).1 ∧
    (getShortestPathsInfo g source target directed true).2.1 =
      (getShortestPathsInfo g source target directed false).2.1 ∧
    (∃ ps, (getShortestPathsInfo g source target directed false).2.2 = some ps ∧
      (getShortestPathsInfo g source target directed true).2.1 = ps.length) ∧
    (getShortestPathsInfo g source target directed true).2.2 = none := by
  rcases gspi_pair_spec g hg source target directed with ⟨h1, h2⟩ | ⟨h1, h2⟩ |
    ⟨m, hm, h1, h2⟩ | ⟨m, ps, hm, hps, h1, h2⟩
  · rw [h1, h2]
    exact ⟨rfl, rfl, ⟨[], rfl, rfl⟩, rfl⟩
  · rw [h1, h2]
    exact ⟨rfl, rfl, ⟨[[getStandard source]], rfl, rfl⟩, rfl⟩
  · rw [h1, h2]
    exact ⟨rfl, rfl, ⟨[[getStandard source, getStandard target]], rfl, rfl⟩, rfl⟩
  · rw [h1, h2]
    exact ⟨rfl, rfl, ⟨sortPaths ps, rfl, (sortPaths_length ps).symm⟩, rfl⟩

theorem claim_C2_witness :
    (getShortestPathsInfo (WikiGraph.mk ["a", "b", "c"] [(0, 1), (1, 2)] true)
        "a" "c" true true).1 =
      (getShortestPathsInfo (WikiGraph.mk ["a", "b", "c"] [(0, 1), (1, 2)] true)
        "a" "c" true false).1 ∧
    (getShortestPathsInfo (WikiGraph.mk ["a", "b", "c"] [(0, 1), (1, 2)] true)
        "a" "c" true true).2.1 =
      (getShortestPathsInfo (WikiGraph.mk ["a", "b", "c"] [(0, 1), (1, 2)] true)
        "a" "c" true false).2.1 ∧
    (∃ ps, (getShortestPathsInfo (WikiGraph.mk ["a", "b", "c"] [(0, 1), (1, 2)] true)
        "a" "c" true false).2.2 = some ps ∧
      (getShortestPathsInfo (WikiGraph.mk ["a", "b", "c"] [(0, 1), (1, 2)] true)
        "a" "c" true true).2.1 = ps.length) ∧
    (getShortestPathsInfo (WikiGraph.mk ["a", "b", "c"] [(0, 1), (1, 2)] true)
        "a" "c" true true).2.2 = none :=
  claim_C2 (WikiGraph.mk ["a", "b", "c"] [(0, 1), (1, 2)] true) (by decide) "a" "c" true

/-- Claim C6: in enumerate mode the returned triple satisfies
`degrees = -1 ↔ count = 0 ↔ paths = []`, and in count mode
`degrees = -1 ↔ count = 0`. -/
theorem claim_C6 (g : WikiGraph) (hg : g.Wf) (source target : String)
    (directed : Bool) :
    ((getShortestPathsInfo g source target directed false).1 = -1 ↔
      (getShortestPathsInfo g source target directed false).2.1 = 0) ∧
    ((getShortestPathsInfo g source target directed false).1 = -1 ↔
      (getShortestPathsInfo g source target directed false).2.2 = some []) ∧
    ((getShortestPathsInfo g source target directed true).1 = -1 ↔
      (getShortestPathsInfo g source target directed true).2.1 = 0) := by
  rcases gspi_pair_spec g hg source target directed with ⟨h1, h2⟩ | ⟨h1, h2⟩ |
    ⟨m, hm, h1, h2⟩ | ⟨m, ps, hm, hps, h1, h2⟩
  · rw [h1, h2]
    exact ⟨by simp, by simp, by simp⟩
  · rw [h1, h2]
    have hA : ¬((0 : Int) = -1) := by decide
    have hB : ¬((1 : Nat) = 0) := by decide
    have hC : ¬(some ([[getStandard source]] : List (List String)) =
        some ([] : List (List String))) := by
      intro h
      have h2 := Option.some.inj h
      simp at h2
    exact ⟨iff_of_false hA hB, iff_of_false hA hC, iff_of_false hA hB⟩
  · rw [h1, h2]
    have hA : ¬((m : Int) = -1) := by omega
    have hB : ¬((1 : Nat) = 0) := by decide
    have hC : ¬(some ([[getStandard source, getStandard target]] : List (List String)) =
        some ([] : List (List String))) := by
      intro h
      have h2 := Option.some.inj h
      simp at h2
    exact ⟨iff_of_false hA hB, iff_of_false hA hC, iff_of_false hA hB⟩
  · rw [h1, h2]
    have hA : ¬((m : Int) = -1) := by omega
    have hB : ¬(ps.length = 0) := by omega
    have hC : ¬(some (sortPaths ps) = some ([] : List (List String))) := by
      intro h
      have h2 := Option.some.inj h
      have h3 : (sortPaths ps).length = 0 := by rw [h2]; rfl
      rw [sortPaths_length] at h3
      omega
    exact ⟨iff_of_false hA hB, iff_of_false hA hC, iff_of_false hA hB⟩

theorem claim_C6_witness :
    ((getShortestPathsInfo (WikiGraph.mk ["a", "b"] [(0, 1)] true)
        "a" "b" true false).1 = -1 ↔
      (getShortestPathsInfo (WikiGraph.mk ["a", "b"] [(0, 1)] true)
        "a" "b" true false).2.1 = 0) ∧
    ((getShortestPathsInfo (WikiGraph.mk ["a", "b"] [(0, 1)] true)
        "a" "b" true false).1 = -1 ↔
      (getShortestPathsInfo (WikiGraph.mk ["a", "b"] [(0, 1)] true)
        "a" "b" true false).2.2 = some []) ∧
    ((getShortestPathsInfo (WikiGraph.mk ["a", "b"] [(0, 1)] true)
        "a" "b" true true).1 = -1 ↔
      (getShortestPathsInfo (WikiGraph.mk ["a", "b"] [(0, 1)] true)
        "a" "b" true true).2.1 = 0) :=
  claim_C6 (WikiGraph.mk ["a", "b"] [(0, 1)] true) (by decide) "a" "b" true

/-! ### Soundness of the assembled paths -/

theorem reachSet_lt {nbr : Nat → Finset Nat} {n s x : Nat}
    (hnbr : ∀ v, nbr v ⊆ Finset.range n) (hs : s < n) :
    ∀ {k}, x ∈ reachSet nbr s k → x < n := by
  intro k
  cases k with
  | zero =>
    intro hx
    have hx2 : x ∈ ({s} : Finset Nat) := hx
    have hxs : x = s := by simpa using hx2
    rw [hxs]
    exact hs
  | succ k =>
    intro hx
    obtain ⟨u, hu, hxu⟩ := mem_reachSet_succ.mp hx
    have hr := hnbr u hxu
    simpa using hr

theorem chain'_imp_mem {α : Type} {R S : α → α → Prop} :
    ∀ {l : List α}, (∀ a ∈ l, ∀ b ∈ l, R a b → S a b) →
      List.Chain' R l → List.Chain' S l := by
  intro l
  induction l with
  | nil =>
    intro _ _
    exact List.chain'_nil
  | cons a l2 ih =>
    intro h hc
    cases l2 with
    | nil => exact List.chain'_singleton a
    | cons b l3 =>
      rw [List.chain'_cons] at hc ⊢
      exact ⟨h a (by simp) b (by simp) hc.1,
        ih (fun x hx y hy hr => h x (by simp [hx]) y (by simp [hy]) hr) hc.2⟩

theorem getLast?_map_eq {α β : Type} (f : α → β) (l : List α) :
    (l.map f).getLast? = l.getLast?.map f := by
  rw [← List.head?_reverse, ← List.head?_reverse, ← List.map_reverse, List.head?_map]

/-- Soundness of one cross-joined pair of half-chains: the joined id-list is a
simple chain from the source to the target of the right length through valid
ids. -/
theorem chains_cross_sound {g : WikiGraph} (hg : g.Wf) {directed : Bool}
    {srcIdx tgtIdx : Nat} {ds dt b : Nat}
    (hsn : srcIdx < g.n) (htn : tgtIdx < g.n)
    (hds : 1 ≤ ds) (hdt : 1 ≤ dt) (hds7 : ds ≤ 7) (hdt7 : dt ≤ 7)
    (hbF : b ∈ layerSet (srcNbr g directed) srcIdx ds)
    (hbB : b ∈ layerSet (tgtNbr g directed) tgtIdx dt)
    (hall : ∀ L < ds + dt, tgtIdx ∉ reachSet (srcNbr g directed) srcIdx L)
    {sp tp : List Nat}
    (hsp : sp ∈ srcChains (ancIter (srcNbr g directed) srcIdx ds) srcIdx 7 b [])
    (htp : tp ∈ tgtChains (ancIter (tgtNbr g directed) tgtIdx dt) tgtIdx 7 [] b) :
    (sp ++ tp.tail).length = ds + dt + 1 ∧
    (sp ++ tp.tail).head? = some srcIdx ∧
    (sp ++ tp.tail).getLast? = some tgtIdx ∧
    (sp ++ tp.tail).Nodup ∧
    (∀ x ∈ sp ++ tp.tail, x < g.n) ∧
    List.Chain' (fun a c => c ∈ g.childrenSet a directed) (sp ++ tp.tail) := by
  have hflip : ∀ u v, u ∈ tgtNbr g directed v ↔ v ∈ srcNbr g directed u :=
    fun u v => WikiGraph.mem_ancestorsSet_iff hg
  obtain ⟨k, rfl⟩ : ∃ k, ds = k + 1 := ⟨ds - 1, by omega⟩
  obtain ⟨k2, rfl⟩ : ∃ k2, dt = k2 + 1 := ⟨dt - 1, by omega⟩
  have hf1 : k + 1 ≤ 7 := by omega
  have hf2 : k2 + 1 ≤ 7 := by omega
  obtain ⟨c, hspEq, hclen, hchead, hcchain, hcnodup, hcmem⟩ :=
    srcChains_sound (le_refl _) hbF hf1 hsp
  rw [mem_tgtChains_iff] at htp
  obtain ⟨c2, htpEq, hc2len, hc2head, hc2chain, hc2nodup, hc2mem⟩ :=
    srcChains_sound (le_refl _) hbB hf2 htp
  have htpEq2 : tp.reverse = c2 ++ [b] := by simpa using htpEq
  have htpVal : tp = b :: c2.reverse := by
    have h1 : tp = (c2 ++ [b]).reverse := by
      rw [← htpEq2, List.reverse_reverse]
    rw [h1]
    simp
  rw [hspEq, htpVal]
  simp only [List.tail_cons]
  refine ⟨?_, ?_, ?_, ?_, ?_, ?_⟩
  · simp only [List.length_append, List.length_cons, List.length_nil, List.length_reverse]
    omega
  · rw [List.head?_append, List.head?_append, hchead]
    rfl
  · rw [← List.head?_reverse, List.reverse_append, List.reverse_reverse,
      List.head?_append, hc2head]
    rfl
  · apply List.Nodup.append hcnodup (List.nodup_reverse.mpr hc2nodup.of_append_left)
    intro x hx hx2
    rw [List.mem_reverse] at hx2
    obtain ⟨j, hj, hxj⟩ := hc2mem x hx2
    rcases List.mem_append.mp hx with hxc | hxb
    · obtain ⟨i, hi, hxi⟩ := hcmem x hxc
      have hw := reachSet_trans hflip (mem_layerSet.mp hxi).1 (mem_layerSet.mp hxj).1
      exact hall (i + j) (by omega) hw
    · have hxb2 : x = b := by simpa using hxb
      rw [hxb2] at hxj
      have hw := reachSet_trans hflip (mem_layerSet.mp hbF).1 (mem_layerSet.mp hxj).1
      exact hall ((k + 1) + j) (by omega) hw
  · intro x hx
    rcases List.mem_append.mp hx with hx | hx
    · rcases List.mem_append.mp hx with hxc | hxb
      · obtain ⟨i, hi, hxi⟩ := hcmem x hxc
        exact reachSet_lt (fun v => WikiGraph.childrenSet_subset_range g v directed) hsn
          (mem_layerSet.mp hxi).1
      · have hxb2 : x = b := by simpa using hxb
        rw [hxb2]
        exact reachSet_lt (fun v => WikiGraph.childrenSet_subset_range g v directed) hsn
          (mem_layerSet.mp hbF).1
    · rw [List.mem_reverse] at hx
      obtain ⟨j, hj, hxj⟩ := hc2mem x hx
      exact reachSet_lt (fun v => WikiGraph.ancestorsSet_subset_range g v directed) htn
        (mem_layerSet.mp hxj).1
  · have hrev : List.Chain' (fun a c3 => c3 ∈ srcNbr g directed a) (b :: c2.reverse) := by
      have himp : List.Chain' (flip fun a c3 => c3 ∈ srcNbr g directed a) (c2 ++ [b]) :=
        List.Chain'.imp (fun a c3 hab => (hflip c3 a).mp hab) hc2chain
      have h2 := List.chain'_reverse.mpr himp
      have h3 : (c2 ++ [b]).reverse = b :: c2.reverse := by simp
      rw [h3] at h2
      exact h2
    rw [List.append_assoc]
    apply List.chain'_append.mpr
    refine ⟨(List.chain'_append.mp hcchain).1, hrev, ?_⟩
    intro x hx y hy
    exact (List.chain'_append.mp hcchain).2.2 x hx y hy

/-- Soundness of every assembled path: it is the image under `indexTopicMap`
of a simple id-chain of `deg_sep + 1` nodes from the source id to the target
id. -/
theorem assemble_mem_sound {g : WikiGraph} (hg : g.Wf) {directed : Bool}
    {srcIdx tgtIdx : Nat} (hsn : srcIdx < g.n) (htn : tgtIdx < g.n)
    (hne : srcIdx ≠ tgtIdx)
    (hbr : (searchLoop g directed false 6 (initState srcIdx tgtIdx)).bridge ≠ ∅)
    (htb : tgtIdx ∉ (searchLoop g directed false 6 (initState srcIdx tgtIdx)).bridge)
    {p : List String}
    (hp : p ∈ assemblePaths g (searchLoop g directed false 6 (initState srcIdx tgtIdx))
      srcIdx tgtIdx) :
    ∃ q : List Nat, p = q.map g.indexTopicMap ∧
      q.length = (searchLoop g directed false 6 (initState srcIdx tgtIdx)).degSep + 1 ∧
      q.head? = some srcIdx ∧ q.getLast? = some tgtIdx ∧ q.Nodup ∧
      (∀ x ∈ q, x < g.n) ∧
      List.Chain' (fun a c => c ∈ g.childrenSet a directed) q := by
  obtain ⟨hbrEq, hdeg1, -⟩ := final_bridge_facts hg hne hbr
  have hdeg2 := final_deg_ge_two hg hne hbr htb
  have hInv : LoopInv g directed false srcIdx tgtIdx
      (searchLoop g directed false 6 (initState srcIdx tgtIdx)) :=
    final_loopInv hg hne
  have hdegLe := hInv.degLe
  have hnoShort := hInv.noShort
  have hsrcA : (searchLoop g directed false 6 (initState srcIdx tgtIdx)).srcAnc =
      ancIter (srcNbr g directed) srcIdx
        (((searchLoop g directed false 6 (initState srcIdx tgtIdx)).degSep + 1) / 2) := by
    simpa using hInv.srcA
  have htgtC : (searchLoop g directed false 6 (initState srcIdx tgtIdx)).tgtChl =
      ancIter (tgtNbr g directed) tgtIdx
        ((searchLoop g directed false 6 (initState srcIdx tgtIdx)).degSep / 2) := by
    simpa using hInv.tgtC
  unfold assemblePaths at hp
  rw [hsrcA, htgtC, List.mem_flatMap] at hp
  obtain ⟨b, hb, hp⟩ := hp
  rw [mem_sortedList] at hb
  rw [List.mem_flatMap] at hp
  obtain ⟨sp, hsp, hp⟩ := hp
  rw [List.mem_map] at hp
  obtain ⟨tp, htp, hpEq⟩ := hp
  have hbL := hb
  rw [hbrEq, Finset.mem_inter] at hbL
  have hall : ∀ L < ((searchLoop g directed false 6 (initState srcIdx tgtIdx)).degSep + 1)
        / 2 + (searchLoop g directed false 6 (initState srcIdx tgtIdx)).degSep / 2,
      tgtIdx ∉ reachSet (srcNbr g directed) srcIdx L := by
    intro L hL
    exact hnoShort L (by omega)
  obtain ⟨hlen, hhead, hlast, hnodup, hbound, hchain⟩ :=
    chains_cross_sound hg hsn htn (by omega) (by omega) (by omega) (by omega)
      hbL.1 hbL.2 hall hsp htp
  refine ⟨sp ++ tp.tail, ?_, ?_, hhead, hlast, hnodup, hbound, hchain⟩
  · rw [← hpEq, List.map_append, List.map_tail]
  · rw [hlen]
    omega

/-- Claim C1: every path returned by the enumerate-mode call with degrees at
least 1 has exactly degrees + 1 nodes, begins with the canonicalized source,
ends with the canonicalized target, contains no repeated node, and every
consecutive pair of its nodes is an edge of the graph in the requested
direction. -/
theorem claim_C1 (g : WikiGraph) (hg : g.Wf) (source target : String)
    (directed : Bool) (srcIdx tgtIdx : Nat)
    (hs : g.topicIndexMap (getStandard source) = some srcIdx)
    (ht : g.topicIndexMap (getStandard target) = some tgtIdx)
    (hdeg : 1 ≤ (getShortestPathsInfo g source target directed false).1) :
    ∀ p ∈ (getShortestPathsInfo g source target directed false).2.2.getD [],
      (p.length : Int) = (getShortestPathsInfo g source target directed false).1 + 1 ∧
      p.head? = some (getStandard source) ∧
      p.getLast? = some (getStandard target) ∧
      p.Nodup ∧
      List.Chain' (fun a b => g.hasEdgeStr directed a b = true) p := by
  by_cases heq : getStandard source = getStandard target
  · rw [gspi_same g hs heq directed false] at hdeg
    have h0 : (1 : Int) ≤ 0 := hdeg
    omega
  have hidne : srcIdx ≠ tgtIdx := topicIndexMap_ne hs ht heq
  by_cases hbrF : (searchLoop g directed false 6 (initState srcIdx tgtIdx)).bridge = ∅
  · rw [gspi_core g hs ht heq directed false, if_pos hbrF] at hdeg
    have h0 : (1 : Int) ≤ -1 := hdeg
    omega
  rw [gspi_core g hs ht heq directed false]
  by_cases htbF : tgtIdx ∈ (searchLoop g directed false 6 (initState srcIdx tgtIdx)).bridge
  · rw [if_neg hbrF, if_pos htbF]
    obtain ⟨hdeg1eq, hbr1, hedge⟩ := final_tgt_mem_bridge hg hidne htbF
    intro p hp
    have hp2 : p ∈ [[getStandard source, getStandard target]] := hp
    have hpv : p = [getStandard source, getStandard target] := by simpa using hp2
    subst hpv
    refine ⟨?_, rfl, ?_, ?_, ?_⟩
    · rw [hdeg1eq]
      norm_num
    · simp
    · simp [heq]
    · apply List.chain'_pair.mpr
      show g.hasEdgeStr directed (getStandard source) (getStandard target) = true
      unfold WikiGraph.hasEdgeStr
      rw [hs, ht]
      exact WikiGraph.hasEdge_of_mem_childrenSet hedge
  · rw [if_neg hbrF, if_neg htbF, if_neg Bool.false_ne_true]
    intro p hp
    have hp2 : p ∈ sortPaths (assemblePaths g
        (searchLoop g directed false 6 (initState srcIdx tgtIdx)) srcIdx tgtIdx) := hp
    rw [mem_sortPaths] at hp2
    have hsn := (WikiGraph.topicIndexMap_eq_some hs).1
    have htn := (WikiGraph.topicIndexMap_eq_some ht).1
    obtain ⟨q, hpq, hqlen, hqhead, hqlast, hqnodup, hqbound, hqchain⟩ :=
      assemble_mem_sound hg hsn htn hidne hbrF htbF hp2
    subst hpq
    refine ⟨?_, ?_, ?_, ?_, ?_⟩
    · rw [List.length_map, hqlen]
      push_cast
      ring
    · rw [List.head?_map, hqhead]
      show some (g.indexTopicMap srcIdx) = some (getStandard source)
      rw [(WikiGraph.topicIndexMap_eq_some hs).2]
    · rw [getLast?_map_eq, hqlast]
      show some (g.indexTopicMap tgtIdx) = some (getStandard target)
      rw [(WikiGraph.topicIndexMap_eq_some ht).2]
    · refine List.Nodup.map_on ?_ hqnodup
      intro x hx y hy hxy
      exact WikiGraph.indexTopicMap_injOn hg.1 (hqbound x hx) (hqbound y hy) hxy
    · rw [List.chain'_map]
      refine chain'_imp_mem ?_ hqchain
      intro a ha b hb hab
      have hta : g.topicIndexMap (g.indexTopicMap a) = some a :=
        WikiGraph.topicIndexMap_indexTopicMap hg.1 (hqbound a ha)
      have htb2 : g.topicIndexMap (g.indexTopicMap b) = some b :=
        WikiGraph.topicIndexMap_indexTopicMap hg.1 (hqbound b hb)
      show g.hasEdgeStr directed (g.indexTopicMap a) (g.indexTopicMap b) = true
      unfold WikiGraph.hasEdgeStr
      rw [hta, htb2]
      exact WikiGraph.hasEdge_of_mem_childrenSet hab

theorem claim_C1_witness :
    ((["a", "b", "c"] : List String).length : Int) =
      (getShortestPathsInfo (WikiGraph.mk ["a", "b", "c"] [(0, 1), (1, 2)] true)
        "a" "c" true false).1 + 1 ∧
    (["a", "b", "c"] : List String).head? = some (getStandard "a") ∧
    (["a", "b", "c"] : List String).getLast? = some (getStandard "c") ∧
    (["a", "b", "c"] : List String).Nodup ∧
    List.Chain' (fun a b =>
      (WikiGraph.mk ["a", "b", "c"] [(0, 1), (1, 2)] true).hasEdgeStr true a b = true)
      ["a", "b", "c"] := by
  have h := claim_C1 (WikiGraph.mk ["a", "b", "c"] [(0, 1), (1, 2)] true) (by decide)
    "a" "c" true 0 2 (by decide) (by decide) (by decide)
  exact h ["a", "b", "c"] (by decide)

/-! ### Symmetry of the undirected search -/

theorem undirected_nbr_symm {g : WikiGraph} (hg : g.Wf) :
    ∀ u v, u ∈ srcNbr g false v ↔ v ∈ srcNbr g false u := by
  intro u v
  show u ∈ g.undirectedNeighbors v ↔ v ∈ g.undirectedNeighbors u
  rw [WikiGraph.mem_undirectedNeighbors_iff hg, WikiGraph.mem_undirectedNeighbors_iff hg]
  exact Or.comm

theorem reachSet_symm {nbr : Nat → Finset Nat} (hsym : ∀ u v, u ∈ nbr v ↔ v ∈ nbr u)
    {i j k : Nat} (h : j ∈ reachSet nbr i k) : i ∈ reachSet nbr j k := by
  rw [mem_reachSet_iff_chain] at h ⊢
  obtain ⟨p, hc, hh, hl, hlen⟩ := h
  refine ⟨p.reverse, ?_, by simpa using hl, by simpa using hh, by simpa using hlen⟩
  rw [List.chain'_reverse]
  exact List.Chain'.imp (fun a b hab => (hsym b a).mp hab) hc

/-- Swapping source and target in the undirected search gives an empty bridge
in one loop exactly when the other one is empty, and the same `deg_sep`. -/
theorem swap_bridge_iff {g : WikiGraph} (hg : g.Wf) {i j : Nat} (hne : i ≠ j) :
    ((searchLoop g false false 6 (initState i j)).bridge = ∅ ↔
      (searchLoop g false false 6 (initState j i)).bridge = ∅) ∧
    ((searchLoop g false false 6 (initState i j)).bridge ≠ ∅ →
      (searchLoop g false false 6 (initState i j)).degSep =
        (searchLoop g false false 6 (initState j i)).degSep) := by
  have hsym := undirected_nbr_symm hg
  have hInv1 : LoopInv g false false i j (searchLoop g false false 6 (initState i j)) :=
    final_loopInv hg hne
  have hInv2 : LoopInv g false false j i (searchLoop g false false 6 (initState j i)) :=
    final_loopInv hg hne.symm
  have hiff : (searchLoop g false false 6 (initState i j)).bridge = ∅ ↔
      (searchLoop g false false 6 (initState j i)).bridge = ∅ := by
    constructor
    · intro h1
      by_contra h2
      obtain ⟨-, -, hwalk⟩ := final_bridge_facts hg hne.symm h2
      exact final_no_bridge hg hne h1 _ hInv2.degLe (reachSet_symm hsym hwalk)
    · intro h2
      by_contra h1
      obtain ⟨-, -, hwalk⟩ := final_bridge_facts hg hne h1
      exact final_no_bridge hg hne.symm h2 _ hInv1.degLe (reachSet_symm hsym hwalk)
  refine ⟨hiff, fun h1 => ?_⟩
  have h2 : (searchLoop g false false 6 (initState j i)).bridge ≠ ∅ :=
    fun h => h1 (hiff.mpr h)
  obtain ⟨-, -, hw1⟩ := final_bridge_facts hg hne h1
  obtain ⟨-, -, hw2⟩ := final_bridge_facts hg hne.symm h2
  rcases Nat.lt_trichotomy (searchLoop g false false 6 (initState i j)).degSep
      (searchLoop g false false 6 (initState j i)).degSep with h | h | h
  · exact absurd (reachSet_symm hsym hw1) (hInv2.noShort _ h)
  · exact h
  · exact absurd (reachSet_symm hsym hw2) (hInv1.noShort _ h)

/-! ### Duplicate-freeness of the assembled path list -/

theorem nodup_flatMap_of {α β : Type} {l : List α} {f : α → List β}
    (hl : l.Nodup) (hf : ∀ a ∈ l, (f a).Nodup)
    (hdisj : ∀ a ∈ l, ∀ b ∈ l, a ≠ b → ∀ x ∈ f a, x ∉ f b) :
    (l.flatMap f).Nodup := by
  induction l with
  | nil => exact List.nodup_nil
  | cons a l2 ih =>
    rw [List.flatMap_cons]
    rw [List.nodup_cons] at hl
    apply List.Nodup.append (hf a (by simp)) (ih hl.2
      (fun x hx => hf x (by simp [hx]))
      (fun x hx y hy hxy => hdisj x (by simp [hx]) y (by simp [hy]) hxy))
    intro x hxa hxl
    rw [List.mem_flatMap] at hxl
    obtain ⟨b, hb, hxb⟩ := hxl
    have hab : a ≠ b := fun h => hl.1 (h ▸ hb)
    exact hdisj a (by simp) b (by simp [hb]) hab x hxa hxb

theorem map_injOn_eq {α β : Type} {f : α → β} :
    ∀ {l1 l2 : List α}, (∀ x ∈ l1, ∀ y ∈ l2, f x = f y → x = y) →
      l1.map f = l2.map f → l1 = l2 := by
  intro l1
  induction l1 with
  | nil =>
    intro l2 h hm
    cases l2 with
    | nil => rfl
    | cons b l2 => simp at hm
  | cons a l1 ih =>
    intro l2 h hm
    cases l2 with
    | nil => simp at hm
    | cons b l2 =>
      rw [List.map_cons, List.map_cons] at hm
      injection hm with h1 h2
      have hab : a = b := h a (by simp) b (by simp) h1
      rw [hab, ih (fun x hx y hy => h x (by simp [hx]) y (by simp [hy])) h2]

theorem srcChains_nodup {cn : Nat → Finset Nat} {s : Nat} {K : Nat} :
    ∀ {k : Nat}, k + 1 ≤ K → ∀ {hd : Nat}, hd ∈ layerSet cn s (k + 1) →
      ∀ {fuel : Nat}, k + 1 ≤ fuel → ∀ (tl : List Nat),
        (srcChains (ancIter cn s K) s fuel hd tl).Nodup := by
  intro k
  induction k with
  | zero =>
    intro hK hd hhd fuel hfuel tl
    obtain ⟨f, rfl⟩ : ∃ f, fuel = f + 1 := ⟨fuel - 1, by omega⟩
    show (List.flatMap _ _).Nodup
    apply nodup_flatMap_of (nodup_sortedList _)
    · intro a ha
      rw [mem_sortedList, ancIter_layer hhd hK, Finset.mem_filter] at ha
      have has : a = s := by
        have h0 := ha.1
        rw [layerSet_zero] at h0
        simpa using h0
      rw [if_pos has]
      exact List.nodup_singleton _
    · intro a ha b hb hab x hxa hxb
      rw [mem_sortedList, ancIter_layer hhd hK, Finset.mem_filter] at ha hb
      have has : a = s := by
        have h0 := ha.1
        rw [layerSet_zero] at h0
        simpa using h0
      have hbs : b = s := by
        have h0 := hb.1
        rw [layerSet_zero] at h0
        simpa using h0
      exact hab (has.trans hbs.symm)
  | succ k ih =>
    intro hK hd hhd fuel hfuel tl
    obtain ⟨f, rfl⟩ : ∃ f, fuel = f + 1 := ⟨fuel - 1, by omega⟩
    show (List.flatMap _ _).Nodup
    apply nodup_flatMap_of (nodup_sortedList _)
    · intro a ha
      rw [mem_sortedList, ancIter_layer hhd hK, Finset.mem_filter] at ha
      have hane : a ≠ s := fun h => source_not_mem_layer (by omega) (h ▸ ha.1)
      rw [if_neg hane]
      exact ih (by omega) ha.1 (by omega) _
    · intro a ha b hb hab x hxa hxb
      rw [mem_sortedList, ancIter_layer hhd hK, Finset.mem_filter] at ha hb
      have hane : a ≠ s := fun h => source_not_mem_layer (by omega) (h ▸ ha.1)
      have hbne : b ≠ s := fun h => source_not_mem_layer (by omega) (h ▸ hb.1)
      rw [if_neg hane] at hxa
      rw [if_neg hbne] at hxb
      have hK2 : k + 1 ≤ K := by omega
      have hfu2 : k + 1 ≤ f := by omega
      obtain ⟨c1, hx1, hlen1, -, -, -, -⟩ := srcChains_sound hK2 ha.1 hfu2 hxa
      obtain ⟨c2, hx2, hlen2, -, -, -, -⟩ := srcChains_sound hK2 hb.1 hfu2 hxb
      rw [hx1] at hx2
      obtain ⟨-, hr⟩ := List.append_inj hx2 (by rw [hlen1, hlen2])
      injection hr with hr1 hr2
      exact hab hr1

theorem tgtChains_nodup {cn : Nat → Finset Nat} {t : Nat} {K : Nat} {k : Nat}
    (hK : k + 1 ≤ K) {hd : Nat} (hhd : hd ∈ layerSet cn t (k + 1))
    {fuel : Nat} (hfuel : k + 1 ≤ fuel) :
    (tgtChains (ancIter cn t K) t fuel [] hd).Nodup := by
  have hperm := tgtChains_perm (ancIter cn t K) t fuel [] hd
  rw [hperm.nodup_iff]
  exact (srcChains_nodup hK hhd hfuel (List.reverse [])).map List.reverse_injective

theorem assemble_branch_nodup {g : WikiGraph} (hg : g.Wf) {directed : Bool}
    {srcIdx tgtIdx : Nat} {ds dt b : Nat}
    (hsn : srcIdx < g.n) (htn : tgtIdx < g.n)
    (hds : 1 ≤ ds) (hdt : 1 ≤ dt) (hds7 : ds ≤ 7) (hdt7 : dt ≤ 7)
    (hbF : b ∈ layerSet (srcNbr g directed) srcIdx ds)
    (hbB : b ∈ layerSet (tgtNbr g directed) tgtIdx dt) :
    ((srcChains (ancIter (srcNbr g directed) srcIdx ds) srcIdx 7 b []).flatMap fun sp =>
      (tgtChains (ancIter (tgtNbr g directed) tgtIdx dt) tgtIdx 7 [] b).map fun tp =>
        sp.map g.indexTopicMap ++ (tp.map g.indexTopicMap).tail).Nodup := by
  obtain ⟨k, rfl⟩ : ∃ k, ds = k + 1 := ⟨ds - 1, by omega⟩
  obtain ⟨k2, rfl⟩ : ∃ k2, dt = k2 + 1 := ⟨dt - 1, by omega⟩
  have hf1 : k + 1 ≤ 7 := by omega
  have hf2 : k2 + 1 ≤ 7 := by omega
  apply nodup_flatMap_of (srcChains_nodup (le_refl _) hbF hf1 [])
  · intro sp hsp
    refine List.Nodup.map_on ?_ (tgtChains_nodup (le_refl _) hbB hf2)
    intro tp1 h1 tp2 h2 heq
    have heq2 := (List.append_inj heq rfl).2
    rw [mem_tgtChains_iff] at h1 h2
    obtain ⟨c1, hc1eq, hc1len, hc1head, -, -, hc1mem⟩ :=
      srcChains_sound (le_refl _) hbB hf2 h1
    obtain ⟨c2, hc2eq, hc2len, hc2head, -, -, hc2mem⟩ :=
      srcChains_sound (le_refl _) hbB hf2 h2
    have h1v : tp1 = b :: c1.reverse := by
      have e : tp1.reverse = c1 ++ [b] := by simpa using hc1eq
      have e2 : tp1 = (c1 ++ [b]).reverse := by rw [← e, List.reverse_reverse]
      rw [e2]
      simp
    have h2v : tp2 = b :: c2.reverse := by
      have e : tp2.reverse = c2 ++ [b] := by simpa using hc2eq
      have e2 : tp2 = (c2 ++ [b]).reverse := by rw [← e, List.reverse_reverse]
      rw [e2]
      simp
    rw [h1v, h2v] at heq2 ⊢
    simp only [List.map_cons, List.tail_cons] at heq2
    have hc : c1.reverse = c2.reverse := by
      apply map_injOn_eq ?_ heq2
      intro x hx y hy hxy
      rw [List.mem_reverse] at hx hy
      obtain ⟨ix, -, hxl⟩ := hc1mem x hx
      obtain ⟨iy, -, hyl⟩ := hc2mem y hy
      have hxn : x < g.n := reachSet_lt
        (fun v => WikiGraph.ancestorsSet_subset_range g v directed) htn
        (mem_layerSet.mp hxl).1
      have hyn : y < g.n := reachSet_lt
        (fun v => WikiGraph.ancestorsSet_subset_range g v directed) htn
        (mem_layerSet.mp hyl).1
      exact WikiGraph.indexTopicMap_injOn hg.1 hxn hyn hxy
    rw [hc]
  · intro sp1 h1 sp2 h2 hne12 x hx1 hx2
    rw [List.mem_map] at hx1 hx2
    obtain ⟨tp1, -, hxe1⟩ := hx1
    obtain ⟨tp2, -, hxe2⟩ := hx2
    obtain ⟨d1, hsp1eq, hsp1len, -, -, -, hsp1mem⟩ :=
      srcChains_sound (le_refl _) hbF hf1 h1
    obtain ⟨d2, hsp2eq, hsp2len, -, -, -, hsp2mem⟩ :=
      srcChains_sound (le_refl _) hbF hf1 h2
    have hlen1 : (sp1.map g.indexTopicMap).length = k + 2 := by
      rw [List.length_map, hsp1eq]
      simp only [List.length_append, List.length_cons, List.length_nil]
      omega
    have hlen2 : (sp2.map g.indexTopicMap).length = k + 2 := by
      rw [List.length_map, hsp2eq]
      simp only [List.length_append, List.length_cons, List.length_nil]
      omega
    have hXeq : sp1.map g.indexTopicMap ++ (tp1.map g.indexTopicMap).tail =
        sp2.map g.indexTopicMap ++ (tp2.map g.indexTopicMap).tail := by
      rw [hxe1, hxe2]
    have hmape := (List.append_inj hXeq (by rw [hlen1, hlen2])).1
    have hsp12 : sp1 = sp2 := by
      apply map_injOn_eq ?_ hmape
      intro u hu v hv huv
      rw [hsp1eq] at hu
      rw [hsp2eq] at hv
      have hun : u < g.n := by
        rcases List.mem_append.mp hu with h | h
        · obtain ⟨iu, -, hul⟩ := hsp1mem u h
          exact reachSet_lt (fun v2 => WikiGraph.childrenSet_subset_range g v2 directed)
            hsn (mem_layerSet.mp hul).1
        · have hub : u = b := by simpa using h
          rw [hub]
          exact reachSet_lt (fun v2 => WikiGraph.childrenSet_subset_range g v2 directed)
            hsn (mem_layerSet.mp hbF).1
      have hvn : v < g.n := by
        rcases List.mem_append.mp hv with h | h
        · obtain ⟨iv, -, hvl⟩ := hsp2mem v h
          exact reachSet_lt (fun v2 => WikiGraph.childrenSet_subset_range g v2 directed)
            hsn (mem_layerSet.mp hvl).1
        · have hvb : v = b := by simpa using h
          rw [hvb]
          exact reachSet_lt (fun v2 => WikiGraph.childrenSet_subset_range g v2 directed)
            hsn (mem_layerSet.mp hbF).1
      exact WikiGraph.indexTopicMap_injOn hg.1 hun hvn huv
    exact hne12 hsp12

theorem assemble_branch_elem {g : WikiGraph} {directed : Bool} {srcIdx : Nat}
    {ds b : Nat} {chl : Nat → Finset Nat} {tgtIdx : Nat}
    (hds : 1 ≤ ds) (hds7 : ds ≤ 7)
    (hbF : b ∈ layerSet (srcNbr g directed) srcIdx ds)
    {x : List String}
    (hx : x ∈ (srcChains (ancIter (srcNbr g directed) srcIdx ds) srcIdx 7 b []).flatMap
      fun sp => (tgtChains chl tgtIdx 7 [] b).map fun tp =>
        sp.map g.indexTopicMap ++ (tp.map g.indexTopicMap).tail) :
    x.get? ds = some (g.indexTopicMap b) := by
  obtain ⟨k, rfl⟩ : ∃ k, ds = k + 1 := ⟨ds - 1, by omega⟩
  have hf1 : k + 1 ≤ 7 := by omega
  rw [List.mem_flatMap] at hx
  obtain ⟨sp, hsp, hx⟩ := hx
  rw [List.mem_map] at hx
  obtain ⟨tp, -, hxe⟩ := hx
  obtain ⟨c, hspEq, hclen, -, -, -, -⟩ := srcChains_sound (le_refl _) hbF hf1 hsp
  rw [← hxe, hspEq]
  have hlenm : ((c ++ b :: []).map g.indexTopicMap).length = k + 2 := by
    rw [List.length_map]
    simp only [List.length_append, List.length_cons, List.length_nil]
    omega
  have h1 : (k + 1) < ((c ++ b :: []).map g.indexTopicMap).length := by omega
  rw [List.get?_append h1, List.get?_map]
  have hle : c.length ≤ k + 1 := by omega
  have h2 : (c ++ b :: []).get? (k + 1) = some b := by
    rw [List.get?_append_right hle, hclen]
    simp
  rw [h2]
  rfl

theorem assemble_nodup {g : WikiGraph} (hg : g.Wf) {directed : Bool}
    {srcIdx tgtIdx : Nat} (hsn : srcIdx < g.n) (htn : tgtIdx < g.n)
    (hne : srcIdx ≠ tgtIdx)
    (hbr : (searchLoop g directed false 6 (initState srcIdx tgtIdx)).bridge ≠ ∅)
    (htb : tgtIdx ∉ (searchLoop g directed false 6 (initState srcIdx tgtIdx)).bridge) :
    (assemblePaths g (searchLoop g directed false 6 (initState srcIdx tgtIdx))
      srcIdx tgtIdx).Nodup := by
  obtain ⟨hbrEq, hdeg1, -⟩ := final_bridge_facts hg hne hbr
  have hdeg2 := final_deg_ge_two hg hne hbr htb
  have hInv : LoopInv g directed false srcIdx tgtIdx
      (searchLoop g directed false 6 (initState srcIdx tgtIdx)) :=
    final_loopInv hg hne
  have hdegLe := hInv.degLe
  have hsrcA : (searchLoop g directed false 6 (initState srcIdx tgtIdx)).srcAnc =
      ancIter (srcNbr g directed) srcIdx
        (((searchLoop g directed false 6 (initState srcIdx tgtIdx)).degSep + 1) / 2) := by
    simpa using hInv.srcA
  have htgtC : (searchLoop g directed false 6 (initState srcIdx tgtIdx)).tgtChl =
      ancIter (tgtNbr g directed) tgtIdx
        ((searchLoop g directed false 6 (initState srcIdx tgtIdx)).degSep / 2) := by
    simpa using hInv.tgtC
  unfold assemblePaths
  rw [hsrcA, htgtC]
  apply nodup_flatMap_of (nodup_sortedList _)
  · intro b hb
    rw [mem_sortedList] at hb
    have hbL := hb
    rw [hbrEq, Finset.mem_inter] at hbL
    exact assemble_branch_nodup hg hsn htn (by omega) (by omega) (by omega) (by omega)
      hbL.1 hbL.2
  · intro b1 hb1 b2 hb2 hb12 x hx1 hx2
    rw [mem_sortedList] at hb1 hb2
    have hbL1 := hb1
    have hbL2 := hb2
    rw [hbrEq, Finset.mem_inter] at hbL1 hbL2
    have he1 := assemble_branch_elem (by omega) (by omega) hbL1.1 hx1
    have he2 := assemble_branch_elem (by omega) (by omega) hbL2.1 hx2
    rw [he1] at he2
    have hfb : g.indexTopicMap b1 = g.indexTopicMap b2 := Option.some.inj he2
    have hb1n : b1 < g.n := reachSet_lt
      (fun v => WikiGraph.childrenSet_subset_range g v directed) hsn
      (mem_layerSet.mp hbL1.1).1
    have hb2n : b2 < g.n := reachSet_lt
      (fun v => WikiGraph.childrenSet_subset_range g v directed) hsn
      (mem_layerSet.mp hbL2.1).1
    exact hb12 (WikiGraph.indexTopicMap_injOn hg.1 hb1n hb2n hfb)

/-! ### Completeness of the assembled path list -/

theorem getLast?_append_right {α : Type} {l1 l2 : List α} (h : l2 ≠ []) :
    (l1 ++ l2).getLast? = l2.getLast? := by
  rw [← List.head?_reverse, ← List.head?_reverse, List.reverse_append, List.head?_append]
  cases hh : l2.reverse.head? with
  | none =>
    exfalso
    have h2 := List.head?_eq_none_iff.mp hh
    rw [List.reverse_eq_nil_iff] at h2
    exact h h2
  | some a => rfl

/-- Every minimal-length chain from the source to the target splits at the
`⌈m/2⌉` position into a bridge node together with a recorded source half and
target half. -/
theorem chains_cross_complete {g : WikiGraph} (hg : g.Wf) {directed : Bool}
    {srcIdx tgtIdx : Nat} {ds dt : Nat}
    (hds : 1 ≤ ds) (hdt : 1 ≤ dt) (hds7 : ds ≤ 7) (hdt7 : dt ≤ 7)
    (hall : ∀ L < ds + dt, tgtIdx ∉ reachSet (srcNbr g directed) srcIdx L)
    {q : List Nat}
    (hchain : List.Chain' (fun a c => c ∈ srcNbr g directed a) q)
    (hhead : q.head? = some srcIdx) (hlast : q.getLast? = some tgtIdx)
    (hlen : q.length = ds + dt + 1) :
    ∃ b, b ∈ layerSet (srcNbr g directed) srcIdx ds ∧
      b ∈ layerSet (tgtNbr g directed) tgtIdx dt ∧
      ∃ sp ∈ srcChains (ancIter (srcNbr g directed) srcIdx ds) srcIdx 7 b [],
      ∃ tp ∈ tgtChains (ancIter (tgtNbr g directed) tgtIdx dt) tgtIdx 7 [] b,
        q = sp ++ tp.tail := by
  have hflip : ∀ u v, u ∈ tgtNbr g directed v ↔ v ∈ srcNbr g directed u :=
    fun u v => WikiGraph.mem_ancestorsSet_iff hg
  obtain ⟨k, rfl⟩ : ∃ k, ds = k + 1 := ⟨ds - 1, by omega⟩
  obtain ⟨k2, rfl⟩ : ∃ k2, dt = k2 + 1 := ⟨dt - 1, by omega⟩
  have hf1 : k + 1 ≤ 7 := by omega
  have hf2 : k2 + 1 ≤ 7 := by omega
  cases hdrop : q.drop (k + 1) with
  | nil =>
    exfalso
    have hd : (q.drop (k + 1)).length = k2 + 2 := by
      rw [List.length_drop]
      omega
    rw [hdrop] at hd
    simp at hd
  | cons b rest =>
  have hcl : (q.take (k + 1)).length = k + 1 := by
    rw [List.length_take]
    omega
  have hqe : q = q.take (k + 1) ++ b :: rest := by
    conv_lhs => rw [← List.take_append_drop (k + 1) q]
    rw [hdrop]
  have hrestlen : rest.length = k2 + 1 := by
    have hd : (q.drop (k + 1)).length = k2 + 2 := by
      rw [List.length_drop]
      omega
    rw [hdrop] at hd
    simpa using hd
  have hrest_ne : rest ≠ [] := by
    intro h
    rw [h] at hrestlen
    simp at hrestlen
  have htake_head : (q.take (k + 1)).head? = some srcIdx := by
    cases hth : (q.take (k + 1)).head? with
    | none =>
      exfalso
      have hnil : q.take (k + 1) = [] := List.head?_eq_none_iff.mp hth
      have hl0 : (q.take (k + 1)).length = 0 := by rw [hnil]; rfl
      omega
    | some a =>
      have hq2 : q.head? = some a := by
        conv_lhs => rw [hqe]
        rw [List.head?_append, hth]
        rfl
      rw [hhead] at hq2
      have ha : a = srcIdx := (Option.some.inj hq2).symm
      rw [ha]
  have hchain2 : List.Chain' (fun a c2 => c2 ∈ srcNbr g directed a)
      (q.take (k + 1) ++ b :: rest) := by
    rw [← hqe]
    exact hchain
  obtain ⟨hchc, hchbr, hlinkf⟩ := List.chain'_append.mp hchain2
  have hchcb : List.Chain' (fun a c2 => c2 ∈ srcNbr g directed a)
      (q.take (k + 1) ++ [b]) := by
    apply List.chain'_append.mpr
    refine ⟨hchc, List.chain'_singleton b, ?_⟩
    intro x hx y hy
    have hyb : b = y := by simpa using hy
    rw [← hyb]
    exact hlinkf x hx b rfl
  have hlast2 : rest.getLast? = some tgtIdx := by
    rw [hqe] at hlast
    rw [getLast?_append_right (by simp)] at hlast
    rw [show (b :: rest) = [b] ++ rest from rfl, getLast?_append_right hrest_ne] at hlast
    exact hlast
  have hbreach : b ∈ reachSet (srcNbr g directed) srcIdx (k + 1) := by
    rw [mem_reachSet_iff_chain]
    refine ⟨q.take (k + 1) ++ [b], hchcb, ?_, List.getLast?_concat _, ?_⟩
    · rw [List.head?_append, htake_head]
      rfl
    · simp only [List.length_append, List.length_cons, List.length_nil]
      omega
  have hjreach : tgtIdx ∈ reachSet (srcNbr g directed) b (k2 + 1) := by
    rw [mem_reachSet_iff_chain]
    refine ⟨b :: rest, hchbr, rfl, ?_, by simp [hrestlen]⟩
    rw [show (b :: rest) = [b] ++ rest from rfl, getLast?_append_right hrest_ne]
    exact hlast2
  have hbF : b ∈ layerSet (srcNbr g directed) srcIdx (k + 1) := by
    refine mem_layerSet.mpr ⟨hbreach, ?_⟩
    intro i2 hi2 hb2
    exact hall (i2 + (k2 + 1)) (by omega) (reachSet_comp hb2 hjreach)
  have hbB : b ∈ layerSet (tgtNbr g directed) tgtIdx (k2 + 1) := by
    have hbr2 : b ∈ reachSet (tgtNbr g directed) tgtIdx (k2 + 1) := by
      rw [mem_reachSet_iff_chain_rev hflip]
      refine ⟨b :: rest, hchbr, rfl, ?_, by simp [hrestlen]⟩
      rw [show (b :: rest) = [b] ++ rest from rfl, getLast?_append_right hrest_ne]
      exact hlast2
    refine mem_layerSet.mpr ⟨hbr2, ?_⟩
    intro j2 hj2 hb2
    exact hall ((k + 1) + j2) (by omega) (reachSet_trans hflip hbreach hb2)
  have hspmem : (q.take (k + 1) ++ b :: []) ∈
      srcChains (ancIter (srcNbr g directed) srcIdx (k + 1)) srcIdx 7 b [] :=
    srcChains_complete (le_refl _) hbF hf1 htake_head hcl hchcb
  have hchainAn : List.Chain' (fun a c2 => c2 ∈ tgtNbr g directed a)
      (rest.reverse ++ [b]) := by
    have h1 : List.Chain' (flip fun a c2 => c2 ∈ tgtNbr g directed a) (b :: rest) :=
      List.Chain'.imp (fun x y hxy => (hflip x y).mpr hxy) hchbr
    have h2 := List.chain'_reverse.mpr h1
    have h3 : (b :: rest).reverse = rest.reverse ++ [b] := by simp
    rw [h3] at h2
    exact h2
  have htpmem : (b :: rest) ∈
      tgtChains (ancIter (tgtNbr g directed) tgtIdx (k2 + 1)) tgtIdx 7 [] b := by
    rw [mem_tgtChains_iff]
    have hrevhead : rest.reverse.head? = some tgtIdx := by
      rw [List.head?_reverse]
      exact hlast2
    have hrevlen : rest.reverse.length = k2 + 1 := by
      rw [List.length_reverse, hrestlen]
    have he : (b :: rest).reverse = rest.reverse ++ b :: ([] : List Nat).reverse := by
      simp
    rw [he]
    exact srcChains_complete (le_refl _) hbB hf2 hrevhead hrevlen hchainAn
  refine ⟨b, hbF, hbB, q.take (k + 1) ++ b :: [], hspmem, b :: rest, htpmem, ?_⟩
  conv_lhs => rw [hqe]
  simp only [List.tail_cons, List.append_assoc, List.cons_append, List.nil_append]

/-- Completeness of the assembled paths: the image of every minimal-length
id-chain from the source to the target is in the assembled list. -/
theorem assemble_mem_of_chain {g : WikiGraph} (hg : g.Wf) {directed : Bool}
    {srcIdx tgtIdx : Nat} (hne : srcIdx ≠ tgtIdx)
    (hbr : (searchLoop g directed false 6 (initState srcIdx tgtIdx)).bridge ≠ ∅)
    (htb : tgtIdx ∉ (searchLoop g directed false 6 (initState srcIdx tgtIdx)).bridge)
    {q : List Nat}
    (hchain : List.Chain' (fun a c => c ∈ g.childrenSet a directed) q)
    (hhead : q.head? = some srcIdx) (hlast : q.getLast? = some tgtIdx)
    (hlen : q.length =
      (searchLoop g directed false 6 (initState srcIdx tgtIdx)).degSep + 1) :
    q.map g.indexTopicMap ∈ assemblePaths g
      (searchLoop g directed false 6 (initState srcIdx tgtIdx)) srcIdx tgtIdx := by
  obtain ⟨hbrEq, hdeg1, -⟩ := final_bridge_facts hg hne hbr
  have hdeg2 := final_deg_ge_two hg hne hbr htb
  have hInv : LoopInv g directed false srcIdx tgtIdx
      (searchLoop g directed false 6 (initState srcIdx tgtIdx)) :=
    final_loopInv hg hne
  have hdegLe := hInv.degLe
  have hnoShort := hInv.noShort
  have hsrcA : (searchLoop g directed false 6 (initState srcIdx tgtIdx)).srcAnc =
      ancIter (srcNbr g directed) srcIdx
        (((searchLoop g directed false 6 (initState srcIdx tgtIdx)).degSep + 1) / 2) := by
    simpa using hInv.srcA
  have htgtC : (searchLoop g directed false 6 (initState srcIdx tgtIdx)).tgtChl =
      ancIter (tgtNbr g directed) tgtIdx
        ((searchLoop g directed false 6 (initState srcIdx tgtIdx)).degSep / 2) := by
    simpa using hInv.tgtC
  have hall : ∀ L < ((searchLoop g directed false 6 (initState srcIdx tgtIdx)).degSep + 1)
        / 2 + (searchLoop g directed false 6 (initState srcIdx tgtIdx)).degSep / 2,
      tgtIdx ∉ reachSet (srcNbr g directed) srcIdx L := by
    intro L hL
    exact hnoShort L (by omega)
  obtain ⟨b, hbF, hbB, sp, hsp, tp, htp, hqe⟩ :=
    chains_cross_complete hg (by omega) (by omega) (by omega) (by omega) hall hchain
      hhead hlast (by rw [hlen]; omega)
  unfold assemblePaths
  rw [hsrcA, htgtC, List.mem_flatMap]
  refine ⟨b, ?_, ?_⟩
  · rw [mem_sortedList, hbrEq, Finset.mem_inter]
    exact ⟨hbF, hbB⟩
  · rw [List.mem_flatMap]
    refine ⟨sp, hsp, ?_⟩
    rw [List.mem_map]
    refine ⟨tp, htp, ?_⟩
    rw [hqe, List.map_append, List.map_tail]

/-- Membership characterization of the assembled list: exactly the images of
the minimal-length id-chains from the source to the target. -/
theorem assemble_mem_iff {g : WikiGraph} (hg : g.Wf) {directed : Bool}
    {srcIdx tgtIdx : Nat} (hsn : srcIdx < g.n) (htn : tgtIdx < g.n)
    (hne : srcIdx ≠ tgtIdx)
    (hbr : (searchLoop g directed false 6 (initState srcIdx tgtIdx)).bridge ≠ ∅)
    (htb : tgtIdx ∉ (searchLoop g directed false 6 (initState srcIdx tgtIdx)).bridge)
    {p : List String} :
    p ∈ assemblePaths g (searchLoop g directed false 6 (initState srcIdx tgtIdx))
        srcIdx tgtIdx ↔
      ∃ q : List Nat, p = q.map g.indexTopicMap ∧
        q.length = (searchLoop g directed false 6 (initState srcIdx tgtIdx)).degSep + 1 ∧
        q.head? = some srcIdx ∧ q.getLast? = some tgtIdx ∧
        List.Chain' (fun a c => c ∈ g.childrenSet a directed) q := by
  constructor
  · intro hp
    obtain ⟨q, h1, h2, h3, h4, -, -, h7⟩ := assemble_mem_sound hg hsn htn hne hbr htb hp
    exact ⟨q, h1, h2, h3, h4, h7⟩
  · rintro ⟨q, rfl, hlen, hhead, hlast, hchain⟩
    exact assemble_mem_of_chain hg hne hbr htb hchain hhead hlast hlen

/-- Claim C8: the undirected query is symmetric in its endpoints — swapping a
known source and target yields the same degrees and the same count, and the
paths list of the swapped call is the original list with every path reversed
and the result re-sorted. -/
theorem claim_C8 (g : WikiGraph) (hg : g.Wf) (source target : String)
    (srcIdx tgtIdx : Nat)
    (hs : g.topicIndexMap (getStandard source) = some srcIdx)
    (ht : g.topicIndexMap (getStandard target) = some tgtIdx) :
    (getShortestPathsInfo g target source false false).1 =
      (getShortestPathsInfo g source target false false).1 ∧
    (getShortestPathsInfo g target source false false).2.1 =
      (getShortestPathsInfo g source target false false).2.1 ∧
    (getShortestPathsInfo g target source false false).2.2 =
      some (sortPaths
        (((getShortestPathsInfo g source target false false).2.2.getD []).map
          List.reverse)) := by
  have hsym := undirected_nbr_symm hg
  by_cases heq : getStandard source = getStandard target
  · rw [gspi_same g hs heq false false, gspi_same g ht heq.symm false false]
    refine ⟨rfl, rfl, ?_⟩
    rw [← heq]
    rfl
  have hidne : srcIdx ≠ tgtIdx := topicIndexMap_ne hs ht heq
  have hswap := swap_bridge_iff hg hidne
  by_cases hbr1 : (searchLoop g false false 6 (initState srcIdx tgtIdx)).bridge = ∅
  · have hbr2 : (searchLoop g false false 6 (initState tgtIdx srcIdx)).bridge = ∅ :=
      hswap.1.mp hbr1
    rw [gspi_core g hs ht heq false false,
      gspi_core g ht hs (fun h => heq h.symm) false false,
      if_pos hbr1, if_pos hbr2]
    exact ⟨rfl, rfl, rfl⟩
  · have hbr2 : (searchLoop g false false 6 (initState tgtIdx srcIdx)).bridge ≠ ∅ :=
      fun h => hbr1 (hswap.1.mpr h)
    have hm12 : (searchLoop g false false 6 (initState srcIdx tgtIdx)).degSep =
        (searchLoop g false false 6 (initState tgtIdx srcIdx)).degSep :=
      hswap.2 hbr1
    rw [gspi_core g hs ht heq false false,
      gspi_core g ht hs (fun h => heq h.symm) false false,
      if_neg hbr1, if_neg hbr2]
    by_cases htb1 : tgtIdx ∈ (searchLoop g false false 6 (initState srcIdx tgtIdx)).bridge
    · obtain ⟨hm1, hbr1eq, hedge⟩ := final_tgt_mem_bridge hg hidne htb1
      have hm2 : (searchLoop g false false 6 (initState tgtIdx srcIdx)).degSep = 1 := by
        rw [← hm12, hm1]
      have htb2 : srcIdx ∈
          (searchLoop g false false 6 (initState tgtIdx srcIdx)).bridge := by
        obtain ⟨hbrEq2, -, -⟩ := final_bridge_facts hg hidne.symm hbr2
        obtain ⟨b, hb⟩ := Finset.nonempty_iff_ne_empty.mpr hbr2
        have hb2 := hb
        rw [hbrEq2, hm2, Finset.mem_inter] at hb2
        have e2 : (1 : Nat) / 2 = 0 := rfl
        rw [e2, layerSet_zero] at hb2
        have hbi : b = srcIdx := by simpa using hb2.2
        rw [hbi] at hb
        exact hb
      rw [if_pos htb1, if_pos htb2]
      refine ⟨?_, rfl, ?_⟩
      · rw [hm12]
      · rfl
    · have htb2 : srcIdx ∉
          (searchLoop g false false 6 (initState tgtIdx srcIdx)).bridge := by
        intro hsb
        obtain ⟨hm2, -, -⟩ := final_tgt_mem_bridge hg hidne.symm hsb
        have hm1 : (searchLoop g false false 6 (initState srcIdx tgtIdx)).degSep = 1 := by
          rw [hm12, hm2]
        obtain ⟨hbrEq1, -, -⟩ := final_bridge_facts hg hidne hbr1
        obtain ⟨b, hb⟩ := Finset.nonempty_iff_ne_empty.mpr hbr1
        have hb2 := hb
        rw [hbrEq1, hm1, Finset.mem_inter] at hb2
        have e2 : (1 : Nat) / 2 = 0 := rfl
        rw [e2, layerSet_zero] at hb2
        have hbt : b = tgtIdx := by simpa using hb2.2
        rw [hbt] at hb
        exact htb1 hb
      rw [if_neg htb1, if_neg htb2, if_neg Bool.false_ne_true, if_neg Bool.false_ne_true]
      have hsn := (WikiGraph.topicIndexMap_eq_some hs).1
      have htn := (WikiGraph.topicIndexMap_eq_some ht).1
      have hmm2 : ∀ x : List String,
          x ∈ assemblePaths g (searchLoop g false false 6 (initState tgtIdx srcIdx))
            tgtIdx srcIdx ↔
          x.reverse ∈ assemblePaths g
            (searchLoop g false false 6 (initState srcIdx tgtIdx)) srcIdx tgtIdx := by
        intro x
        rw [assemble_mem_iff hg htn hsn hidne.symm hbr2 htb2,
          assemble_mem_iff hg hsn htn hidne hbr1 htb1]
        constructor
        · rintro ⟨q, rfl, hlen, hh, hl, hc⟩
          refine ⟨q.reverse, ?_, ?_, ?_, ?_, ?_⟩
          · simp
          · rw [List.length_reverse, hlen, hm12]
          · rw [List.head?_reverse, hl]
          · rw [List.getLast?_reverse, hh]
          · rw [List.chain'_reverse]
            exact List.Chain'.imp (fun a c2 hac => (hsym c2 a).mp hac) hc
        · rintro ⟨q, hx, hlen, hh, hl, hc⟩
          refine ⟨q.reverse, ?_, ?_, ?_, ?_, ?_⟩
          · rw [← List.reverse_reverse x, hx]
            simp
          · rw [List.length_reverse, hlen, hm12]
          · rw [List.head?_reverse, hl]
          · rw [List.getLast?_reverse, hh]
          · rw [List.chain'_reverse]
            exact List.Chain'.imp (fun a c2 hac => (hsym c2 a).mp hac) hc
      have hnd1 := assemble_nodup hg hsn htn hidne hbr1 htb1
      have hnd2 := assemble_nodup hg htn hsn hidne.symm hbr2 htb2
      have hperm : List.Perm
          (assemblePaths g (searchLoop g false false 6 (initState tgtIdx srcIdx))
            tgtIdx srcIdx)
          ((assemblePaths g (searchLoop g false false 6 (initState srcIdx tgtIdx))
            srcIdx tgtIdx).map List.reverse) := by
        rw [List.perm_ext_iff_of_nodup hnd2 (hnd1.map List.reverse_injective)]
        intro x
        rw [hmm2 x, List.mem_map]
        constructor
        · intro h
          exact ⟨x.reverse, h, by rw [List.reverse_reverse]⟩
        · rintro ⟨y, hy, rfl⟩
          rw [List.reverse_reverse]
          exact hy
      refine ⟨?_, ?_, ?_⟩
      · rw [hm12]
      · show (assemblePaths g (searchLoop g false false 6 (initState tgtIdx srcIdx))
            tgtIdx srcIdx).length =
          (assemblePaths g (searchLoop g false false 6 (initState srcIdx tgtIdx))
            srcIdx tgtIdx).length
        rw [hperm.length_eq, List.length_map]
      · show some (sortPaths (assemblePaths g
            (searchLoop g false false 6 (initState tgtIdx srcIdx)) tgtIdx srcIdx)) =
          some (sortPaths ((sortPaths (assemblePaths g
            (searchLoop g false false 6 (initState srcIdx tgtIdx)) srcIdx tgtIdx)).map
              List.reverse))
        have hs2 : List.Sorted (· ≤ ·) (sortPaths
            (assemblePaths g (searchLoop g false false 6 (initState tgtIdx srcIdx))
              tgtIdx srcIdx)) := List.sorted_insertionSort (fun a b => a ≤ b) _
        have hs1 : List.Sorted (· ≤ ·) (sortPaths
            ((sortPaths (assemblePaths g (searchLoop g false false 6
              (initState srcIdx tgtIdx)) srcIdx tgtIdx)).map List.reverse)) :=
          List.sorted_insertionSort (fun a b => a ≤ b) _
        have hp2 : List.Perm (sortPaths (assemblePaths g (searchLoop g false false 6
            (initState tgtIdx srcIdx)) tgtIdx srcIdx))
            (sortPaths ((sortPaths (assemblePaths g (searchLoop g false false 6
              (initState srcIdx tgtIdx)) srcIdx tgtIdx)).map List.reverse)) := by
          refine (List.perm_insertionSort (fun a b : List String => a ≤ b) _).trans
            (hperm.trans ?_)
          refine (((List.perm_insertionSort (fun a b : List String => a ≤ b) _).map
            List.reverse).symm.trans ?_)
          exact (List.perm_insertionSort (fun a b : List String => a ≤ b) _).symm
        exact congrArg some (List.eq_of_perm_of_sorted hp2 hs2 hs1)

theorem claim_C8_witness :
    (getShortestPathsInfo (WikiGraph.mk ["a", "b", "c"] [(0, 1), (1, 2)] true)
        "c" "a" false false).1 =
      (getShortestPathsInfo (WikiGraph.mk ["a", "b", "c"] [(0, 1), (1, 2)] true)
        "a" "c" false false).1 ∧
    (getShortestPathsInfo (WikiGraph.mk ["a", "b", "c"] [(0, 1), (1, 2)] true)
        "c" "a" false false).2.1 =
      (getShortestPathsInfo (WikiGraph.mk ["a", "b", "c"] [(0, 1), (1, 2)] true)
        "a" "c" false false).2.1 ∧
    (getShortestPathsInfo (WikiGraph.mk ["a", "b", "c"] [(0, 1), (1, 2)] true)
        "c" "a" false false).2.2 =
      some (sortPaths
        (((getShortestPathsInfo (WikiGraph.mk ["a", "b", "c"] [(0, 1), (1, 2)] true)
          "a" "c" false false).2.2.getD []).map List.reverse)) :=
  claim_C8 (WikiGraph.mk ["a", "b", "c"] [(0, 1), (1, 2)] true) (by decide) "a" "c" 0 2
    (by decide) (by decide)

end Wiki
